import Mathlib

/-!
# agenkLM: bigram statistics, memory retrieval and next-token prediction

A shallow embedding of `src/utils.hpp`, `src/inference.cpp` and the training
half of `src/main.cpp`.

Modelling conventions.

* A `std::string` is a `List Char`.  The C classification functions are the
  ones of the "C" locale; a character above 127 is neither punctuation nor
  white space and has no lower-case form, which is also what the byte-wise
  C functions do on every byte of a UTF-8 sequence.
* In the engine `predict_next_token`, `float` and `double` values are exact
  rationals (`ℚ`): rounding, overflow to infinity and underflow are not
  modelled there.  Two computations decide their outcome by the rounding of
  single operations: the accumulation of the votes of mode 1 and the fusion of
  the scores of mode 2.  The section on single-precision arithmetic gives both
  once more with the IEEE-754 binary32 operations (`vote_f32`, `retrieve_f32`,
  `fuse_scores_f32`), and the statements on the values of the votes and of the
  fused scores are made about those.
* `uint32_t` token ids and `size_t` indices are natural numbers.
* A `std::vector<float>` is a `List ℚ`.  A write through `operator[]` outside
  the vector is undefined behaviour in C++; the embedding returns `none` there.
-/

namespace AgenkLM

/-! ## `utils.hpp`: the tokenizer -/

/-- The `ispunct` of the "C" locale: the printable ASCII characters that are
neither alphanumeric nor the space. -/
def ispunct (c : Char) : Bool :=
  (33 ≤ c.toNat && c.toNat ≤ 47) || (58 ≤ c.toNat && c.toNat ≤ 64) ||
  (91 ≤ c.toNat && c.toNat ≤ 96) || (123 ≤ c.toNat && c.toNat ≤ 126)

/-- The `isspace` of the "C" locale, which `operator>>` uses to delimit a
token: space, `\t`, `\n`, `\v`, `\f`, `\r`. -/
def isspace (c : Char) : Bool :=
  c.toNat == 32 || (9 ≤ c.toNat && c.toNat ≤ 13)

/-- The `std::tolower` of the "C" locale. -/
def tolower (c : Char) : Char :=
  if 65 ≤ c.toNat ∧ c.toNat ≤ 90 then Char.ofNat (c.toNat + 32) else c

/-- The function `sanitize_token`: walk the characters of `s`, append the lower-case form of
every character that is not punctuation. -/
def sanitize_token : List Char → List Char
  | [] => []
  | c :: s => if ispunct c then sanitize_token s else tolower c :: sanitize_token s

/-- What `tokenize` does with an extracted `token`: sanitize it and push it
when the result is not empty.  An empty `token` is never extracted. -/
def push_token (token : List Char) : List (List Char) :=
  if token = [] then []
  else if sanitize_token token = [] then [] else [sanitize_token token]

/-- The loop `while (tokenStream >> token)`: `token` holds the characters read
since the last white space; white space or the end of the stream completes it. -/
def tokenize_loop : List Char → List Char → List (List Char)
  | [], token => push_token token
  | c :: s, token =>
    if isspace c then push_token token ++ tokenize_loop s []
    else tokenize_loop s (token ++ [c])

/-- The function `tokenize`: the loop started on an empty `token`. -/
def tokenize (s : List Char) : List (List Char) := tokenize_loop s []

/-- The white-space delimited pieces of the raw text, before `sanitize_token`:
what `operator>>` extracts. -/
def raw_loop : List Char → List Char → List (List Char)
  | [], token => if token = [] then [] else [token]
  | c :: s, token =>
    if isspace c then (if token = [] then [] else [token]) ++ raw_loop s []
    else raw_loop s (token ++ [c])

/-- The raw tokens of a text. -/
def raw_tokens (s : List Char) : List (List Char) := raw_loop s []

/-- The turn-boundary marker `"[RESPONSE]"`. -/
def RESPONSE_MARKER : List Char := "[RESPONSE]".toList

/-- The test `bool is_responding_turn = (context_tokens.back() == "[RESPONSE]")`, for a
non-empty `context_tokens`. -/
def is_responding_turn (context_tokens : List (List Char)) : Bool :=
  decide (context_tokens.getLast? = some RESPONSE_MARKER)

/-! ## `main.cpp`: the Pairwise Statistics Builder (Phase 1 of `trainModel`)

A corpus is the list of its lines, each line the list of the ids that
`while (ss >> id)` reads from it.  A `std::unordered_map` is an association list
with pairwise distinct keys; a new key is appended.  The iteration order of an
`unordered_map` is unspecified, and nothing below depends on the order chosen.
Counts are natural numbers: a `uint64_t` count does not wrap before `2^64`
adjacent pairs have been read. -/

/-- The inner map `std::unordered_map<uint32_t, uint64_t>`: partner id to count. -/
abbrev Counts := List (Nat × Nat)

/-- The maps `NextGivenCurrentCounts` and `PrevGivenCurrentCounts`. -/
abbrev CountTable := List (Nat × Counts)

/-- The increment `m[b]++` on an inner map: `operator[]` inserts the key with
count 0 when it is absent. -/
def bump : Counts → Nat → Counts
  | [], b => [(b, 1)]
  | (k, c) :: rest, b => if k = b then (k, c + 1) :: rest else (k, c) :: bump rest b

/-- The increment `t[a][b]++` on a table of counts. -/
def bump2 : CountTable → Nat → Nat → CountTable
  | [], a, b => [(a, bump [] b)]
  | (k, m) :: rest, a, b =>
    if k = a then (k, bump m b) :: rest else (k, m) :: bump2 rest a b

/-- The loop `for (i = 0; i < id_tokens.size() - 1; ++i)` over the adjacent
pairs of a line, on the pair of the forward and the backward counts. -/
def count_pairs : List Nat → CountTable × CountTable → CountTable × CountTable
  | a :: b :: rest, st => count_pairs (b :: rest) (bump2 st.1 a b, bump2 st.2 b a)
  | _, st => st

/-- One iteration of `while (std::getline(corpusFile, line))` in Phase 1: a line
with fewer than 2 ids is skipped. -/
def count_line (st : CountTable × CountTable) (id_tokens : List Nat) :
    CountTable × CountTable :=
  if id_tokens.length < 2 then st else count_pairs id_tokens st

/-- Phase 1 on a whole corpus: the forward and the backward counts. -/
def build_counts (corpus : List (List Nat)) : CountTable × CountTable :=
  corpus.foldl count_line ([], [])

/-- The entry `struct ProbEntry` of a distribution record. -/
structure ProbEntry where
  /-- The `uint32_t token_id`. -/
  token_id : Nat
  /-- The `float probability`. -/
  probability : ℚ
deriving DecidableEq

/-- The loop `for (next_pair : pair.second) total_count += next_pair.second`. -/
def total_count (m : Counts) : Nat := m.foldl (fun acc p => acc + p.2) 0

/-- The record `dist` built for one conditioning id:
`{next_pair.first, static_cast<float>(next_pair.second) / total_count}`. -/
def make_dist (m : Counts) : List ProbEntry :=
  m.map (fun p => { token_id := p.1, probability := (p.2 : ℚ) / (total_count m : ℚ) })

/-- The writing loop over a table of counts: the list of the `lmdb::put` calls,
key and record; a conditioning id whose total is 0 is skipped. -/
def write_distributions : CountTable → List (Nat × List ProbEntry)
  | [] => []
  | (k, m) :: rest =>
    if total_count m = 0 then write_distributions rest
    else (k, make_dist m) :: write_distributions rest

/-- The records `trainModel` puts into `p_next_given_current`. -/
def forward_table (corpus : List (List Nat)) : List (Nat × List ProbEntry) :=
  write_distributions (build_counts corpus).1

/-- The records `trainModel` puts into `p_prev_given_current`. -/
def backward_table (corpus : List (List Nat)) : List (Nat × List ProbEntry) :=
  write_distributions (build_counts corpus).2

/-! ## `inference.cpp`: the Prediction Engine -/

/-- A table of distribution records as `mdb_get` sees it: `none` is
`MDB_NOTFOUND`, `some dist` is the `mv_size / sizeof(ProbEntry)` entries of the
record found. -/
abbrev Table := Nat → Option (List ProbEntry)

/-- The table `memory_outcomes` as `mdb_get` sees it: memory index to outcome id. -/
abbrev MemoryTable := Nat → Option Nat

/-- The helper `get_prob`: the probability of the first entry whose id is `target_id`,
`0.0f` when there is none. -/
def get_prob : List ProbEntry → Nat → ℚ
  | [], _ => 0
  | entry :: dist, target_id =>
    if entry.token_id = target_id then entry.probability else get_prob dist target_id

/-- The constant `ATTENTION_MULTIPLIER = 10000.0f`. -/
def ATTENTION_MULTIPLIER : ℚ := 10000

/-- The constant `REPETITION_PENALTY = 1.5f`. -/
def REPETITION_PENALTY : ℚ := 3 / 2

/-- The constant `TOP_K = 40`. -/
def TOP_K : Nat := 40

/-- The constant `NUM_NEIGHBORS = 25`. -/
def NUM_NEIGHBORS : Nat := 25

/-- The constant `VECTOR_DIMENSION = 256`. -/
def VECTOR_DIMENSION : Nat := 256

/-- The threshold `1e-9`. -/
def EPS : ℚ := 1 / 1000000000

/-- What `predict_next_token` returns: one of the six sentinel strings, or
`id_to_vocab[id]` for a token id. -/
inductive Prediction where
  | EMPTY_CONTEXT
  | UNKNOWN_CONTEXT
  | NO_MEMORY_MATCH
  | NO_VALID_PREDICTION
  | NO_CONFIDENT_PREDICTION
  | DB_ERROR
  | token (best_token_id : Nat)
deriving DecidableEq

/-- The string returned for a `Prediction`. -/
def Prediction.render (id_to_vocab : List (List Char)) : Prediction → List Char
  | .EMPTY_CONTEXT => "[EMPTY_CONTEXT]".toList
  | .UNKNOWN_CONTEXT => "[UNKNOWN_CONTEXT]".toList
  | .NO_MEMORY_MATCH => "[NO_MEMORY_MATCH]".toList
  | .NO_VALID_PREDICTION => "[NO_VALID_PREDICTION]".toList
  | .NO_CONFIDENT_PREDICTION => "[NO_CONFIDENT_PREDICTION]".toList
  | .DB_ERROR => "[DB_ERROR]".toList
  | .token best_token_id => id_to_vocab.getD best_token_id []

/-- The state of an `InferenceEngine` that `predict_next_token` reads.  The
store and the vector index are external: a transaction or a table that cannot
be opened throws, which the `catch` turns into `[DB_ERROR]`. -/
structure InferenceEngine where
  /-- The map `vocab_to_id`; `none` is `count(...) == 0`. -/
  vocab_to_id : List Char → Option Nat
  /-- The array `id_to_vocab`. -/
  id_to_vocab : List (List Char)
  /-- The value of `ann_index->getCurrentElementCount()`. -/
  ann_count : Nat
  /-- The result of `ann_index->searchKnn(query, k)`, in the order in which
  `top()` and `pop()` deliver it: pairs of distance and memory index. -/
  searchKnn : List ℚ → Nat → List (ℚ × Nat)
  /-- Whether `lmdb::txn txn(env, nullptr, MDB_RDONLY)` succeeds. -/
  txn_ok : Bool
  /-- The table `p_next_given_current`; `none` when `lmdb::dbi` throws. -/
  p_next_given_current : Option Table
  /-- The table `p_prev_given_current`; `none` when `lmdb::dbi` throws. -/
  p_prev_given_current : Option Table
  /-- The table `memory_outcomes`; `none` when `lmdb::dbi` throws. -/
  memory_outcomes : Option MemoryTable

/-! ### Mode 1: retrieval -/

/-- The statement `vec[i] += 1.0f` on a vector of dimension 256, `i` being a
residue modulo 256. -/
def incr (vec : List ℚ) (i : Nat) : List ℚ := vec.set i (vec.getD i 0 + 1)

/-- The query vector: for every context token but the last, if it is in the
vocabulary, `query_vec[id % VECTOR_DIMENSION] += 1.0f`. -/
def query_vector (vocab_to_id : List Char → Option Nat)
    (context_tokens : List (List Char)) : List ℚ :=
  context_tokens.dropLast.foldl
    (fun vec tok =>
      match vocab_to_id tok with
      | some id => incr vec (id % VECTOR_DIMENSION)
      | none => vec)
    (List.replicate VECTOR_DIMENSION 0)

/-- The loop `while (!result.empty())`: for every neighbour whose memory record
is found, `memory_scores[outcome_id] += 1.0f / (1.0f + distance)`, with exact
rational scores.  It serves the statements that do not depend on the rounding
(which writes are in range, whether some score is positive); `vote_f32` is the
same loop with the `float` operations. -/
def vote (mem : MemoryTable) : List (ℚ × Nat) → List ℚ → Option (List ℚ)
  | [], memory_scores => some memory_scores
  | (d, mem_idx) :: result, memory_scores =>
    match mem mem_idx with
    | some outcome_id =>
      if outcome_id < memory_scores.length then
        vote mem result
          (memory_scores.set outcome_id (memory_scores.getD outcome_id 0 + 1 / (1 + d)))
      else none
    | none => vote mem result memory_scores

/-- The loop `for (i = 0; i < memory_scores.size(); ++i)` that keeps the first
strictly largest score: the scores still to visit, the index `i`, and the pair
of `best_token_id` and `max_score`. -/
def argmax_loop : List ℚ → Nat → Nat × ℚ → Nat × ℚ
  | [], _, st => st
  | s :: rest, i, st =>
    if s > st.2 then argmax_loop rest (i + 1) (i, s) else argmax_loop rest (i + 1) st

/-- The end of mode 1, from `uint32_t best_token_id = 0; float max_score = -1.0f`. -/
def select_best (memory_scores : List ℚ) : Prediction :=
  let st := argmax_loop memory_scores 0 (0, -1)
  if st.2 ≤ 0 then Prediction.NO_MEMORY_MATCH else Prediction.token st.1

/-- Voting and selection for a given list of neighbours, on score vectors of
length `size`. -/
def retrieve (size : Nat) (mem : MemoryTable) (result : List (ℚ × Nat)) :
    Option Prediction :=
  (vote mem result (List.replicate size 0)).map select_best

/-- Mode 1 of `predict_next_token`. -/
def retrieval_mode (E : InferenceEngine) (context_tokens : List (List Char)) :
    Option Prediction :=
  let query_vec := query_vector E.vocab_to_id context_tokens
  if E.ann_count > 0 then
    if E.txn_ok then
      match E.memory_outcomes with
      | some mem => retrieve E.id_to_vocab.length mem (E.searchKnn query_vec NUM_NEIGHBORS)
      | none => some Prediction.DB_ERROR
    else some Prediction.DB_ERROR
  else some (select_best (List.replicate E.id_to_vocab.length 0))

/-! ### Mode 2: generation -/

/-- The loops `final_scores[entries[i].token_id] += f(entries[i].probability)`
over the entries of a record. -/
def add_entries (f : ℚ → ℚ) : List ProbEntry → List ℚ → Option (List ℚ)
  | [], final_scores => some final_scores
  | entry :: entries, final_scores =>
    if entry.token_id < final_scores.length then
      add_entries f entries
        (final_scores.set entry.token_id
          (final_scores.getD entry.token_id 0 + f entry.probability))
    else none

/-- The seeding of the scores with the forward record of `last_token_id`. -/
def seed_scores (p_next : Table) (last_token_id : Nat) (final_scores : List ℚ) :
    Option (List ℚ) :=
  match p_next last_token_id with
  | some entries => add_entries (fun p => p) entries final_scores
  | none => some final_scores

/-- One iteration of the loop over the context positions before the last, with
exact rational scores: the product `attention_score` is not rounded here.
`attention_step_f32` is the same iteration with the `float` product compared
with `1e-9` and the `float` updates. -/
def attention_step (p_next p_prev : Table) (last_token_id : Nat)
    (final_scores : List ℚ) (prev_token_id : Nat) : Option (List ℚ) :=
  let p_last_given_prev : ℚ :=
    match p_next prev_token_id with
    | some dist => get_prob dist last_token_id
    | none => 0
  let p_prev_given_last : ℚ :=
    match p_prev last_token_id with
    | some dist => get_prob dist prev_token_id
    | none => 0
  let attention_score := p_last_given_prev * p_prev_given_last
  if attention_score < EPS then some final_scores
  else
    match p_next prev_token_id with
    | some entries =>
      add_entries (fun p => ATTENTION_MULTIPLIER * attention_score * p) entries final_scores
    | none => some final_scores

/-- The loop `for (i = 0; i < context_ids.size() - 1; ++i)`, on the ids at these
positions. -/
def attention_loop (p_next p_prev : Table) (last_token_id : Nat) :
    List Nat → List ℚ → Option (List ℚ)
  | [], final_scores => some final_scores
  | prev_token_id :: rest, final_scores =>
    match attention_step p_next p_prev last_token_id final_scores prev_token_id with
    | some final_scores1 => attention_loop p_next p_prev last_token_id rest final_scores1
    | none => none

/-- The scores before the repetition penalty, for a non-empty `context_ids` and
score vectors of length `size`. -/
def fuse_scores (p_next p_prev : Table) (context_ids : List Nat) (size : Nat) :
    Option (List ℚ) :=
  let last_token_id := context_ids.getLastD 0
  match seed_scores p_next last_token_id (List.replicate size 0) with
  | some final_scores =>
    if context_ids.length > 1 then
      attention_loop p_next p_prev last_token_id context_ids.dropLast final_scores
    else some final_scores
  | none => none

/-- One iteration of the penalty loop:
`final_scores[context_ids[context_ids.size() - 1 - i]] /= REPETITION_PENALTY`. -/
def penalty_step (context_ids : List Nat) (final_scores : List ℚ) (i : Nat) :
    Option (List ℚ) :=
  let id := context_ids.getD (context_ids.length - 1 - i) 0
  if id < final_scores.length then
    some (final_scores.set id (final_scores.getD id 0 / REPETITION_PENALTY))
  else none

/-- The loop `for (i = 0; i < lookback; ++i)` on the indices still to visit. -/
def penalty_loop (context_ids : List Nat) : List Nat → List ℚ → Option (List ℚ)
  | [], final_scores => some final_scores
  | i :: rest, final_scores =>
    match penalty_step context_ids final_scores i with
    | some final_scores1 => penalty_loop context_ids rest final_scores1
    | none => none

/-- The repetition penalty, with `lookback = min(15, context_ids.size())`. -/
def apply_penalty (context_ids : List Nat) (final_scores : List ℚ) : Option (List ℚ) :=
  penalty_loop context_ids (List.range (min 15 context_ids.length)) final_scores

/-- The loop that collects `{final_scores[i], i}` for the scores above `1e-9`:
the scores still to visit and the index `i`. -/
def collect_loop : List ℚ → Nat → List (ℚ × Nat)
  | [], _ => []
  | s :: rest, i =>
    if s > EPS then (s, i) :: collect_loop rest (i + 1) else collect_loop rest (i + 1)

/-- The order of `std::sort(sorted_scores.rbegin(), sorted_scores.rend())`: the
pair `a` stands before `b` when `a >= b` in the lexicographic order of pairs. -/
def pair_ge (a b : ℚ × Nat) : Prop := b.1 < a.1 ∨ (b.1 = a.1 ∧ b.2 ≤ a.2)

instance pair_ge_decidable : DecidableRel pair_ge :=
  fun a b => inferInstanceAs (Decidable (b.1 < a.1 ∨ (b.1 = a.1 ∧ b.2 ≤ a.2)))

/-- The candidates after the sort, before the truncation. -/
def sort_scores (final_scores : List ℚ) : List (ℚ × Nat) :=
  List.insertionSort pair_ge (collect_loop final_scores 0)

/-- The retained candidates: `sorted_scores` after `resize(TOP_K)`. -/
def select_candidates (final_scores : List ℚ) : List (ℚ × Nat) :=
  (sort_scores final_scores).take TOP_K

/-- The loop `for (pair : sorted_scores) total_score += pair.first`. -/
def total_score (sorted_scores : List (ℚ × Nat)) : ℚ :=
  sorted_scores.foldl (fun acc p => acc + p.1) 0

/-- The sampling loop: the pairs still to visit, `cumulative_score`, `sample`,
and the initial `best_token_id`, returned when no pair is selected. -/
def sample_loop : List (ℚ × Nat) → ℚ → ℚ → Nat → Nat
  | [], _, _, best_token_id => best_token_id
  | p :: rest, cumulative_score, sample, best_token_id =>
    if sample < cumulative_score + p.1 then p.2
    else sample_loop rest (cumulative_score + p.1) sample best_token_id

/-- The sampling on a non-empty candidate list, `sample` being the value of
`dis(gen)`. -/
def roulette (sorted_scores : List (ℚ × Nat)) (sample : ℚ) : Nat :=
  sample_loop sorted_scores 0 sample (sorted_scores.headD (0, 0)).2

/-- The end of mode 2, from the collection of the candidates to the return. -/
def choose_token (final_scores : List ℚ) (sample : ℚ) : Prediction :=
  if sort_scores final_scores = [] then Prediction.NO_VALID_PREDICTION
  else
    let sorted_scores := select_candidates final_scores
    if total_score sorted_scores < EPS then Prediction.NO_CONFIDENT_PREDICTION
    else Prediction.token (roulette sorted_scores sample)

/-- The ids of the context tokens that are in the vocabulary. -/
def context_ids_of (vocab_to_id : List Char → Option Nat)
    (context_tokens : List (List Char)) : List Nat :=
  context_tokens.filterMap vocab_to_id

/-- Mode 2 of `predict_next_token`; `sample` is the value of `dis(gen)`. -/
def generative_mode (E : InferenceEngine) (context_tokens : List (List Char))
    (sample : ℚ) : Option Prediction :=
  if E.txn_ok then
    match E.p_next_given_current, E.p_prev_given_current with
    | some p_next, some p_prev =>
      let context_ids := context_ids_of E.vocab_to_id context_tokens
      if context_ids = [] then some Prediction.UNKNOWN_CONTEXT
      else
        match fuse_scores p_next p_prev context_ids E.id_to_vocab.length with
        | some final_scores =>
          match apply_penalty context_ids final_scores with
          | some final_scores1 => some (choose_token final_scores1 sample)
          | none => none
        | none => none
    | _, _ => some Prediction.DB_ERROR
  else some Prediction.DB_ERROR

/-- The method `InferenceEngine::predict_next_token`.  The result `none` stands for
undefined behaviour (a write outside a score vector). -/
def predict_next_token (E : InferenceEngine) (context : List Char) (sample : ℚ) :
    Option Prediction :=
  let context_tokens := tokenize context
  if context_tokens = [] then some Prediction.EMPTY_CONTEXT
  else if is_responding_turn context_tokens then retrieval_mode E context_tokens
  else generative_mode E context_tokens sample

/-- The string `predict_next_token` returns. -/
def predict_next_token_string (E : InferenceEngine) (context : List Char) (sample : ℚ) :
    Option (List Char) :=
  (predict_next_token E context sample).map (Prediction.render E.id_to_vocab)

/-! ## Specification-side notions used in the statements -/

/-- The probability `p(x | k)` read from a table: `0` for a missing key or a
missing entry. -/
def prob_of (t : Table) (k x : Nat) : ℚ :=
  match t k with
  | some dist => get_prob dist x
  | none => 0

/-- The two-hop bridge weight `p_next(last | prev) * p_prev(prev | last)`. -/
def bridge (p_next p_prev : Table) (last prev : Nat) : ℚ :=
  prob_of p_next prev last * prob_of p_prev last prev

/-- The contribution of one earlier context position to the score of `t`. -/
def bridge_term (p_next p_prev : Table) (last t prev : Nat) : ℚ :=
  if bridge p_next p_prev last prev < EPS then 0
  else 10000 * bridge p_next p_prev last prev * prob_of p_next prev t

/-- The accumulated vote of the outcome id `o`: the sum of `1 / (1 + d)` over
the neighbours whose memory record maps to `o`. -/
def vote_total (mem : MemoryTable) (o : Nat) : List (ℚ × Nat) → ℚ
  | [] => 0
  | (d, m) :: rest =>
    (if mem m = some o then 1 / (1 + d) else 0) + vote_total mem o rest

/-- The cumulative sum `S_i` of the first `i` scores of a candidate list. -/
def cumulative (sorted_scores : List (ℚ × Nat)) (i : Nat) : ℚ :=
  ((sorted_scores.take i).map Prod.fst).sum

/-- The number of tokens whose score exceeds `1e-9`. -/
def qualifying (final_scores : List ℚ) : Nat :=
  (final_scores.filter (fun s => decide (s > EPS))).length

/-! ## Small tables used in the examples -/

/-- A forward table: `0 ↦ {1: 1}`, `1 ↦ {0: 1/2, 2: 1/2}`. -/
def demo_p_next : Table := fun k =>
  if k = 0 then some [⟨1, 1⟩]
  else if k = 1 then some [⟨0, 1 / 2⟩, ⟨2, 1 / 2⟩]
  else none

/-- A backward table: `1 ↦ {0: 1}`, `0 ↦ {1: 1}`, `2 ↦ {1: 1}`. -/
def demo_p_prev : Table := fun k =>
  if k = 1 then some [⟨0, 1⟩]
  else if k = 0 then some [⟨1, 1⟩]
  else if k = 2 then some [⟨1, 1⟩]
  else none

/-- An engine over the vocabulary `a ↦ 0`, `b ↦ 1`, `c ↦ 2` with the tables
`demo_p_next` and `demo_p_prev` and an empty vector index. -/
def demo_engine : InferenceEngine where
  vocab_to_id := fun tok =>
    if tok = "a".toList then some 0
    else if tok = "b".toList then some 1
    else if tok = "c".toList then some 2
    else none
  id_to_vocab := ["a".toList, "b".toList, "c".toList]
  ann_count := 0
  searchKnn := fun _ _ => []
  txn_ok := true
  p_next_given_current := some demo_p_next
  p_prev_given_current := some demo_p_prev
  memory_outcomes := some (fun _ => none)

/-- The value of `m[b]` in an inner map, 0 when the key is absent. -/
def lookup_count : Counts → Nat → Nat
  | [], _ => 0
  | (k, c) :: rest, b => if k = b then c else lookup_count rest b

/-- The value of `t[a][b]` in a table of counts, 0 when a key is absent. -/
def count_at : CountTable → Nat → Nat → Nat
  | [], _, _ => 0
  | (k, m) :: rest, a, b => if k = a then lookup_count m b else count_at rest a b

/-- The number of positions of a line at which `a` is immediately followed by
`b`: the occurrences of `(a, b)` among the adjacent pairs. -/
def adjacent_count (line : List Nat) (a b : Nat) : Nat :=
  (line.zip line.tail).count (a, b)

/-- The number of such positions over all lines with at least 2 ids. -/
def corpus_adjacent (corpus : List (List Nat)) (a b : Nat) : Nat :=
  ((corpus.filter (fun line => decide (2 ≤ line.length))).map
    (fun line => adjacent_count line a b)).sum

/-- The invariant of an inner map of counts: it is not empty, its keys are
pairwise distinct and every count is positive. -/
def counts_ok (m : Counts) : Prop :=
  m ≠ [] ∧ (m.map Prod.fst).Nodup ∧ ∀ p ∈ m, 0 < p.2

/-- The invariant of a table of counts: its keys are pairwise distinct and every
inner map satisfies `counts_ok`. -/
def table_ok (t : CountTable) : Prop :=
  (t.map Prod.fst).Nodup ∧ ∀ p ∈ t, counts_ok p.2

/-! ## `main.cpp`: the Memory Indexer (Phase 2 of `trainModel`)

The vector index and the store are external.  `addPoint` and `lmdb::put` are
taken to succeed; the state records the calls made, in order. -/

/-- The constant `INSTRUCTION_ID = 3`. -/
def INSTRUCTION_ID : Nat := 3

/-- The constant `RESPONSE_ID = 4`. -/
def RESPONSE_ID : Nat := 4

/-- The vector built for an instruction: `vec[token_id % VECTOR_DIMENSION] += 1.0f`
for every id of `current_instruction_ids`, from the zero vector. -/
def instruction_vector (current_instruction_ids : List Nat) : List ℚ :=
  current_instruction_ids.foldl (fun vec token_id => incr vec (token_id % VECTOR_DIMENSION))
    (List.replicate VECTOR_DIMENSION 0)

/-- The variables of Phase 2 and the calls made so far. -/
structure IndexerState where
  /-- The counter `memory_idx`. -/
  memory_idx : Nat
  /-- The pending instruction `current_instruction_ids`. -/
  current_instruction_ids : List Nat
  /-- The calls `ann_index->addPoint(vec.data(), memory_idx)`: vector and label. -/
  ann_points : List (List ℚ × Nat)
  /-- The calls `lmdb::put(mem_txn, mem_dbi, memory_idx, first_response_token_id)`:
  key and value. -/
  memory_puts : List (Nat × Nat)

/-- One iteration of `while (std::getline(corpusFile, line))` in Phase 2. -/
def index_line (st : IndexerState) (id_tokens : List Nat) : IndexerState :=
  match id_tokens with
  | [] => st
  | first :: rest =>
    if first = INSTRUCTION_ID then
      { st with current_instruction_ids := rest }
    else if first = RESPONSE_ID ∧ st.current_instruction_ids ≠ [] ∧ id_tokens.length > 1 then
      { memory_idx := st.memory_idx + 1
        current_instruction_ids := []
        ann_points :=
          st.ann_points ++ [(instruction_vector st.current_instruction_ids, st.memory_idx)]
        memory_puts := st.memory_puts ++ [(st.memory_idx, id_tokens.getD 1 0)] }
    else st

/-- Phase 2 on a whole corpus, from `memory_idx = 0` and an empty instruction. -/
def build_memory (corpus : List (List Nat)) : IndexerState :=
  corpus.foldl index_line
    { memory_idx := 0, current_instruction_ids := [], ann_points := [], memory_puts := [] }

/-- An instruction line: its first id is the marker 3. -/
def is_instruction_line (id_tokens : List Nat) : Prop := id_tokens.head? = some 3

/-- A response line with at least one id after the marker 4. -/
def is_qualifying_response (id_tokens : List Nat) : Prop :=
  id_tokens.head? = some 4 ∧ 1 < id_tokens.length

instance is_instruction_line_decidable (l : List Nat) : Decidable (is_instruction_line l) :=
  inferInstanceAs (Decidable (l.head? = some 3))

instance is_qualifying_response_decidable (l : List Nat) :
    Decidable (is_qualifying_response l) :=
  inferInstanceAs (Decidable (l.head? = some 4 ∧ 1 < l.length))

/-- The `w` bytes of an unsigned integer, lowest first (the value modulo `256^w`). -/
def le_bytes (n : Nat) : Nat → List Nat
  | 0 => []
  | w + 1 => (n % 256) :: le_bytes (n / 256) w

/-- The unsigned integer that a list of bytes holds, lowest first. -/
def of_le_bytes : List Nat → Nat
  | [] => 0
  | b :: bs => b + 256 * of_le_bytes bs

/-- A table of the store: keys and values as bytes, keys pairwise distinct. -/
abbrev ByteStore := List (List Nat × List Nat)

/-- The call `mdb_put` with flags 0: the value of an existing key is replaced, a
new key is added. -/
def mdb_put : ByteStore → List Nat → List Nat → ByteStore
  | [], key, data => [(key, data)]
  | (k, v) :: rest, key, data =>
    if k = key then (k, data) :: rest else (k, v) :: mdb_put rest key data

/-- The call `mdb_get` by exact key: the value found, `none` for `MDB_NOTFOUND`. -/
def mdb_get : ByteStore → List Nat → Option (List Nat)
  | [], _ => none
  | (k, v) :: rest, key => if k = key then some v else mdb_get rest key

/-- The table `memory_outcomes` after the puts of Phase 2: the key is
`lmdb::val(memory_idx)` (a `uint64_t`, 8 bytes), the value
`lmdb::val(first_response_token_id)` (a `uint32_t`, 4 bytes). -/
def write_memory (memory_puts : List (Nat × Nat)) : ByteStore :=
  memory_puts.foldl (fun store p => mdb_put store (le_bytes p.1 8) (le_bytes p.2 4)) []

/-- The read of mode 1: `mdb_get` with the key `lmdb::val mem_key(mem_idx)` (8
bytes), then `*static_cast<uint32_t*>(outcome_data.mv_data)`, the first 4 bytes
of the value. -/
def read_outcome (store : ByteStore) (mem_idx : Nat) : Option Nat :=
  (mdb_get store (le_bytes mem_idx 8)).map (fun data => of_le_bytes (data.take 4))

/-- The memory table that mode 1 reads from a stored table. -/
def memory_table_of (store : ByteStore) : MemoryTable := fun mem_idx => read_outcome store mem_idx

/-- The value of an IEEE-754 binary32 bit pattern as a rational: sign bit,
8 exponent bits, 23 fraction bits.  The patterns of exponent 255 (infinities
and NaN) are not modelled. -/
def float_of_bits (bits : Nat) : ℚ :=
  let e := bits / 8388608 % 256
  let m := bits % 8388608
  let magnitude : ℚ :=
    if e = 0 then (m : ℚ) * 2 / 2 ^ 150 else ((8388608 + m : Nat) : ℚ) * 2 ^ e / 2 ^ 150
  if bits / 2147483648 % 2 = 1 then -magnitude else magnitude

/-- The entry `entries[i]` of a record: the `ProbEntry` in the 8 bytes from offset
`8 * i`, a `uint32_t token_id` and a `float probability`. -/
def entry_at (data : List Nat) (i : Nat) : ProbEntry :=
  { token_id := of_le_bytes ((data.drop (8 * i)).take 4)
    probability := float_of_bits (of_le_bytes ((data.drop (8 * i + 4)).take 4)) }

/-- The entries that the loops `for (i = 0; i < db_data.mv_size / sizeof(ProbEntry); ++i)`
and the `std::vector<ProbEntry> dist(begin, begin + mv_size / sizeof(ProbEntry))`
read from a value of `mv_size = data.length` bytes. -/
def read_entries (data : List Nat) : List ProbEntry :=
  (List.range (data.length / 8)).map (entry_at data)

/-- The table of distribution records that mode 2 reads from a stored table. -/
def table_of (store : ByteStore) : Table := fun k =>
  (mdb_get store (le_bytes k 4)).map read_entries

/-! ## `inference.cpp`: `load_vocabulary_from_db` -/

/-- The call `id_to_vocab.resize(n)`: truncate, or pad with empty strings. -/
def resize (id_to_vocab : List (List Char)) (n : Nat) : List (List Char) :=
  if n ≤ id_to_vocab.length then id_to_vocab.take n
  else id_to_vocab ++ List.replicate (n - id_to_vocab.length) []

/-- One iteration of `for (const auto& pair : vocab_to_id)`:
`if (pair.second >= id_to_vocab.size()) id_to_vocab.resize(pair.second + 100);`
where `pair.second + 100` is computed in `uint32_t`, then
`id_to_vocab[pair.second] = pair.first`; `none` when that write is outside the
array. -/
def load_step (id_to_vocab : List (List Char)) (pair : List Char × Nat) :
    Option (List (List Char)) :=
  let resized :=
    if pair.2 ≥ id_to_vocab.length then resize id_to_vocab ((pair.2 + 100) % 4294967296)
    else id_to_vocab
  if pair.2 < resized.length then some (resized.set pair.2 pair.1) else none

/-- The loop over the pairs of `vocab_to_id`, in the order of iteration. -/
def load_loop : List (List Char × Nat) → List (List Char) → Option (List (List Char))
  | [], id_to_vocab => some id_to_vocab
  | pair :: rest, id_to_vocab =>
    match load_step id_to_vocab pair with
    | some id_to_vocab1 => load_loop rest id_to_vocab1
    | none => none

/-- The array `id_to_vocab` after `load_vocabulary_from_db`, for the pairs of
`vocab_to_id` in their order of iteration: first
`id_to_vocab.resize(vocab_to_id.size() + 100)`, then the loop. -/
def load_id_to_vocab (vocab_to_id : List (List Char × Nat)) : Option (List (List Char)) :=
  load_loop vocab_to_id (resize [] (vocab_to_id.length + 100))

/-! ## The tokenizer as the specification words it -/

/-- The tokens of a text by the specification: split on white space, delete the
punctuation of every piece, lower-case the rest, drop the pieces left empty. -/
def tokenize_spec (s : List Char) : List (List Char) :=
  ((s.splitOnP isspace).map
    (fun piece => (piece.filter (fun c => !ispunct c)).map tolower)).filter
    (fun t => decide (t ≠ []))

/-- An upper-case ASCII letter. -/
def isupper (c : Char) : Bool := 65 ≤ c.toNat && c.toNat ≤ 90

/-! ## Small inputs used in the examples -/

/-- A corpus of five lines: an instruction, its response, a second response
without instruction, a short line and a line of plain text ids. -/
def demo_corpus : List (List Nat) :=
  [[3, 10, 266, 11], [4, 7, 8], [4, 9], [5], [10, 266, 10, 266]]

/-- A value of 12 bytes: the entry `{1, 1.0f}` followed by 4 bytes. -/
def demo_malformed : List Nat := [1, 0, 0, 0, 0, 0, 128, 63, 9, 9, 9, 9]

/-! ## Single-precision arithmetic

The votes of mode 1 and the fused scores of mode 2 are `float` values, and
which token wins, or whether a context position is skipped, depends on the
rounding of every single operation.  This section gives the IEEE-754 binary32
operations on finite non-negative values and, with them, the voting loop and
the fusion loops once more.

A finite non-negative `float` is an integer multiple of `2^-149` (the smallest
subnormal); it is represented by that integer, a natural number of *units*:
`1.0f` is `2^149`.  Every operation rounds its exact result to the nearest
value of 24 significant bits, a tie going to the even significand: the default
rounding mode, with `FLT_EVAL_METHOD == 0` and no fused multiply-add.  Negative
values, infinities and NaN are not represented; a result of `2^128` or more,
which the machine turns into infinity, is outside the model. -/

/-- The integer nearest to `N / D`, a tie going to the even integer. -/
def round_half_even (N D : Nat) : Nat :=
  if 2 * (N % D) > D ∨ (2 * (N % D) = D ∧ (N / D) % 2 = 1) then N / D + 1 else N / D

/-- The loop of `ilog2`; `fuel` bounds the number of halvings. -/
def log2_loop : Nat → Nat → Nat
  | 0, _ => 0
  | fuel + 1, n => if n < 2 then 0 else log2_loop fuel (n / 2) + 1

/-- The position of the leading bit of `n`, that is `⌊log₂ n⌋`; 0 for `n = 0`. -/
def ilog2 (n : Nat) : Nat := log2_loop n n

/-- The `float` nearest to the exact value of `N / D` units.  With `e` the
position of the leading bit of `⌊N / D⌋`, the floats around `N / D` are the
multiples of `2^(e - 23)` units (of one unit up to `2^24` units: the subnormal
range and the first binade), and `N / D` is rounded to the nearest of them. -/
@[irreducible]
def f32_round (N D : Nat) : Nat :=
  round_half_even N (D * 2 ^ (ilog2 (N / D) - 23)) * 2 ^ (ilog2 (N / D) - 23)

/-- The value `1.0f`. -/
def F32_ONE : Nat := 2 ^ 149

/-- The value `FLT_MAX`, the largest finite `float`: `(2^24 - 1) * 2^104`. -/
def F32_MAX : Nat := (2 ^ 24 - 1) * 2 ^ 253

/-- The `float` sum `x + y`. -/
def f32_add (x y : Nat) : Nat := f32_round (x + y) 1

/-- The `float` product `x * y`. -/
def f32_mul (x y : Nat) : Nat := f32_round (x * y) (2 ^ 149)

/-- The `float` quotient `x / y`, for `y` other than 0. -/
def f32_div (x y : Nat) : Nat := f32_round (x * 2 ^ 149) y

/-- The `float` nearest to the fraction `a / b`: what a decimal literal such as
`0.2f` denotes. -/
def f32_of_ratio (a b : Nat) : Nat := f32_round (a * 2 ^ 149) b

/-- The exact value of a `float` given in units. -/
def f32_to_rat (x : Nat) : ℚ := (x : ℚ) / 2 ^ 149

/-- The units of the `float` stored as an IEEE-754 binary32 bit pattern with the
sign bit 0 and an exponent field below 255: the fraction bits for the exponent
field 0 (subnormal), and `(2^23 + fraction) * 2^(e - 1)` for the field `e`. -/
def f32_of_bits (bits : Nat) : Nat :=
  let e := bits / 8388608 % 256
  let m := bits % 8388608
  if e = 0 then m else (8388608 + m) * 2 ^ (e - 1)

/-- The constant `ATTENTION_MULTIPLIER = 10000.0f`, in units. -/
def ATTENTION_MULTIPLIER_F32 : Nat := 10000 * 2 ^ 149

/-- The `double` constant `1e-9`, which is `0x1.12e0be826d695p-30`, that is
`4835703278458517 * 2^-82`, in units.  A `float` compared with it is converted
to `double` without change of value. -/
def EPS_F64 : Nat := 4835703278458517 * 2 ^ 67

/-! ### Mode 1 in single precision -/

/-- The vote `1.0f / (1.0f + distance)` of one neighbour. -/
def vote_weight (d : Nat) : Nat := f32_div F32_ONE (f32_add F32_ONE d)

/-- The loop `while (!result.empty())` on `float` scores: for every neighbour,
in the order of `top()` and `pop()`, whose memory record is found,
`memory_scores[outcome_id] += 1.0f / (1.0f + distance)`.  Distances and scores
are in units; `none` is a write outside `memory_scores`. -/
def vote_f32 (mem : MemoryTable) : List (Nat × Nat) → List Nat → Option (List Nat)
  | [], memory_scores => some memory_scores
  | (d, mem_idx) :: result, memory_scores =>
    match mem mem_idx with
    | some outcome_id =>
      if outcome_id < memory_scores.length then
        vote_f32 mem result
          (memory_scores.set outcome_id
            (f32_add (memory_scores.getD outcome_id 0)
              (f32_div F32_ONE (f32_add F32_ONE d))))
      else none
    | none => vote_f32 mem result memory_scores

/-- Voting and selection on `float` scores, for a given list of neighbours and
score vectors of length `size`: the loop `vote_f32` from `memory_scores` all
`0.0f`, then the selection `select_best` on the values of the scores. -/
def retrieve_f32 (size : Nat) (mem : MemoryTable) (result : List (Nat × Nat)) :
    Option Prediction :=
  (vote_f32 mem result (List.replicate size 0)).map
    (fun memory_scores => select_best (memory_scores.map f32_to_rat))

/-- The `float` score that the outcome id `o` accumulates: from `0.0f`, in the
order of the neighbours, the `float` sum of the votes `1.0f / (1.0f + d)` of the
neighbours whose memory record maps to `o`. -/
def vote_total_f32 (mem : MemoryTable) (o : Nat) (result : List (Nat × Nat)) : Nat :=
  ((result.filter (fun p => decide (mem p.2 = some o))).map
    (fun p => vote_weight p.1)).foldl f32_add 0

/-- The neighbours of a `float` result list with the exact values of their
distances. -/
def exact_neighbours (result : List (Nat × Nat)) : List (ℚ × Nat) :=
  result.map (fun p => (f32_to_rat p.1, p.2))

/-! ### Mode 2 in single precision -/

/-- The entry `struct ProbEntry` with its `float probability` in units. -/
structure ProbEntry32 where
  /-- The `uint32_t token_id`. -/
  token_id : Nat
  /-- The `float probability`, in units. -/
  probability : Nat
deriving DecidableEq

/-- A table of distribution records with `float` probabilities. -/
abbrev Table32 := Nat → Option (List ProbEntry32)

/-- The helper `get_prob` on `float` probabilities. -/
def get_prob_f32 : List ProbEntry32 → Nat → Nat
  | [], _ => 0
  | entry :: dist, target_id =>
    if entry.token_id = target_id then entry.probability else get_prob_f32 dist target_id

/-- The loops `final_scores[entries[i].token_id] += f(entries[i].probability)`
with the `float` addition. -/
def add_entries_f32 (f : Nat → Nat) : List ProbEntry32 → List Nat → Option (List Nat)
  | [], final_scores => some final_scores
  | entry :: entries, final_scores =>
    if entry.token_id < final_scores.length then
      add_entries_f32 f entries
        (final_scores.set entry.token_id
          (f32_add (final_scores.getD entry.token_id 0) (f entry.probability)))
    else none

/-- The seeding `final_scores[entries[i].token_id] += entries[i].probability`. -/
def seed_scores_f32 (p_next : Table32) (last_token_id : Nat) (final_scores : List Nat) :
    Option (List Nat) :=
  match p_next last_token_id with
  | some entries => add_entries_f32 (fun p => p) entries final_scores
  | none => some final_scores

/-- One iteration of the loop over the context positions before the last:
`float attention_score = p_last_given_prev * p_prev_given_last` is the rounded
product, `attention_score < 1e-9` compares it with the `double` constant, and
the update adds `ATTENTION_MULTIPLIER * attention_score * probability`, two
`float` products from the left, with a `float` addition. -/
def attention_step_f32 (p_next p_prev : Table32) (last_token_id : Nat)
    (final_scores : List Nat) (prev_token_id : Nat) : Option (List Nat) :=
  let p_last_given_prev : Nat :=
    match p_next prev_token_id with
    | some dist => get_prob_f32 dist last_token_id
    | none => 0
  let p_prev_given_last : Nat :=
    match p_prev last_token_id with
    | some dist => get_prob_f32 dist prev_token_id
    | none => 0
  let attention_score := f32_mul p_last_given_prev p_prev_given_last
  if attention_score < EPS_F64 then some final_scores
  else
    match p_next prev_token_id with
    | some entries =>
      add_entries_f32 (fun p => f32_mul (f32_mul ATTENTION_MULTIPLIER_F32 attention_score) p)
        entries final_scores
    | none => some final_scores

/-- The loop `for (i = 0; i < context_ids.size() - 1; ++i)` on `float` scores. -/
def attention_loop_f32 (p_next p_prev : Table32) (last_token_id : Nat) :
    List Nat → List Nat → Option (List Nat)
  | [], final_scores => some final_scores
  | prev_token_id :: rest, final_scores =>
    match attention_step_f32 p_next p_prev last_token_id final_scores prev_token_id with
    | some final_scores1 => attention_loop_f32 p_next p_prev last_token_id rest final_scores1
    | none => none

/-- The `float` scores before the repetition penalty, for a non-empty
`context_ids` and score vectors of length `size`. -/
def fuse_scores_f32 (p_next p_prev : Table32) (context_ids : List Nat) (size : Nat) :
    Option (List Nat) :=
  let last_token_id := context_ids.getLastD 0
  match seed_scores_f32 p_next last_token_id (List.replicate size 0) with
  | some final_scores =>
    if context_ids.length > 1 then
      attention_loop_f32 p_next p_prev last_token_id context_ids.dropLast final_scores
    else some final_scores
  | none => none

/-- The `float` probability `p(x | k)` read from a table: `0.0f` for a missing
key or a missing entry, the first entry of id `x` otherwise. -/
def prob_f32 (t : Table32) (k x : Nat) : Nat :=
  match t k with
  | some dist => get_prob_f32 dist x
  | none => 0

/-- The `float` bridge weight: the rounded product
`p_next(last | prev) * p_prev(prev | last)`. -/
def bridge_f32 (p_next p_prev : Table32) (last prev : Nat) : Nat :=
  f32_mul (prob_f32 p_next prev last) (prob_f32 p_prev last prev)

/-- The probabilities, in the order of the record, of the entries of id `x` in
the record of `k`; none for a missing key.  A record with pairwise distinct ids
has at most one, `p(x | k)`. -/
def entries_of (t : Table32) (k x : Nat) : List Nat :=
  match t k with
  | some dist =>
    (dist.filter (fun e => decide (e.token_id = x))).map ProbEntry32.probability
  | none => []

/-- The terms that the position of `prev` adds to the score of `t`: none when the
bridge weight is below `1e-9`, and otherwise, for every entry of id `t` in the
forward record of `prev`, the `float` product `(10000.0f * bridge) * probability`. -/
def bridge_terms_f32 (p_next p_prev : Table32) (last t prev : Nat) : List Nat :=
  if bridge_f32 p_next p_prev last prev < EPS_F64 then []
  else
    (entries_of p_next prev t).map
      (fun p =>
        f32_mul (f32_mul ATTENTION_MULTIPLIER_F32 (bridge_f32 p_next p_prev last prev)) p)

/-- The terms added to the score of `t`, in the order in which the code adds
them: the seeding from the forward record of the last id, then the earlier
positions from the first on. -/
def fused_terms_f32 (p_next p_prev : Table32) (c : List Nat) (t : Nat) : List Nat :=
  entries_of p_next (c.getLastD 0) t ++
    (c.dropLast.map (bridge_terms_f32 p_next p_prev (c.getLastD 0) t)).flatten

/-- The table of the exact values of the probabilities of a `float` table. -/
def exact_table (t : Table32) : Table := fun k =>
  (t k).map (List.map (fun e => { token_id := e.token_id,
                                  probability := f32_to_rat e.probability }))

/-- Every probability stored in a record of a `float` table is at most `1.0f`. -/
def probs_at_most_one (t : Table32) : Prop :=
  ∀ k dist, t k = some dist → ∀ e ∈ dist, e.probability ≤ F32_ONE

/-! ### Small inputs of the single-precision examples -/

/-- Memory records: the ten memory indices 0 to 9 map to the outcome 2, the
indices 10 and 11 to the outcome 1. -/
def demo_votes_mem : MemoryTable := fun m =>
  if m < 10 then some 2 else if m < 12 then some 1 else none

/-- Ten neighbours at the distance `9.0f` with the memory indices 0 to 9 and a
last one, at the distance `0.0f`, with the index 10, in the order in which a
priority queue of pairs delivers them: the largest pair first. -/
def demo_votes_result : List (Nat × Nat) :=
  [(9 * F32_ONE, 9), (9 * F32_ONE, 8), (9 * F32_ONE, 7), (9 * F32_ONE, 6), (9 * F32_ONE, 5),
    (9 * F32_ONE, 4), (9 * F32_ONE, 3), (9 * F32_ONE, 2), (9 * F32_ONE, 1), (9 * F32_ONE, 0),
    (0, 10)]

/-- The neighbours `demo_votes_result` behind a first one, at the distance `2^30`,
with the memory index 11. -/
def demo_votes_far : List (Nat × Nat) := (2 ^ 30 * F32_ONE, 11) :: demo_votes_result

/-- A forward table with the one record `0 ↦ {1: 0.2f, 2: 0.5f}`. -/
def demo_p_next_f32 : Table32 := fun k =>
  if k = 0 then some [⟨1, f32_of_ratio 1 5⟩, ⟨2, f32_of_ratio 1 2⟩] else none

/-- A backward table with the one record `1 ↦ {0: 5e-9f}`. -/
def demo_p_prev_f32 : Table32 := fun k =>
  if k = 1 then some [⟨0, f32_of_ratio 5 1000000000⟩] else none

/-- A backward table with the one record `1 ↦ {0: 1.0f}`. -/
def demo_p_prev_one_f32 : Table32 := fun k =>
  if k = 1 then some [⟨0, F32_ONE⟩] else none

/-- A forward table whose record `0 ↦ {1: 0.5f, 1: 0.25f}` holds the id 1 twice. -/
def demo_p_twice_f32 : Table32 := fun k =>
  if k = 0 then some [⟨1, f32_of_ratio 1 2⟩, ⟨1, f32_of_ratio 1 4⟩] else none

/-! ## The precondition of index safety -/

theorem tolower_ne_bracket (c : Char) (h : ispunct c = false) : tolower c ≠ '[' := by
  unfold tolower
  split
  · rename_i hc
    obtain ⟨h1, h2⟩ := hc
    intro heq
    have : (Char.ofNat (c.toNat + 32)).toNat = 91 := by rw [heq]; rfl
    generalize c.toNat = n at h1 h2 this
    interval_cases n <;> simp_all +decide
  · intro heq
    subst heq
    simp [ispunct] at h

theorem bracket_not_mem_sanitize (s : List Char) : '[' ∉ sanitize_token s := by
  induction s with
  | nil => simp [sanitize_token]
  | cons c s ih =>
    unfold sanitize_token
    by_cases hc : ispunct c = true
    · simpa [hc] using ih
    · have hc2 : ispunct c = false := by simpa using hc
      simp only [hc2, Bool.false_eq_true, if_false, List.mem_cons, not_or]
      exact ⟨fun h => tolower_ne_bracket c hc2 h.symm, ih⟩

theorem bracket_not_mem_push (token t : List Char) (ht : t ∈ push_token token) :
    '[' ∉ t := by
  unfold push_token at ht
  split at ht
  · simp at ht
  · split at ht
    · simp at ht
    · simp only [List.mem_singleton] at ht
      subst ht
      exact bracket_not_mem_sanitize token

theorem bracket_not_mem_tokenize_loop (s token t : List Char)
    (ht : t ∈ tokenize_loop s token) : '[' ∉ t := by
  induction s generalizing token with
  | nil => exact bracket_not_mem_push token t ht
  | cons c s ih =>
    unfold tokenize_loop at ht
    split at ht
    · rcases List.mem_append.mp ht with h | h
      · exact bracket_not_mem_push token t h
      · exact ih [] h
    · exact ih _ ht

theorem marker_not_mem_tokenize (s : List Char) : RESPONSE_MARKER ∉ tokenize s := by
  intro h
  exact bracket_not_mem_tokenize_loop s [] RESPONSE_MARKER h (by decide)

theorem is_responding_turn_tokenize (s : List Char) :
    is_responding_turn (tokenize s) = false := by
  unfold is_responding_turn
  rw [decide_eq_false_iff_not]
  intro h
  exact marker_not_mem_tokenize s (List.mem_of_getLast?_eq_some h)

/-- C1 (fails on the code): the dispatch of `predict_next_token` compares the last
*sanitized* token with `"[RESPONSE]"`; `sanitize_token` deletes the brackets and
lower-cases the letters, so the comparison is false for every context and mode 1
is never selected.  On `"hello [RESPONSE]"`, whose last raw token is the marker,
the tokens are `hello`, `response` and the call runs mode 2. -/
theorem retrieval_never_selected :
    (∀ context : List Char, is_responding_turn (tokenize context) = false) ∧
    (raw_tokens "hello [RESPONSE]".toList).getLast? = some RESPONSE_MARKER ∧
    tokenize "hello [RESPONSE]".toList = ["hello".toList, "response".toList] ∧
    ∀ (E : InferenceEngine) (sample : ℚ),
      predict_next_token E "hello [RESPONSE]".toList sample =
        generative_mode E ["hello".toList, "response".toList] sample := by
  refine ⟨is_responding_turn_tokenize, by decide, by decide, ?_⟩
  intro E sample
  have h1 : tokenize "hello [RESPONSE]".toList = ["hello".toList, "response".toList] := by
    decide
  have h2 := is_responding_turn_tokenize "hello [RESPONSE]".toList
  unfold predict_next_token
  simp only [h2]
  rw [h1]
  simp

/-! ### The Pairwise Statistics Builder -/

theorem foldl_add_count (m : Counts) (n : Nat) :
    m.foldl (fun acc p => acc + p.2) n = n + (m.map Prod.snd).sum := by
  induction m generalizing n with
  | nil => simp
  | cons p m ih => simp [List.foldl_cons, ih, Nat.add_assoc]

theorem total_count_eq_sum (m : Counts) : total_count m = (m.map Prod.snd).sum := by
  simp [total_count, foldl_add_count]

theorem sum_map_div (m : Counts) (T : ℚ) :
    ((m.map (fun p => ({ token_id := p.1, probability := (p.2 : ℚ) / T } : ProbEntry))).map
      ProbEntry.probability).sum = (((m.map Prod.snd).sum : Nat) : ℚ) / T := by
  induction m with
  | nil => simp
  | cons p m ih =>
    simp only [List.map_cons, List.sum_cons, Nat.cast_add]
    rw [ih, add_div]

theorem make_dist_sum (m : Counts) (h : total_count m ≠ 0) :
    ((make_dist m).map ProbEntry.probability).sum = 1 := by
  unfold make_dist
  rw [sum_map_div, ← total_count_eq_sum]
  exact div_self (by exact_mod_cast h)

theorem mem_write_distributions (t : CountTable) (k : Nat) (dist : List ProbEntry)
    (h : (k, dist) ∈ write_distributions t) :
    ∃ m, (k, m) ∈ t ∧ total_count m ≠ 0 ∧ dist = make_dist m := by
  induction t with
  | nil => simp [write_distributions] at h
  | cons km t ih =>
    obtain ⟨k0, m0⟩ := km
    unfold write_distributions at h
    split at h
    · obtain ⟨m, hm, h0, hd⟩ := ih h
      exact ⟨m, List.mem_cons_of_mem _ hm, h0, hd⟩
    · rename_i hne
      rcases List.mem_cons.mp h with h | h
      · obtain ⟨rfl, rfl⟩ := Prod.mk.inj h
        exact ⟨m0, List.mem_cons_self _ _, hne, rfl⟩
      · obtain ⟨m, hm, h0, hd⟩ := ih h
        exact ⟨m, List.mem_cons_of_mem _ hm, h0, hd⟩

/-- C2: for every corpus, every record that `trainModel` writes to the forward
table or to the backward table has probabilities (the rationals `count / total`)
that sum to exactly 1. -/
theorem written_records_sum_to_one (corpus : List (List Nat)) (k : Nat)
    (dist : List ProbEntry)
    (h : (k, dist) ∈ forward_table corpus ∨ (k, dist) ∈ backward_table corpus) :
    (dist.map ProbEntry.probability).sum = 1 := by
  rcases h with h | h
  · obtain ⟨m, _, h0, rfl⟩ := mem_write_distributions _ k dist h
    exact make_dist_sum m h0
  · obtain ⟨m, _, h0, rfl⟩ := mem_write_distributions _ k dist h
    exact make_dist_sum m h0

/-- Witness of C2 on the corpus of the two lines `3 1 2 1 5` and `4 1 2`: the
forward record of id 1 is `2 ↦ 2/3, 5 ↦ 1/3`. -/
theorem written_records_sum_to_one_witness :
    forward_table [[3, 1, 2, 1, 5], [4, 1, 2]] =
        [(3, [⟨1, 1⟩]), (1, [⟨2, 2 / 3⟩, ⟨5, 1 / 3⟩]), (2, [⟨1, 1⟩]), (4, [⟨1, 1⟩])] ∧
      (([⟨2, 2 / 3⟩, ⟨5, 1 / 3⟩] : List ProbEntry).map ProbEntry.probability).sum = 1 := by
  have hT : forward_table [[3, 1, 2, 1, 5], [4, 1, 2]] =
      [(3, [⟨1, 1⟩]), (1, [⟨2, 2 / 3⟩, ⟨5, 1 / 3⟩]), (2, [⟨1, 1⟩]), (4, [⟨1, 1⟩])] := by
    simp [forward_table, build_counts, count_line, count_pairs, bump2, bump,
      write_distributions, make_dist, total_count]
  refine ⟨hT, ?_⟩
  exact written_records_sum_to_one [[3, 1, 2, 1, 5], [4, 1, 2]] 1 _
    (Or.inl (by rw [hT]; simp))

/-! ### Score vectors -/

theorem getD_set_self (l : List ℚ) (i : Nat) (v : ℚ) (h : i < l.length) :
    (l.set i v).getD i 0 = v := by
  simp [List.getD_eq_getElem?_getD, List.getElem?_set, h]

theorem getD_set_other (l : List ℚ) (i j : Nat) (v : ℚ) (h : i ≠ j) :
    (l.set i v).getD j 0 = l.getD j 0 := by
  simp [List.getD_eq_getElem?_getD, List.getElem?_set, h]

theorem getD_replicate_zero (n j : Nat) : (List.replicate n (0 : ℚ)).getD j 0 = 0 := by
  by_cases h : j < n
  · simp [List.getD_eq_getElem?_getD, List.getElem?_replicate, h]
  · simp [List.getD_eq_getElem?_getD, List.getElem?_replicate, h]

theorem getD_of_length_le (l : List ℚ) (j : Nat) (h : l.length ≤ j) : l.getD j 0 = 0 := by
  simp [List.getD_eq_getElem?_getD, List.getElem?_eq_none h]

/-! ### Mode 1 -/

theorem vote_spec (mem : MemoryTable) (result : List (ℚ × Nat)) (s s' : List ℚ)
    (h : vote mem result s = some s') :
    s'.length = s.length ∧ ∀ o, s'.getD o 0 = s.getD o 0 + vote_total mem o result := by
  induction result generalizing s with
  | nil =>
    simp only [vote, Option.some.injEq] at h
    subst h
    simp [vote_total]
  | cons p result ih =>
    obtain ⟨d, m⟩ := p
    unfold vote at h
    split at h
    · rename_i outcome_id hm
      split at h
      · rename_i hlt
        obtain ⟨hlen, hval⟩ := ih _ h
        refine ⟨by simpa using hlen, fun o => ?_⟩
        rw [hval o, vote_total, hm]
        by_cases ho : outcome_id = o
        · subst ho
          rw [getD_set_self _ _ _ hlt]
          simp [add_assoc]
        · rw [getD_set_other _ _ _ _ ho]
          have : ¬ (some outcome_id = some o) := by simpa using ho
          simp [this]
      · simp at h
    · rename_i hm
      obtain ⟨hlen, hval⟩ := ih _ h
      refine ⟨hlen, fun o => ?_⟩
      rw [hval o, vote_total, hm]
      simp

theorem vote_some (mem : MemoryTable) (result : List (ℚ × Nat)) (s : List ℚ)
    (hin : ∀ p ∈ result, ∀ o, mem p.2 = some o → o < s.length) :
    ∃ s', vote mem result s = some s' := by
  induction result generalizing s with
  | nil => exact ⟨s, rfl⟩
  | cons p result ih =>
    obtain ⟨d, m⟩ := p
    unfold vote
    split
    · rename_i outcome_id hm
      have hlt : outcome_id < s.length := hin (d, m) (List.mem_cons_self _ _) _ hm
      rw [if_pos hlt]
      apply ih
      intro q hq o ho
      rw [List.length_set]
      exact hin q (List.mem_cons_of_mem _ hq) o ho
    · exact ih s (fun q hq o ho => hin q (List.mem_cons_of_mem _ hq) o ho)

theorem vote_total_nonneg (mem : MemoryTable) (o : Nat) (result : List (ℚ × Nat))
    (hd : ∀ p ∈ result, 0 ≤ p.1) : 0 ≤ vote_total mem o result := by
  induction result with
  | nil => simp [vote_total]
  | cons p result ih =>
    obtain ⟨d, m⟩ := p
    have h0 : (0 : ℚ) ≤ d := hd (d, m) (List.mem_cons_self _ _)
    have ih1 := ih (fun q hq => hd q (List.mem_cons_of_mem _ hq))
    unfold vote_total
    split
    · have : (0 : ℚ) < 1 / (1 + d) := by positivity
      linarith
    · linarith

theorem vote_total_pos (mem : MemoryTable) (o : Nat) (result : List (ℚ × Nat))
    (hd : ∀ p ∈ result, 0 ≤ p.1) (p : ℚ × Nat) (hp : p ∈ result)
    (hm : mem p.2 = some o) : 0 < vote_total mem o result := by
  induction result with
  | nil => simp at hp
  | cons q result ih =>
    obtain ⟨d, m⟩ := q
    have h0 : (0 : ℚ) ≤ d := hd (d, m) (List.mem_cons_self _ _)
    have hpos : (0 : ℚ) < 1 / (1 + d) := by positivity
    have hrest := vote_total_nonneg mem o result (fun q hq => hd q (List.mem_cons_of_mem _ hq))
    unfold vote_total
    rcases List.mem_cons.mp hp with h | h
    · subst h
      simp only at hm
      rw [if_pos hm]
      linarith
    · have := ih (fun q hq => hd q (List.mem_cons_of_mem _ hq)) h
      split <;> linarith

theorem vote_total_eq_zero (mem : MemoryTable) (o : Nat) (result : List (ℚ × Nat))
    (h : ∀ p ∈ result, mem p.2 ≠ some o) : vote_total mem o result = 0 := by
  induction result with
  | nil => simp [vote_total]
  | cons q result ih =>
    obtain ⟨d, m⟩ := q
    unfold vote_total
    have h1 : ¬ (mem m = some o) := h (d, m) (List.mem_cons_self _ _)
    rw [if_neg h1, ih (fun q hq => h q (List.mem_cons_of_mem _ hq))]
    simp

theorem argmax_loop_spec (l : List ℚ) (i b : Nat) (m : ℚ) :
    (∀ j, j < l.length → l.getD j 0 ≤ (argmax_loop l i (b, m)).2) ∧
    m ≤ (argmax_loop l i (b, m)).2 ∧
    (argmax_loop l i (b, m) = (b, m) ∨
      ∃ j, j < l.length ∧ (argmax_loop l i (b, m)).1 = i + j ∧
        l.getD j 0 = (argmax_loop l i (b, m)).2 ∧ m < (argmax_loop l i (b, m)).2 ∧
        ∀ j', j' < j → l.getD j' 0 < (argmax_loop l i (b, m)).2) := by
  induction l generalizing i b m with
  | nil => simp [argmax_loop]
  | cons s rest ih =>
    unfold argmax_loop
    by_cases hs : s > m
    · simp only [hs, if_true]
      obtain ⟨h1, h2, h3⟩ := ih (i + 1) i s
      refine ⟨?_, by linarith, Or.inr ?_⟩
      · intro j hj
        cases j with
        | zero => simpa using h2
        | succ j => simpa using h1 j (by simpa using hj)
      · rcases h3 with h3 | ⟨j, hj, hb, hv, hlt, hbefore⟩
        · refine ⟨0, by simp, ?_, ?_, ?_, ?_⟩
          · rw [h3]; simp
          · rw [h3]; simp
          · rw [h3]; exact hs
          · intro j' hj'; omega
        · refine ⟨j + 1, by simpa using hj, by omega, by simpa using hv, by linarith, ?_⟩
          intro j' hj'
          cases j' with
          | zero => simpa using hlt
          | succ j' => simpa using hbefore j' (by omega)
    · simp only [hs, if_false]
      obtain ⟨h1, h2, h3⟩ := ih (i + 1) b m
      have hsm : s ≤ m := not_lt.mp hs
      refine ⟨?_, h2, ?_⟩
      · intro j hj
        cases j with
        | zero => simpa using le_trans hsm h2
        | succ j => simpa using h1 j (by simpa using hj)
      · rcases h3 with h3 | ⟨j, hj, hb, hv, hlt, hbefore⟩
        · exact Or.inl h3
        · refine Or.inr ⟨j + 1, by simpa using hj, by omega, by simpa using hv, hlt, ?_⟩
          intro j' hj'
          cases j' with
          | zero => simpa using lt_of_le_of_lt hsm hlt
          | succ j' => simpa using hbefore j' (by omega)

theorem select_best_sentinel_iff (s : List ℚ) :
    select_best s = Prediction.NO_MEMORY_MATCH ↔ ∀ j, j < s.length → s.getD j 0 ≤ 0 := by
  obtain ⟨h1, _, h3⟩ := argmax_loop_spec s 0 0 (-1)
  unfold select_best
  constructor
  · intro h j hj
    by_cases hle : (argmax_loop s 0 (0, -1)).2 ≤ 0
    · exact le_trans (h1 j hj) hle
    · simp [hle] at h
  · intro h
    have hle : (argmax_loop s 0 (0, -1)).2 ≤ 0 := by
      rcases h3 with h3 | ⟨j, hj, _, hv, _, _⟩
      · rw [h3]; norm_num
      · rw [← hv]; exact h j hj
    simp [hle]

theorem select_best_token (s : List ℚ) (o : Nat) (ho : o < s.length) (hpos : 0 < s.getD o 0) :
    ∃ best, select_best s = Prediction.token best ∧ best < s.length ∧
      (∀ j, j < s.length → s.getD j 0 ≤ s.getD best 0) ∧
      ∀ j, j < best → s.getD j 0 < s.getD best 0 := by
  obtain ⟨h1, _, h3⟩ := argmax_loop_spec s 0 0 (-1)
  have hgt : ¬ ((argmax_loop s 0 (0, -1)).2 ≤ 0) := by
    have := h1 o ho
    intro hle
    linarith
  rcases h3 with h3 | ⟨j, hj, hb, hv, _, hbefore⟩
  · exfalso
    apply hgt
    rw [h3]
    norm_num
  · refine ⟨j, ?_, hj, ?_, ?_⟩
    · unfold select_best
      simp only [hgt, if_false]
      rw [hb]
      simp
    · intro k hk
      rw [hv]
      exact h1 k hk
    · intro k hk
      rw [hv]
      exact hbefore k hk

/-- C4: in mode 1 with non-negative distances, `[NO_MEMORY_MATCH]` is returned
if and only if no neighbour has a memory record; and it is returned for every
context when the vector index holds no entry. -/
theorem no_memory_match_iff :
    (∀ (size : Nat) (mem : MemoryTable) (result : List (ℚ × Nat)),
      (∀ p ∈ result, 0 ≤ p.1) →
      (retrieve size mem result = some Prediction.NO_MEMORY_MATCH ↔
        ∀ p ∈ result, mem p.2 = none)) ∧
    (∀ (E : InferenceEngine) (context_tokens : List (List Char)),
      E.ann_count = 0 → retrieval_mode E context_tokens = some Prediction.NO_MEMORY_MATCH) := by
  constructor
  · intro size mem result hd
    constructor
    · intro h p hp
      unfold retrieve at h
      cases hv : vote mem result (List.replicate size 0) with
      | none => simp [hv] at h
      | some s =>
        rw [hv] at h
        simp only [Option.map_some', Option.some.injEq] at h
        obtain ⟨_, hval⟩ := vote_spec mem result _ s hv
        have hall := (select_best_sentinel_iff s).mp h
        cases hm : mem p.2 with
        | none => rfl
        | some o =>
          exfalso
          have hpos := vote_total_pos mem o result hd p hp hm
          have hso : s.getD o 0 = vote_total mem o result := by
            rw [hval o, getD_replicate_zero]
            simp
          by_cases ho : o < s.length
          · have := hall o ho
            linarith
          · have := getD_of_length_le s o (by omega)
            linarith
    · intro h
      have hin : ∀ p ∈ result, ∀ o, mem p.2 = some o → o < (List.replicate size (0 : ℚ)).length := by
        intro p hp o ho
        rw [h p hp] at ho
        cases ho
      obtain ⟨s, hs⟩ := vote_some mem result _ hin
      obtain ⟨_, hval⟩ := vote_spec mem result _ s hs
      unfold retrieve
      rw [hs]
      simp only [Option.map_some', Option.some.injEq]
      apply (select_best_sentinel_iff s).mpr
      intro j _
      rw [hval j, getD_replicate_zero,
        vote_total_eq_zero mem j result (fun p hp => by rw [h p hp]; simp)]
      simp
  · intro E context_tokens h0
    unfold retrieval_mode
    simp only [h0, gt_iff_lt, lt_self_iff_false, if_false, Option.some.injEq]
    apply (select_best_sentinel_iff _).mpr
    intro j _
    rw [getD_replicate_zero]

/-- Witness of C4: two neighbours without a memory record give the sentinel. -/
theorem no_memory_match_iff_witness :
    retrieve 3 (fun _ => none) [(0, 4), (2, 5)] = some Prediction.NO_MEMORY_MATCH :=
  (no_memory_match_iff.1 3 (fun _ => none) [(0, 4), (2, 5)]
    (by
      intro p hp
      simp only [List.mem_cons, List.mem_singleton, List.not_mem_nil, or_false] at hp
      rcases hp with h | h <;> subst h <;> norm_num)).mpr
    (fun _ _ => rfl)

/-! ### Mode 2: the fusion of the scores -/

theorem getLastD_mem (c : List Nat) (hc : c ≠ []) : c.getLastD 0 ∈ c := by
  rw [List.getLastD_eq_getLast?, List.getLast?_eq_getLast c hc]
  exact List.getLast_mem hc

theorem penalty_loop_spec (ctx : List Nat) (is : List Nat) (s : List ℚ)
    (hin : ∀ i ∈ is, ctx.getD (ctx.length - 1 - i) 0 < s.length) :
    ∃ s', penalty_loop ctx is s = some s' ∧ s'.length = s.length ∧
      ∀ X, s'.getD X 0 = s.getD X 0 /
        (3 / 2) ^ ((is.map (fun i => ctx.getD (ctx.length - 1 - i) 0)).count X) := by
  induction is generalizing s with
  | nil => exact ⟨s, rfl, rfl, fun X => by simp⟩
  | cons i is ih =>
    have hlt := hin i (List.mem_cons_self _ _)
    obtain ⟨s', hs', hlen', hval'⟩ := ih
      (s.set (ctx.getD (ctx.length - 1 - i) 0)
        (s.getD (ctx.getD (ctx.length - 1 - i) 0) 0 / REPETITION_PENALTY))
      (fun j hj => by
        rw [List.length_set]
        exact hin j (List.mem_cons_of_mem _ hj))
    refine ⟨s', ?_, by simpa using hlen', fun X => ?_⟩
    · unfold penalty_loop penalty_step
      simp only [hlt, if_true]
      exact hs'
    · rw [hval' X]
      by_cases hX : ctx.getD (ctx.length - 1 - i) 0 = X
      · subst hX
        rw [getD_set_self _ _ _ hlt]
        simp only [List.map_cons, List.count_cons_self, REPETITION_PENALTY]
        rw [pow_succ, div_div, mul_comm]
      · rw [getD_set_other _ _ _ _ hX]
        simp only [List.map_cons]
        rw [List.count_cons_of_ne (fun h => hX h.symm)]

theorem visited_eq_take_reverse (ctx : List Nat) (n : Nat) (hn : n ≤ ctx.length) :
    (List.range n).map (fun i => ctx.getD (ctx.length - 1 - i) 0) = ctx.reverse.take n := by
  apply List.ext_getElem
  · simp [hn]
  · intro i h1 h2
    simp only [List.length_map, List.length_range] at h1
    simp only [List.getElem_map, List.getElem_range, List.getElem_take, List.getElem_reverse]
    rw [List.getD_eq_getElem]

theorem count_visited (ctx : List Nat) (X : Nat) :
    ((List.range (min 15 ctx.length)).map
        (fun i => ctx.getD (ctx.length - 1 - i) 0)).count X =
      (ctx.drop (ctx.length - min 15 ctx.length)).count X := by
  rw [visited_eq_take_reverse ctx _ (Nat.min_le_right _ _), List.take_reverse,
    List.count_reverse]

theorem apply_penalty_spec (context_ids : List Nat) (final_scores : List ℚ)
    (hin : ∀ x ∈ context_ids.drop (context_ids.length - min 15 context_ids.length),
      x < final_scores.length) :
    ∃ s', apply_penalty context_ids final_scores = some s' ∧
      s'.length = final_scores.length ∧
      ∀ X, s'.getD X 0 = final_scores.getD X 0 /
        (3 / 2) ^ ((context_ids.drop
          (context_ids.length - min 15 context_ids.length)).count X) := by
  have hvis : ∀ i ∈ List.range (min 15 context_ids.length),
      context_ids.getD (context_ids.length - 1 - i) 0 < final_scores.length := by
    intro i hi
    apply hin
    have hmem : context_ids.getD (context_ids.length - 1 - i) 0 ∈
        (List.range (min 15 context_ids.length)).map
          (fun i => context_ids.getD (context_ids.length - 1 - i) 0) :=
      List.mem_map.mpr ⟨i, hi, rfl⟩
    rw [visited_eq_take_reverse context_ids _ (Nat.min_le_right _ _), List.take_reverse] at hmem
    exact List.mem_reverse.mp hmem
  obtain ⟨s', hs', hlen', hval'⟩ := penalty_loop_spec context_ids _ final_scores hvis
  refine ⟨s', hs', hlen', fun X => ?_⟩
  rw [hval' X, count_visited]

theorem mem_collect_loop (l : List ℚ) (i : Nat) (p : ℚ × Nat) :
    p ∈ collect_loop l i ↔
      ∃ j, j < l.length ∧ l.getD j 0 > EPS ∧ p = (l.getD j 0, i + j) := by
  induction l generalizing i with
  | nil => simp [collect_loop]
  | cons s rest ih =>
    have hrest : p ∈ collect_loop rest (i + 1) ↔
        ∃ j, j < rest.length ∧ rest.getD j 0 > EPS ∧ p = (rest.getD j 0, i + (j + 1)) := by
      rw [ih (i + 1)]
      constructor
      · rintro ⟨j, h1, h2, h3⟩
        exact ⟨j, h1, h2, by rw [h3]; congr 1; omega⟩
      · rintro ⟨j, h1, h2, h3⟩
        exact ⟨j, h1, h2, by rw [h3]; congr 1; omega⟩
    have hsplit : (∃ j, j < (s :: rest).length ∧ (s :: rest).getD j 0 > EPS ∧
          p = ((s :: rest).getD j 0, i + j)) ↔
        ((s > EPS ∧ p = (s, i)) ∨
          ∃ j, j < rest.length ∧ rest.getD j 0 > EPS ∧ p = (rest.getD j 0, i + (j + 1))) := by
      constructor
      · rintro ⟨j, h1, h2, h3⟩
        cases j with
        | zero => exact Or.inl ⟨by simpa using h2, by simpa using h3⟩
        | succ j => exact Or.inr ⟨j, by simpa using h1, by simpa using h2, by simpa using h3⟩
      · rintro (⟨h2, h3⟩ | ⟨j, h1, h2, h3⟩)
        · exact ⟨0, by simp, by simpa using h2, by simpa using h3⟩
        · exact ⟨j + 1, by simpa using h1, by simpa using h2, by simpa using h3⟩
    rw [hsplit]
    unfold collect_loop
    by_cases hs : s > EPS
    · simp only [hs, if_true, List.mem_cons, hrest, true_and]
    · simp only [hs, if_false, hrest, false_and, false_or]

theorem length_collect_loop (l : List ℚ) (i : Nat) :
    (collect_loop l i).length = qualifying l := by
  induction l generalizing i with
  | nil => rfl
  | cons s rest ih =>
    unfold collect_loop qualifying
    by_cases hs : s > EPS
    · simp only [hs, if_true, List.length_cons, ih (i + 1), qualifying,
        List.filter_cons, decide_True]
    · simp only [hs, if_false, ih (i + 1), qualifying, List.filter_cons, decide_False,
        Bool.false_eq_true]

theorem pair_ge_total (a b : ℚ × Nat) : pair_ge a b ∨ pair_ge b a := by
  unfold pair_ge
  rcases lt_trichotomy a.1 b.1 with h | h | h
  · exact Or.inr (Or.inl h)
  · rcases Nat.le_total a.2 b.2 with h2 | h2
    · exact Or.inr (Or.inr ⟨h, h2⟩)
    · exact Or.inl (Or.inr ⟨h.symm, h2⟩)
  · exact Or.inl (Or.inl h)

theorem pair_ge_trans (a b c : ℚ × Nat) (hab : pair_ge a b) (hbc : pair_ge b c) :
    pair_ge a c := by
  unfold pair_ge at *
  rcases hab with h1 | ⟨h1, h1'⟩ <;> rcases hbc with h2 | ⟨h2, h2'⟩
  · exact Or.inl (lt_trans h2 h1)
  · exact Or.inl (by rw [h2]; exact h1)
  · exact Or.inl (by rw [← h1]; exact h2)
  · exact Or.inr ⟨by rw [h2, h1], le_trans h2' h1'⟩

theorem pair_ge_score (a b : ℚ × Nat) (h : pair_ge a b) : b.1 ≤ a.1 := by
  rcases h with h | ⟨h, _⟩
  · exact le_of_lt h
  · exact le_of_eq h

theorem sort_scores_perm (final_scores : List ℚ) :
    (sort_scores final_scores).Perm (collect_loop final_scores 0) :=
  List.perm_insertionSort pair_ge _

theorem sort_scores_sorted (final_scores : List ℚ) :
    (sort_scores final_scores).Sorted pair_ge := by
  haveI : IsTotal (ℚ × Nat) pair_ge := ⟨pair_ge_total⟩
  haveI : IsTrans (ℚ × Nat) pair_ge := ⟨pair_ge_trans⟩
  exact List.sorted_insertionSort pair_ge _

theorem mem_sort_scores (final_scores : List ℚ) (p : ℚ × Nat) :
    p ∈ sort_scores final_scores ↔
      ∃ j, j < final_scores.length ∧ final_scores.getD j 0 > EPS ∧
        p = (final_scores.getD j 0, j) := by
  rw [(sort_scores_perm final_scores).mem_iff, mem_collect_loop]
  simp

theorem sort_scores_eq_nil_iff (final_scores : List ℚ) :
    sort_scores final_scores = [] ↔
      ∀ j, j < final_scores.length → ¬ final_scores.getD j 0 > EPS := by
  constructor
  · intro h j hj hgt
    have : (final_scores.getD j 0, j) ∈ sort_scores final_scores :=
      (mem_sort_scores final_scores _).mpr ⟨j, hj, hgt, rfl⟩
    rw [h] at this
    simp at this
  · intro h
    apply List.eq_nil_iff_forall_not_mem.mpr
    intro p hp
    obtain ⟨j, hj, hgt, _⟩ := (mem_sort_scores final_scores p).mp hp
    exact h j hj hgt

theorem choose_token_no_valid_iff (final_scores : List ℚ) (sample : ℚ) :
    choose_token final_scores sample = Prediction.NO_VALID_PREDICTION ↔
      sort_scores final_scores = [] := by
  unfold choose_token
  by_cases h : sort_scores final_scores = []
  · simp [h]
  · simp only [h, if_false, iff_false]
    split <;> simp

/-- C8: the retained candidates are tokens whose score exceeds `1e-9`, each
paired with its own score; they stand in non-increasing order of score; there
are `min(40, number of tokens with score > 1e-9)` of them; every retained score
is at least the score of every qualifying token that was dropped; and
`[NO_VALID_PREDICTION]` is returned exactly when no token has score above
`1e-9`. -/
theorem candidate_selection (final_scores : List ℚ) :
    (∀ p ∈ select_candidates final_scores,
      p.2 < final_scores.length ∧ p.1 = final_scores.getD p.2 0 ∧ p.1 > 1 / 1000000000) ∧
    (select_candidates final_scores).Pairwise (fun a b => b.1 ≤ a.1) ∧
    (select_candidates final_scores).length =
      min 40 ((final_scores.filter (fun s => decide (s > 1 / 1000000000))).length) ∧
    (∀ p ∈ select_candidates final_scores, ∀ j, j < final_scores.length →
      final_scores.getD j 0 > 1 / 1000000000 →
      (final_scores.getD j 0, j) ∉ select_candidates final_scores →
      final_scores.getD j 0 ≤ p.1) ∧
    (∀ sample, choose_token final_scores sample = Prediction.NO_VALID_PREDICTION ↔
      ∀ j, j < final_scores.length → ¬ final_scores.getD j 0 > 1 / 1000000000) := by
  have hE : (1 : ℚ) / 1000000000 = EPS := rfl
  rw [hE]
  refine ⟨?_, ?_, ?_, ?_, ?_⟩
  · intro p hp
    obtain ⟨j, hj, hgt, rfl⟩ :=
      (mem_sort_scores final_scores p).mp (List.mem_of_mem_take hp)
    exact ⟨hj, rfl, hgt⟩
  · exact ((sort_scores_sorted final_scores).sublist (List.take_sublist _ _)).imp
      (fun h => pair_ge_score _ _ h)
  · unfold select_candidates
    rw [List.length_take, (sort_scores_perm final_scores).length_eq, length_collect_loop]
    rfl
  · intro p hp j hj hgt hnot
    have hmem : (final_scores.getD j 0, j) ∈ sort_scores final_scores :=
      (mem_sort_scores final_scores _).mpr ⟨j, hj, hgt, rfl⟩
    rw [← List.take_append_drop TOP_K (sort_scores final_scores)] at hmem
    rcases List.mem_append.mp hmem with h | h
    · exact absurd h hnot
    · exact pair_ge_score _ _
        ((sort_scores_sorted final_scores).rel_of_mem_take_of_mem_drop hp h)
  · intro sample
    rw [choose_token_no_valid_iff, sort_scores_eq_nil_iff]

/-- Witness of C8 on the scores `[1, 0, 2, 2, 1/2]`: the four qualifying tokens
are retained, the two of score 2 first, the higher id before the lower. -/
theorem candidate_selection_witness :
    select_candidates [1, 0, 2, 2, 1 / 2] = [(2, 3), (2, 2), (1, 0), (1 / 2, 4)] ∧
    (select_candidates [1, 0, 2, 2, 1 / 2]).Pairwise (fun a b => b.1 ≤ a.1) ∧
    (select_candidates [1, 0, 2, 2, 1 / 2]).length =
      min 40 ((([1, 0, 2, 2, 1 / 2] : List ℚ).filter
        (fun s => decide (s > 1 / 1000000000))).length) := by
  refine ⟨?_, (candidate_selection [1, 0, 2, 2, 1 / 2]).2.1,
    (candidate_selection [1, 0, 2, 2, 1 / 2]).2.2.1⟩
  norm_num [select_candidates, sort_scores, collect_loop, EPS, List.insertionSort,
    List.orderedInsert, pair_ge, TOP_K]

/-! ### Mode 2: the sampling -/

theorem foldl_add_score (L : List (ℚ × Nat)) (x : ℚ) :
    L.foldl (fun acc p => acc + p.1) x = x + (L.map Prod.fst).sum := by
  induction L generalizing x with
  | nil => simp
  | cons p L ih => simp [List.foldl_cons, ih, add_assoc]

theorem total_score_eq_cumulative (L : List (ℚ × Nat)) :
    total_score L = cumulative L L.length := by
  simp [total_score, cumulative, foldl_add_score]

theorem cumulative_cons_succ (p : ℚ × Nat) (L : List (ℚ × Nat)) (i : Nat) :
    cumulative (p :: L) (i + 1) = p.1 + cumulative L i := by
  simp [cumulative]

theorem cumulative_nonneg (L : List (ℚ × Nat)) (i : Nat) (hpos : ∀ p ∈ L, 0 ≤ p.1) :
    0 ≤ cumulative L i := by
  unfold cumulative
  apply List.sum_nonneg
  intro x hx
  obtain ⟨p, hp, rfl⟩ := List.mem_map.mp hx
  exact hpos p (List.mem_of_mem_take hp)

theorem predict_generative (E : InferenceEngine) (context : List Char) (sample : ℚ)
    (hne : tokenize context ≠ []) :
    predict_next_token E context sample =
      generative_mode E (tokenize context) sample := by
  unfold predict_next_token
  simp [hne, is_responding_turn_tokenize]

theorem generative_mode_eval (E : InferenceEngine) (context_tokens : List (List Char))
    (sample : ℚ) (p_next p_prev : Table) (s s' : List ℚ)
    (htxn : E.txn_ok = true) (hnext : E.p_next_given_current = some p_next)
    (hprev : E.p_prev_given_current = some p_prev)
    (hids : context_ids_of E.vocab_to_id context_tokens ≠ [])
    (hs : fuse_scores p_next p_prev (context_ids_of E.vocab_to_id context_tokens)
      E.id_to_vocab.length = some s)
    (hs' : apply_penalty (context_ids_of E.vocab_to_id context_tokens) s = some s') :
    generative_mode E context_tokens sample = some (choose_token s' sample) := by
  unfold generative_mode
  simp [htxn, hnext, hprev, hids, hs, hs']

theorem generative_mode_unknown (E : InferenceEngine) (context_tokens : List (List Char))
    (sample : ℚ) (p_next p_prev : Table)
    (htxn : E.txn_ok = true) (hnext : E.p_next_given_current = some p_next)
    (hprev : E.p_prev_given_current = some p_prev)
    (hall : ∀ tok ∈ context_tokens, E.vocab_to_id tok = none) :
    generative_mode E context_tokens sample = some Prediction.UNKNOWN_CONTEXT := by
  have hids : context_ids_of E.vocab_to_id context_tokens = [] :=
    List.filterMap_eq_nil_iff.mpr hall
  unfold generative_mode
  simp [htxn, hnext, hprev, hids]

/-- C9: for a context with at least one token, none of them in the vocabulary,
that does not select mode 1, `predict_next_token` returns `[UNKNOWN_CONTEXT]`
when the transaction and the two tables open, whatever the tables hold. -/
theorem unknown_context (E : InferenceEngine) (context : List Char) (sample : ℚ)
    (p_next p_prev : Table)
    (hne : tokenize context ≠ [])
    (hall : ∀ tok ∈ tokenize context, E.vocab_to_id tok = none)
    (hmode : is_responding_turn (tokenize context) = false)
    (htxn : E.txn_ok = true) (hnext : E.p_next_given_current = some p_next)
    (hprev : E.p_prev_given_current = some p_prev) :
    predict_next_token E context sample = some Prediction.UNKNOWN_CONTEXT ∧
    predict_next_token_string E context sample = some "[UNKNOWN_CONTEXT]".toList := by
  have h : predict_next_token E context sample = some Prediction.UNKNOWN_CONTEXT := by
    unfold predict_next_token
    simp only [hne, if_false, hmode, Bool.false_eq_true]
    exact generative_mode_unknown E _ sample p_next p_prev htxn hnext hprev hall
  refine ⟨h, ?_⟩
  unfold predict_next_token_string
  rw [h]
  rfl

/-- Witness of C9: the context `zz top!` on `demo_engine`, whose vocabulary is
`a`, `b`, `c`. -/
theorem unknown_context_witness :
    predict_next_token demo_engine "zz top!".toList 0 = some Prediction.UNKNOWN_CONTEXT ∧
    predict_next_token_string demo_engine "zz top!".toList 0 =
      some "[UNKNOWN_CONTEXT]".toList :=
  unknown_context demo_engine "zz top!".toList 0 demo_p_next demo_p_prev
    (by decide) (by decide) (by decide) rfl rfl rfl

theorem choose_token_of_zero (s : List ℚ) (sample : ℚ) (h : ∀ j, s.getD j 0 = 0) :
    choose_token s sample = Prediction.NO_VALID_PREDICTION := by
  rw [choose_token_no_valid_iff, sort_scores_eq_nil_iff]
  intro j _
  rw [h j]
  norm_num [EPS]

theorem seed_scores_absent (p_next : Table) (last : Nat) (s : List ℚ)
    (h : p_next last = none) : seed_scores p_next last s = some s := by
  unfold seed_scores
  rw [h]

theorem attention_step_absent (p_next p_prev : Table) (last prev : Nat) (s : List ℚ)
    (h : p_next prev = none ∨ p_prev last = none) :
    attention_step p_next p_prev last s prev = some s := by
  have hE : (0 : ℚ) < EPS := by norm_num [EPS]
  unfold attention_step
  rcases h with h | h
  · simp [h, hE]
  · simp [h, hE]

theorem single_context_ids (E : InferenceEngine) (tok : List Char) (c : Nat)
    (h : E.vocab_to_id tok = some c) : context_ids_of E.vocab_to_id [tok] = [c] := by
  simp [context_ids_of, List.filterMap_cons, h]

/-- C10: a missing key is the zero distribution.  For a single-token context whose
token has an id inside the vocabulary array and no forward record,
`predict_next_token` returns `[NO_VALID_PREDICTION]`, not `[DB_ERROR]`, when the
transaction and the tables open; and a lookup of an absent key leaves every
score as it is, in the seeding and in every attention step. -/
theorem missing_key_is_zero_distribution :
    (∀ (E : InferenceEngine) (context tok : List Char) (c : Nat) (sample : ℚ)
        (p_next p_prev : Table),
      tokenize context = [tok] → E.vocab_to_id tok = some c → c < E.id_to_vocab.length →
      E.txn_ok = true → E.p_next_given_current = some p_next →
      E.p_prev_given_current = some p_prev → p_next c = none →
      predict_next_token E context sample = some Prediction.NO_VALID_PREDICTION ∧
      predict_next_token E context sample ≠ some Prediction.DB_ERROR ∧
      predict_next_token_string E context sample = some "[NO_VALID_PREDICTION]".toList) ∧
    (∀ (p_next : Table) (last : Nat) (s : List ℚ),
      p_next last = none → seed_scores p_next last s = some s) ∧
    (∀ (p_next p_prev : Table) (last prev : Nat) (s : List ℚ),
      p_next prev = none ∨ p_prev last = none →
      attention_step p_next p_prev last s prev = some s) := by
  refine ⟨?_, seed_scores_absent, attention_step_absent⟩
  intro E context tok c sample p_next p_prev htok hc hlt htxn hnext hprev hnone
  have hids := single_context_ids E tok c hc
  have hfuse : fuse_scores p_next p_prev [c] E.id_to_vocab.length =
      some (List.replicate E.id_to_vocab.length 0) := by
    simp [fuse_scores, seed_scores, hnone]
  obtain ⟨s', hs', _, hval⟩ := apply_penalty_spec [c]
    (List.replicate E.id_to_vocab.length 0) (by simpa using hlt)
  have hzero : ∀ j, s'.getD j 0 = 0 := by
    intro j
    rw [hval j, getD_replicate_zero]
    simp
  have h : predict_next_token E context sample = some Prediction.NO_VALID_PREDICTION := by
    rw [predict_generative E context sample (by rw [htok]; simp), htok,
      generative_mode_eval E [tok] sample p_next p_prev _ s' htxn hnext hprev
        (by rw [hids]; simp) (by rw [hids]; exact hfuse) (by rw [hids]; exact hs'),
      choose_token_of_zero s' sample hzero]
  refine ⟨h, by rw [h]; simp, ?_⟩
  unfold predict_next_token_string
  rw [h]
  rfl

/-- Witness of C10: the context `c` on `demo_engine`; the id 2 of `c` has no record
in `demo_p_next`. -/
theorem missing_key_is_zero_distribution_witness :
    predict_next_token demo_engine "c".toList 0 = some Prediction.NO_VALID_PREDICTION ∧
    predict_next_token demo_engine "c".toList 0 ≠ some Prediction.DB_ERROR ∧
    predict_next_token_string demo_engine "c".toList 0 =
      some "[NO_VALID_PREDICTION]".toList :=
  missing_key_is_zero_distribution.1 demo_engine "c".toList "c".toList 2 0
    demo_p_next demo_p_prev (by decide) (by decide) (by decide) rfl rfl rfl (by decide)

theorem lookup_count_bump (m : Counts) (b x : Nat) :
    lookup_count (bump m b) x = lookup_count m x + if x = b then 1 else 0 := by
  induction m with
  | nil =>
    by_cases h : b = x
    · simp [bump, lookup_count, h]
    · simp [bump, lookup_count, h, Ne.symm h]
  | cons kc m ih =>
    obtain ⟨k, c⟩ := kc
    unfold bump
    by_cases hkb : k = b
    · subst hkb
      by_cases hkx : k = x
      · simp [lookup_count, hkx]
      · simp [lookup_count, hkx, Ne.symm hkx]
    · simp only [hkb, if_false]
      by_cases hkx : k = x
      · subst hkx
        simp [lookup_count, hkb]
      · simp [lookup_count, hkx, ih]

theorem count_at_bump2 (t : CountTable) (a b x y : Nat) :
    count_at (bump2 t a b) x y = count_at t x y + if x = a ∧ y = b then 1 else 0 := by
  induction t with
  | nil =>
    by_cases hax : a = x
    · subst hax
      by_cases hby : y = b
      · simp [bump2, count_at, bump, lookup_count, hby]
      · simp [bump2, count_at, bump, lookup_count, hby, Ne.symm hby]
    · simp [bump2, count_at, hax, Ne.symm hax]
  | cons km t ih =>
    obtain ⟨k, m⟩ := km
    unfold bump2
    by_cases hka : k = a
    · subst hka
      by_cases hkx : k = x
      · subst hkx
        simp [count_at, lookup_count_bump]
      · simp [count_at, hkx, Ne.symm hkx]
    · simp only [hka, if_false]
      by_cases hkx : k = x
      · subst hkx
        simp [count_at, hka]
      · simp [count_at, hkx, ih]

theorem adjacent_count_cons_cons (x y : Nat) (rest : List Nat) (a b : Nat) :
    adjacent_count (x :: y :: rest) a b =
      adjacent_count (y :: rest) a b + if x = a ∧ y = b then 1 else 0 := by
  simp [adjacent_count, List.count_cons]

theorem adjacent_count_short (line : List Nat) (a b : Nat) (h : line.length < 2) :
    adjacent_count line a b = 0 := by
  cases line with
  | nil => simp [adjacent_count]
  | cons x rest =>
    cases rest with
    | nil => simp [adjacent_count]
    | cons y rest =>
      simp only [List.length_cons] at h
      omega

theorem count_pairs_spec (line : List Nat) (st : CountTable × CountTable) (a b : Nat) :
    count_at (count_pairs line st).1 a b = count_at st.1 a b + adjacent_count line a b ∧
    count_at (count_pairs line st).2 b a = count_at st.2 b a + adjacent_count line a b := by
  induction line generalizing st with
  | nil => simp [count_pairs, adjacent_count]
  | cons x rest ih =>
    cases rest with
    | nil => simp [count_pairs, adjacent_count]
    | cons y rest =>
      obtain ⟨h1, h2⟩ := ih (bump2 st.1 x y, bump2 st.2 y x)
      have hind : (if b = y ∧ a = x then 1 else 0) = if x = a ∧ y = b then 1 else 0 := by
        by_cases h : x = a ∧ y = b
        · rw [if_pos h, if_pos ⟨h.2.symm, h.1.symm⟩]
        · rw [if_neg h, if_neg (fun h' => h ⟨h'.2.symm, h'.1.symm⟩)]
      have hind1 : (if a = x ∧ b = y then 1 else 0) = if x = a ∧ y = b then 1 else 0 := by
        by_cases h : x = a ∧ y = b
        · rw [if_pos h, if_pos ⟨h.1.symm, h.2.symm⟩]
        · rw [if_neg h, if_neg (fun h' => h ⟨h'.1.symm, h'.2.symm⟩)]
      simp only [count_at_bump2, hind, hind1] at h1 h2
      rw [count_pairs, adjacent_count_cons_cons, h1, h2]
      constructor <;> omega

theorem count_line_spec (line : List Nat) (st : CountTable × CountTable) (a b : Nat) :
    count_at (count_line st line).1 a b = count_at st.1 a b + adjacent_count line a b ∧
    count_at (count_line st line).2 b a = count_at st.2 b a + adjacent_count line a b := by
  unfold count_line
  split
  · rename_i h
    simp [adjacent_count_short line a b h]
  · exact count_pairs_spec line st a b

theorem corpus_adjacent_cons (line : List Nat) (corpus : List (List Nat)) (a b : Nat) :
    corpus_adjacent (line :: corpus) a b =
      adjacent_count line a b + corpus_adjacent corpus a b := by
  unfold corpus_adjacent
  by_cases h : 2 ≤ line.length
  · simp [List.filter_cons, h]
  · have h0 := adjacent_count_short line a b (by omega)
    simp [List.filter_cons, h, h0]

theorem foldl_count_line_spec (corpus : List (List Nat)) (st : CountTable × CountTable)
    (a b : Nat) :
    count_at (corpus.foldl count_line st).1 a b = count_at st.1 a b + corpus_adjacent corpus a b ∧
    count_at (corpus.foldl count_line st).2 b a =
      count_at st.2 b a + corpus_adjacent corpus a b := by
  induction corpus generalizing st with
  | nil => simp [corpus_adjacent]
  | cons line corpus ih =>
    rw [List.foldl_cons, corpus_adjacent_cons]
    obtain ⟨h1, h2⟩ := ih (count_line st line)
    obtain ⟨h3, h4⟩ := count_line_spec line st a b
    rw [h1, h2, h3, h4]
    constructor <;> omega

theorem build_counts_spec (corpus : List (List Nat)) (a b : Nat) :
    count_at (build_counts corpus).1 a b = corpus_adjacent corpus a b ∧
    count_at (build_counts corpus).2 b a = corpus_adjacent corpus a b := by
  have h := foldl_count_line_spec corpus ([], []) a b
  simpa [build_counts, count_at] using h

/-- C11: for every corpus and all ids `a`, `b`, the forward count `[a][b]` is the
number of positions, over the lines with at least 2 ids, at which `a` is
immediately followed by `b`; it equals the backward count `[b][a]`; and a line
with fewer than 2 ids changes no count. -/
theorem bigram_counts (corpus : List (List Nat)) (a b : Nat) :
    count_at (build_counts corpus).1 a b =
      ((corpus.filter (fun line => decide (2 ≤ line.length))).map
        (fun line => (line.zip line.tail).count (a, b))).sum ∧
    count_at (build_counts corpus).1 a b = count_at (build_counts corpus).2 b a ∧
    ∀ (st : CountTable × CountTable) (line : List Nat),
      line.length < 2 → count_line st line = st := by
  obtain ⟨h1, h2⟩ := build_counts_spec corpus a b
  refine ⟨h1, by rw [h1, h2], ?_⟩
  intro st line h
  simp [count_line, h]

/-! ### Phase 1: the written records -/

theorem mem_keys_bump (m : Counts) (b x : Nat) :
    x ∈ (bump m b).map Prod.fst ↔ x ∈ m.map Prod.fst ∨ x = b := by
  induction m with
  | nil => simp [bump]
  | cons kc m ih =>
    obtain ⟨k, c⟩ := kc
    unfold bump
    by_cases hkb : k = b
    · subst hkb
      simp only [if_true, List.map_cons, List.mem_cons]
      tauto
    · simp only [hkb, if_false, List.map_cons, List.mem_cons, ih]
      tauto

theorem counts_ok_bump (m : Counts) (b : Nat)
    (h : (m.map Prod.fst).Nodup ∧ ∀ p ∈ m, 0 < p.2) : counts_ok (bump m b) := by
  induction m with
  | nil => simp [bump, counts_ok]
  | cons kc m ih =>
    obtain ⟨k, c⟩ := kc
    obtain ⟨hnd, hpos⟩ := h
    simp only [List.map_cons, List.nodup_cons] at hnd
    have ih1 := ih ⟨hnd.2, fun p hp => hpos p (List.mem_cons_of_mem _ hp)⟩
    unfold bump
    by_cases hkb : k = b
    · subst hkb
      simp only [if_true]
      refine ⟨by simp, by simpa using hnd, ?_⟩
      intro p hp
      rcases List.mem_cons.mp hp with h | h
      · subst h; simp
      · exact hpos p (List.mem_cons_of_mem _ h)
    · simp only [hkb, if_false]
      refine ⟨by simp, ?_, ?_⟩
      · simp only [List.map_cons, List.nodup_cons]
        refine ⟨?_, ih1.2.1⟩
        intro hmem
        rcases (mem_keys_bump m b k).mp hmem with h | h
        · exact hnd.1 h
        · exact hkb h
      · intro p hp
        rcases List.mem_cons.mp hp with h | h
        · subst h; exact hpos _ (List.mem_cons_self _ _)
        · exact ih1.2.2 p h

theorem mem_keys_bump2 (t : CountTable) (a b x : Nat) :
    x ∈ (bump2 t a b).map Prod.fst ↔ x ∈ t.map Prod.fst ∨ x = a := by
  induction t with
  | nil => simp [bump2]
  | cons km t ih =>
    obtain ⟨k, m⟩ := km
    unfold bump2
    by_cases hka : k = a
    · subst hka
      simp only [if_true, List.map_cons, List.mem_cons]
      tauto
    · simp only [hka, if_false, List.map_cons, List.mem_cons, ih]
      tauto

theorem table_ok_bump2 (t : CountTable) (a b : Nat) (h : table_ok t) :
    table_ok (bump2 t a b) := by
  induction t with
  | nil =>
    refine ⟨by simp [bump2], ?_⟩
    intro p hp
    simp only [bump2, List.mem_singleton] at hp
    subst hp
    exact counts_ok_bump [] b ⟨by simp, by simp⟩
  | cons km t ih =>
    obtain ⟨k, m⟩ := km
    obtain ⟨hnd, hok⟩ := h
    simp only [List.map_cons, List.nodup_cons] at hnd
    have ih1 := ih ⟨hnd.2, fun p hp => hok p (List.mem_cons_of_mem _ hp)⟩
    have hm := hok (k, m) (List.mem_cons_self _ _)
    unfold bump2
    by_cases hka : k = a
    · subst hka
      simp only [if_true]
      refine ⟨by simpa using hnd, ?_⟩
      intro p hp
      rcases List.mem_cons.mp hp with h | h
      · subst h
        exact counts_ok_bump m b ⟨hm.2.1, hm.2.2⟩
      · exact hok p (List.mem_cons_of_mem _ h)
    · simp only [hka, if_false]
      refine ⟨?_, ?_⟩
      · simp only [List.map_cons, List.nodup_cons]
        refine ⟨?_, ih1.1⟩
        intro hmem
        rcases (mem_keys_bump2 t a b k).mp hmem with h | h
        · exact hnd.1 h
        · exact hka h
      · intro p hp
        rcases List.mem_cons.mp hp with h | h
        · subst h; exact hm
        · exact ih1.2 p h

theorem table_ok_count_pairs (line : List Nat) (st : CountTable × CountTable)
    (h : table_ok st.1 ∧ table_ok st.2) :
    table_ok (count_pairs line st).1 ∧ table_ok (count_pairs line st).2 := by
  induction line generalizing st with
  | nil => simpa [count_pairs] using h
  | cons x rest ih =>
    cases rest with
    | nil => simpa [count_pairs] using h
    | cons y rest =>
      rw [count_pairs]
      exact ih _ ⟨table_ok_bump2 st.1 x y h.1, table_ok_bump2 st.2 y x h.2⟩

theorem table_ok_foldl (corpus : List (List Nat)) (st : CountTable × CountTable)
    (h : table_ok st.1 ∧ table_ok st.2) :
    table_ok (corpus.foldl count_line st).1 ∧ table_ok (corpus.foldl count_line st).2 := by
  induction corpus generalizing st with
  | nil => simpa using h
  | cons line corpus ih =>
    rw [List.foldl_cons]
    apply ih
    unfold count_line
    split
    · exact h
    · exact table_ok_count_pairs line st h

theorem table_ok_build_counts (corpus : List (List Nat)) :
    table_ok (build_counts corpus).1 ∧ table_ok (build_counts corpus).2 :=
  table_ok_foldl corpus ([], []) ⟨⟨by simp, by simp⟩, ⟨by simp, by simp⟩⟩

theorem le_total_count (m : Counts) (p : Nat × Nat) (hp : p ∈ m) : p.2 ≤ total_count m := by
  rw [total_count_eq_sum]
  exact List.single_le_sum (fun _ _ => Nat.zero_le _) _ (List.mem_map_of_mem _ hp)

theorem total_count_pos (m : Counts) (h : counts_ok m) : 0 < total_count m := by
  obtain ⟨hne, _, hpos⟩ := h
  cases m with
  | nil => exact absurd rfl hne
  | cons p m =>
    exact lt_of_lt_of_le (hpos p (List.mem_cons_self _ _))
      (le_total_count _ p (List.mem_cons_self _ _))

theorem make_dist_ok (m : Counts) (h : counts_ok m) :
    ((make_dist m).map ProbEntry.token_id).Nodup ∧
    ∀ e ∈ make_dist m, 0 < e.probability ∧ e.probability ≤ 1 := by
  have hT := total_count_pos m h
  have hTq : (0 : ℚ) < (total_count m : ℚ) := by exact_mod_cast hT
  constructor
  · have : (make_dist m).map ProbEntry.token_id = m.map Prod.fst := by
      simp [make_dist, List.map_map, Function.comp_def]
    rw [this]
    exact h.2.1
  · intro e he
    obtain ⟨p, hp, rfl⟩ := List.mem_map.mp he
    have hc : (0 : ℚ) < (p.2 : ℚ) := by exact_mod_cast h.2.2 p hp
    have hle : (p.2 : ℚ) ≤ (total_count m : ℚ) := by exact_mod_cast le_total_count m p hp
    exact ⟨div_pos hc hTq, (div_le_one hTq).mpr hle⟩

theorem keys_write_distributions (t : CountTable) (h : ∀ p ∈ t, counts_ok p.2) (k : Nat) :
    k ∈ (write_distributions t).map Prod.fst ↔ k ∈ t.map Prod.fst := by
  induction t with
  | nil => simp [write_distributions]
  | cons km t ih =>
    obtain ⟨k0, m0⟩ := km
    have h0 : total_count m0 ≠ 0 :=
      Nat.pos_iff_ne_zero.mp (total_count_pos m0 (h (k0, m0) (List.mem_cons_self _ _)))
    have ih1 := ih (fun p hp => h p (List.mem_cons_of_mem _ hp))
    simp only [write_distributions, h0, if_false, List.map_cons, List.mem_cons, ih1]

theorem mem_keys_of_count_at_pos (t : CountTable) (k b : Nat) (h : 0 < count_at t k b) :
    k ∈ t.map Prod.fst := by
  induction t with
  | nil => simp [count_at] at h
  | cons km t ih =>
    obtain ⟨k0, m0⟩ := km
    unfold count_at at h
    by_cases hk : k0 = k
    · simp [hk]
    · simp only [hk, if_false] at h
      simp [ih h]

theorem exists_count_at_pos (t : CountTable) (h : ∀ p ∈ t, counts_ok p.2) (k : Nat)
    (hk : k ∈ t.map Prod.fst) : ∃ b, 0 < count_at t k b := by
  induction t with
  | nil => simp at hk
  | cons km t ih =>
    obtain ⟨k0, m0⟩ := km
    by_cases hk0 : k0 = k
    · obtain ⟨hne, _, hpos⟩ := h (k0, m0) (List.mem_cons_self _ _)
      cases m0 with
      | nil => exact absurd rfl hne
      | cons bc m0 =>
        obtain ⟨b, c⟩ := bc
        refine ⟨b, ?_⟩
        have := hpos (b, c) (List.mem_cons_self _ _)
        simpa [count_at, hk0, lookup_count] using this
    · have hk' : k ∈ t.map Prod.fst := by
        simp only [List.map_cons, List.mem_cons] at hk
        rcases hk with hk | hk
        · exact absurd hk.symm hk0
        · exact hk
      obtain ⟨b, hb⟩ := ih (fun p hp => h p (List.mem_cons_of_mem _ hp)) hk'
      exact ⟨b, by simpa [count_at, hk0] using hb⟩

theorem corpus_adjacent_pos_iff (corpus : List (List Nat)) (a b : Nat) :
    0 < corpus_adjacent corpus a b ↔ ∃ line ∈ corpus, (a, b) ∈ line.zip line.tail := by
  induction corpus with
  | nil => simp [corpus_adjacent]
  | cons line corpus ih =>
    rw [corpus_adjacent_cons, Nat.add_pos_iff_pos_or_pos, ih]
    simp only [adjacent_count, List.count_pos_iff, List.mem_cons, exists_eq_or_imp]

theorem keys_forward_iff (corpus : List (List Nat)) (k : Nat) :
    k ∈ (forward_table corpus).map Prod.fst ↔
      ∃ line ∈ corpus, ∃ b, (k, b) ∈ line.zip line.tail := by
  have hok := (table_ok_build_counts corpus).1
  rw [forward_table, keys_write_distributions _ hok.2]
  constructor
  · intro hk
    obtain ⟨b, hb⟩ := exists_count_at_pos _ hok.2 k hk
    rw [(build_counts_spec corpus k b).1] at hb
    obtain ⟨line, hl, hmem⟩ := (corpus_adjacent_pos_iff corpus k b).mp hb
    exact ⟨line, hl, b, hmem⟩
  · rintro ⟨line, hl, b, hmem⟩
    apply mem_keys_of_count_at_pos _ k b
    rw [(build_counts_spec corpus k b).1]
    exact (corpus_adjacent_pos_iff corpus k b).mpr ⟨line, hl, hmem⟩

theorem keys_backward_iff (corpus : List (List Nat)) (k : Nat) :
    k ∈ (backward_table corpus).map Prod.fst ↔
      ∃ line ∈ corpus, ∃ a, (a, k) ∈ line.zip line.tail := by
  have hok := (table_ok_build_counts corpus).2
  rw [backward_table, keys_write_distributions _ hok.2]
  constructor
  · intro hk
    obtain ⟨a, ha⟩ := exists_count_at_pos _ hok.2 k hk
    rw [(build_counts_spec corpus a k).2] at ha
    obtain ⟨line, hl, hmem⟩ := (corpus_adjacent_pos_iff corpus a k).mp ha
    exact ⟨line, hl, a, hmem⟩
  · rintro ⟨line, hl, a, hmem⟩
    apply mem_keys_of_count_at_pos _ k a
    rw [(build_counts_spec corpus a k).2]
    exact (corpus_adjacent_pos_iff corpus a k).mpr ⟨line, hl, hmem⟩

/-- C12: for every corpus, every record written to the forward or the backward
table has pairwise distinct token ids and probabilities `count / total` in
`(0, 1]`; a key is in the forward table exactly when it has an observed
successor, in the backward table exactly when it has an observed predecessor;
and no conditioning id of the counts has total 0, so no division by 0 occurs. -/
theorem written_records_well_formed (corpus : List (List Nat)) :
    (∀ k dist, ((k, dist) ∈ forward_table corpus ∨ (k, dist) ∈ backward_table corpus) →
      (dist.map ProbEntry.token_id).Nodup ∧
      ∀ e ∈ dist, 0 < e.probability ∧ e.probability ≤ 1) ∧
    (∀ k, k ∈ (forward_table corpus).map Prod.fst ↔
      ∃ line ∈ corpus, ∃ b, (k, b) ∈ line.zip line.tail) ∧
    (∀ k, k ∈ (backward_table corpus).map Prod.fst ↔
      ∃ line ∈ corpus, ∃ a, (a, k) ∈ line.zip line.tail) ∧
    (∀ k m, ((k, m) ∈ (build_counts corpus).1 ∨ (k, m) ∈ (build_counts corpus).2) →
      total_count m ≠ 0) := by
  obtain ⟨hf, hb⟩ := table_ok_build_counts corpus
  refine ⟨?_, keys_forward_iff corpus, keys_backward_iff corpus, ?_⟩
  · intro k dist h
    rcases h with h | h
    · obtain ⟨m, hm, _, rfl⟩ := mem_write_distributions _ k dist h
      exact make_dist_ok m (hf.2 (k, m) hm)
    · obtain ⟨m, hm, _, rfl⟩ := mem_write_distributions _ k dist h
      exact make_dist_ok m (hb.2 (k, m) hm)
  · intro k m h
    rcases h with h | h
    · exact Nat.pos_iff_ne_zero.mp (total_count_pos m (hf.2 (k, m) h))
    · exact Nat.pos_iff_ne_zero.mp (total_count_pos m (hb.2 (k, m) h))

/-- Witness of C12 on the corpus of the two lines `3 1 2 1 5` and `4 1 2`: the
forward record of id 1, `2 ↦ 2/3, 5 ↦ 1/3`, has distinct ids and probabilities
in `(0, 1]`. -/
theorem written_records_well_formed_witness :
    (([⟨2, 2 / 3⟩, ⟨5, 1 / 3⟩] : List ProbEntry).map ProbEntry.token_id).Nodup ∧
    ∀ e ∈ ([⟨2, 2 / 3⟩, ⟨5, 1 / 3⟩] : List ProbEntry),
      0 < e.probability ∧ e.probability ≤ 1 := by
  have hT : forward_table [[3, 1, 2, 1, 5], [4, 1, 2]] =
      [(3, [⟨1, 1⟩]), (1, [⟨2, 2 / 3⟩, ⟨5, 1 / 3⟩]), (2, [⟨1, 1⟩]), (4, [⟨1, 1⟩])] := by
    simp [forward_table, build_counts, count_line, count_pairs, bump2, bump,
      write_distributions, make_dist, total_count]
  exact (written_records_well_formed [[3, 1, 2, 1, 5], [4, 1, 2]]).1 1 _
    (Or.inl (by rw [hT]; simp))

/-! ### Phase 2: the Memory Indexer -/

theorem build_memory_append (pre : List (List Nat)) (l : List Nat) :
    build_memory (pre ++ [l]) = index_line (build_memory pre) l := by
  simp [build_memory, List.foldl_append]

theorem index_line_instruction (st : IndexerState) (l : List Nat)
    (h : is_instruction_line l) :
    index_line st l = { st with current_instruction_ids := l.tail } := by
  cases l with
  | nil => simp [is_instruction_line] at h
  | cons first rest =>
    simp only [is_instruction_line, List.head?_cons, Option.some.injEq] at h
    subst h
    simp [index_line, INSTRUCTION_ID]

theorem index_line_record (st : IndexerState) (l : List Nat)
    (h : is_qualifying_response l) (hcur : st.current_instruction_ids ≠ []) :
    index_line st l =
      { memory_idx := st.memory_idx + 1
        current_instruction_ids := []
        ann_points :=
          st.ann_points ++ [(instruction_vector st.current_instruction_ids, st.memory_idx)]
        memory_puts := st.memory_puts ++ [(st.memory_idx, l.getD 1 0)] } := by
  cases l with
  | nil => simp [is_qualifying_response] at h
  | cons first rest =>
    obtain ⟨h1, h2⟩ := h
    simp only [List.head?_cons, Option.some.injEq] at h1
    subst h1
    cases rest with
    | nil => simp at h2
    | cons o rest => simp [index_line, INSTRUCTION_ID, RESPONSE_ID, hcur]

theorem index_line_skip (st : IndexerState) (l : List Nat)
    (h1 : ¬ is_instruction_line l)
    (h2 : ¬ (is_qualifying_response l ∧ st.current_instruction_ids ≠ [])) :
    index_line st l = st := by
  cases l with
  | nil => rfl
  | cons first rest =>
    simp only [is_instruction_line, List.head?_cons, Option.some.injEq] at h1
    simp only [is_qualifying_response, List.head?_cons, Option.some.injEq] at h2
    simp only [index_line, INSTRUCTION_ID, RESPONSE_ID, h1, if_false]
    rw [if_neg]
    rintro ⟨ha, hb, hc⟩
    exact h2 ⟨⟨ha, hc⟩, hb⟩

theorem not_instruction_of_response (l : List Nat) (h : l.head? = some 4) :
    ¬ is_instruction_line l := by
  intro h3
  rw [is_instruction_line, h] at h3
  simp at h3

theorem index_line_step (st : IndexerState) (l : List Nat) :
    (index_line st l).memory_puts =
      st.memory_puts ++
        (if is_qualifying_response l ∧ st.current_instruction_ids ≠ []
          then [(st.memory_idx, l.getD 1 0)] else []) ∧
    (index_line st l).ann_points =
      st.ann_points ++
        (if is_qualifying_response l ∧ st.current_instruction_ids ≠ []
          then [(instruction_vector st.current_instruction_ids, st.memory_idx)] else []) ∧
    (index_line st l).memory_idx =
      st.memory_idx +
        (if is_qualifying_response l ∧ st.current_instruction_ids ≠ [] then 1 else 0) ∧
    (index_line st l).current_instruction_ids =
      (if is_instruction_line l then l.tail
        else if is_qualifying_response l ∧ st.current_instruction_ids ≠ [] then []
        else st.current_instruction_ids) := by
  by_cases h3 : is_instruction_line l
  · have hq : ¬ is_qualifying_response l := by
      intro hq
      exact not_instruction_of_response l hq.1 h3
    rw [index_line_instruction st l h3]
    simp [h3, hq]
  · by_cases hq : is_qualifying_response l ∧ st.current_instruction_ids ≠ []
    · rw [index_line_record st l hq.1 hq.2]
      simp [h3, hq]
    · rw [index_line_skip st l h3 hq]
      simp [h3, hq]

theorem pending_of_decomposition (pre1 pre2 : List (List Nat)) (cur : List Nat)
    (h : ∀ l ∈ pre2, ¬ is_instruction_line l ∧ ¬ is_qualifying_response l) :
    (build_memory (pre1 ++ (3 :: cur) :: pre2)).current_instruction_ids = cur := by
  induction pre2 using List.reverseRecOn with
  | nil =>
    rw [build_memory_append, index_line_instruction _ _ (by simp [is_instruction_line])]
    rfl
  | append_singleton pre2 l ih =>
    have hl := h l (by simp)
    have ih1 := ih (fun l' hl' => h l' (by simp [hl']))
    have happ : pre1 ++ (3 :: cur) :: (pre2 ++ [l]) = (pre1 ++ (3 :: cur) :: pre2) ++ [l] := by
      simp
    rw [happ, build_memory_append, index_line_skip _ l hl.1 (fun hq => hl.2 hq.1)]
    exact ih1

theorem decomposition_of_pending (pre : List (List Nat))
    (h : (build_memory pre).current_instruction_ids ≠ []) :
    ∃ pre1 pre2, pre = pre1 ++ (3 :: (build_memory pre).current_instruction_ids) :: pre2 ∧
      ∀ l ∈ pre2, ¬ is_instruction_line l ∧ ¬ is_qualifying_response l := by
  induction pre using List.reverseRecOn with
  | nil => simp [build_memory] at h
  | append_singleton pre l ih =>
    rw [build_memory_append] at h ⊢
    by_cases h3 : is_instruction_line l
    · rw [index_line_instruction _ l h3]
      refine ⟨pre, [], ?_, by simp⟩
      cases l with
      | nil => simp [is_instruction_line] at h3
      | cons first rest =>
        simp only [is_instruction_line, List.head?_cons, Option.some.injEq] at h3
        subst h3
        simp
    · by_cases hq : is_qualifying_response l ∧ (build_memory pre).current_instruction_ids ≠ []
      · rw [index_line_record _ l hq.1 hq.2] at h
        simp at h
      · rw [index_line_skip _ l h3 hq] at h ⊢
        obtain ⟨pre1, pre2, hpre, hall⟩ := ih h
        refine ⟨pre1, pre2 ++ [l], ?_, ?_⟩
        · conv_lhs => rw [hpre]
          simp
        · intro l' hl'
          rcases List.mem_append.mp hl' with hl' | hl'
          · exact hall l' hl'
          · rw [List.mem_singleton] at hl'
            subst hl'
            exact ⟨h3, fun hq' => hq ⟨hq', h⟩⟩

theorem no_second_record (pre : List (List Nat)) (l l' : List Nat)
    (hl : is_qualifying_response l) :
    (build_memory (pre ++ [l, l'])).memory_puts = (build_memory (pre ++ [l])).memory_puts := by
  have happ : pre ++ [l, l'] = (pre ++ [l]) ++ [l'] := by simp
  have hcur : (build_memory (pre ++ [l])).current_instruction_ids = [] := by
    rw [build_memory_append, (index_line_step _ l).2.2.2,
      if_neg (not_instruction_of_response l hl.1)]
    by_cases hc : (build_memory pre).current_instruction_ids = []
    · simp [hc]
    · simp [hc, hl]
  rw [happ, build_memory_append (pre ++ [l]) l', (index_line_step _ l').1, hcur]
  simp

/-- C13: the Memory Indexer as a state machine, for every corpus `pre` and next
line `l`.  A memory record (an `addPoint` and a `put`) is produced exactly when
`l` is a response line with at least one id after the marker and the pending
instruction is not empty; its key is the current `memory_idx`, its outcome the
first id after the marker, its vector the histogram of the pending instruction;
the pending instruction becomes the ids after the marker on an instruction line
and is cleared by a record.  The pending instruction is the tail of the most
recent instruction line when no qualifying response came after it, and the line
that follows a qualifying response, a second response in particular, produces
no record. -/
theorem memory_indexer_records :
    (∀ (pre : List (List Nat)) (l : List Nat),
      (build_memory (pre ++ [l])).memory_puts =
        (build_memory pre).memory_puts ++
          (if is_qualifying_response l ∧ (build_memory pre).current_instruction_ids ≠ []
            then [((build_memory pre).memory_idx, l.getD 1 0)] else []) ∧
      (build_memory (pre ++ [l])).ann_points =
        (build_memory pre).ann_points ++
          (if is_qualifying_response l ∧ (build_memory pre).current_instruction_ids ≠ []
            then [(instruction_vector (build_memory pre).current_instruction_ids,
              (build_memory pre).memory_idx)] else []) ∧
      (build_memory (pre ++ [l])).current_instruction_ids =
        (if is_instruction_line l then l.tail
          else if is_qualifying_response l ∧ (build_memory pre).current_instruction_ids ≠ []
            then []
          else (build_memory pre).current_instruction_ids)) ∧
    (∀ (pre1 pre2 : List (List Nat)) (cur : List Nat),
      (∀ l ∈ pre2, ¬ is_instruction_line l ∧ ¬ is_qualifying_response l) →
      (build_memory (pre1 ++ (3 :: cur) :: pre2)).current_instruction_ids = cur) ∧
    (∀ pre : List (List Nat), (build_memory pre).current_instruction_ids ≠ [] →
      ∃ pre1 pre2,
        pre = pre1 ++ (3 :: (build_memory pre).current_instruction_ids) :: pre2 ∧
        ∀ l ∈ pre2, ¬ is_instruction_line l ∧ ¬ is_qualifying_response l) ∧
    (∀ (pre : List (List Nat)) (l l' : List Nat),
      is_qualifying_response l →
      (build_memory (pre ++ [l, l'])).memory_puts =
        (build_memory (pre ++ [l])).memory_puts) := by
  refine ⟨?_, pending_of_decomposition, decomposition_of_pending, no_second_record⟩
  intro pre l
  rw [build_memory_append]
  obtain ⟨h1, h2, _, h4⟩ := index_line_step (build_memory pre) l
  exact ⟨h1, h2, h4⟩

/-- Witness of C13 on `demo_corpus`: the instruction `3 10 266 11` and the
response `4 7 8` give the record `0 ↦ 7`; the response `4 9` that follows gives
none. -/
theorem memory_indexer_records_witness :
    (build_memory demo_corpus).memory_puts = [(0, 7)] ∧
    (build_memory ([[3, 10, 266, 11]] ++ [[4, 7, 8]])).memory_puts =
      (build_memory [[3, 10, 266, 11]]).memory_puts ++
        (if is_qualifying_response [4, 7, 8] ∧
            (build_memory [[3, 10, 266, 11]]).current_instruction_ids ≠ []
          then [((build_memory [[3, 10, 266, 11]]).memory_idx, ([4, 7, 8] : List Nat).getD 1 0)]
          else []) ∧
    (build_memory ([[3, 10, 266, 11]] ++ [[4, 7, 8], [4, 9]])).memory_puts =
      (build_memory ([[3, 10, 266, 11]] ++ [[4, 7, 8]])).memory_puts :=
  ⟨by decide, (memory_indexer_records.1 [[3, 10, 266, 11]] [4, 7, 8]).1,
    memory_indexer_records.2.2.2 [[3, 10, 266, 11]] [4, 7, 8] [4, 9] (by decide)⟩

theorem build_memory_invariant (corpus : List (List Nat)) :
    (build_memory corpus).ann_points.map Prod.snd = List.range (build_memory corpus).memory_idx ∧
    (build_memory corpus).memory_puts.map Prod.fst =
      List.range (build_memory corpus).memory_idx := by
  induction corpus using List.reverseRecOn with
  | nil => simp [build_memory]
  | append_singleton pre l ih =>
    rw [build_memory_append]
    obtain ⟨h1, h2, h3, _⟩ := index_line_step (build_memory pre) l
    rw [h1, h2, h3]
    by_cases hq : is_qualifying_response l ∧ (build_memory pre).current_instruction_ids ≠ []
    · simp only [hq, and_self, if_true, List.map_append, List.map_cons, List.map_nil,
        ih.1, ih.2, List.range_succ, not_false_eq_true, ne_eq]
    · simp only [hq, if_false, List.append_nil, Nat.add_zero]
      exact ih

/-- C14: after every step of the Memory Indexer (after any number `k` of lines of
any corpus) the labels inserted into the vector index and the keys of the
memory records are both `0, 1, ..., n - 1` in this order, `n` being the number of
records produced so far and the value of `memory_idx`; so the two sets are
equal and no index is used twice. -/
theorem memory_index_consistency (corpus : List (List Nat)) (k : Nat) :
    (build_memory (corpus.take k)).ann_points.map Prod.snd =
      List.range (build_memory (corpus.take k)).memory_puts.length ∧
    (build_memory (corpus.take k)).memory_puts.map Prod.fst =
      List.range (build_memory (corpus.take k)).memory_puts.length ∧
    (build_memory (corpus.take k)).memory_idx =
      (build_memory (corpus.take k)).memory_puts.length ∧
    (∀ i, i ∈ (build_memory (corpus.take k)).ann_points.map Prod.snd ↔
      i ∈ (build_memory (corpus.take k)).memory_puts.map Prod.fst) ∧
    ((build_memory (corpus.take k)).ann_points.map Prod.snd).Nodup := by
  obtain ⟨h1, h2⟩ := build_memory_invariant (corpus.take k)
  have hlen : (build_memory (corpus.take k)).memory_idx =
      (build_memory (corpus.take k)).memory_puts.length := by
    have := congrArg List.length h2
    simpa using this.symm
  refine ⟨by rw [h1, hlen], by rw [h2, hlen], hlen, fun i => by rw [h1, h2], ?_⟩
  rw [h1]
  exact List.nodup_range _

/-! ### The histogram vectors of training and of the query -/

theorem strs_getD_set_self (l : List (List Char)) (i : Nat) (v : List Char)
    (h : i < l.length) : (l.set i v).getD i [] = v := by
  simp [List.getD_eq_getElem?_getD, List.getElem?_set, h]

theorem strs_getD_set_other (l : List (List Char)) (i j : Nat) (v : List Char) (h : i ≠ j) :
    (l.set i v).getD j [] = l.getD j [] := by
  simp [List.getD_eq_getElem?_getD, List.getElem?_set, h]

theorem resize_grow (l : List (List Char)) (n j : Nat) (hn : l.length ≤ n) :
    (resize l n).length = n ∧ (j < l.length → (resize l n).getD j [] = l.getD j []) := by
  unfold resize
  by_cases h : n ≤ l.length
  · have : n = l.length := Nat.le_antisymm h hn
    subst this
    simp
  · simp only [h, if_false, List.length_append, List.length_replicate]
    refine ⟨by omega, fun hj => ?_⟩
    simp [List.getD_eq_getElem?_getD, List.getElem?_append_left hj]

theorem load_step_spec (v : List (List Char)) (pair : List Char × Nat)
    (hsmall : pair.2 + 100 < 4294967296) :
    ∃ v1, load_step v pair = some v1 ∧ v.length ≤ v1.length ∧ pair.2 < v1.length ∧
      v1.getD pair.2 [] = pair.1 ∧
      ∀ j, j ≠ pair.2 → j < v.length → v1.getD j [] = v.getD j [] := by
  unfold load_step
  rw [Nat.mod_eq_of_lt hsmall]
  by_cases hge : pair.2 ≥ v.length
  · simp only [hge, if_true]
    have hgrow : v.length ≤ pair.2 + 100 := by omega
    have hlen := (resize_grow v (pair.2 + 100) 0 hgrow).1
    have hlt : pair.2 < (resize v (pair.2 + 100)).length := by rw [hlen]; omega
    refine ⟨_, by rw [if_pos hlt], by rw [List.length_set, hlen]; omega,
      by rw [List.length_set]; exact hlt, strs_getD_set_self _ _ _ hlt, ?_⟩
    intro j hj hjlt
    rw [strs_getD_set_other _ _ _ _ (Ne.symm hj)]
    exact (resize_grow v (pair.2 + 100) j hgrow).2 hjlt
  · simp only [hge, if_false]
    have hlt : pair.2 < v.length := by omega
    refine ⟨_, by rw [if_pos hlt], by rw [List.length_set], by rw [List.length_set]; exact hlt,
      strs_getD_set_self _ _ _ hlt, ?_⟩
    intro j hj _
    exact strs_getD_set_other _ _ _ _ (Ne.symm hj)

theorem load_loop_spec (pairs : List (List Char × Nat)) (v : List (List Char))
    (hnd : (pairs.map Prod.snd).Nodup) (hsmall : ∀ p ∈ pairs, p.2 + 100 < 4294967296) :
    ∃ v', load_loop pairs v = some v' ∧ v.length ≤ v'.length ∧
      (∀ p ∈ pairs, p.2 < v'.length ∧ v'.getD p.2 [] = p.1) ∧
      ∀ j, j ∉ pairs.map Prod.snd → j < v.length → v'.getD j [] = v.getD j [] := by
  induction pairs generalizing v with
  | nil => exact ⟨v, rfl, le_refl _, by simp, fun _ _ _ => rfl⟩
  | cons pair rest ih =>
    simp only [List.map_cons, List.nodup_cons] at hnd
    obtain ⟨v1, hv1, hlen1, hlt1, hval1, hkeep1⟩ :=
      load_step_spec v pair (hsmall pair (List.mem_cons_self _ _))
    obtain ⟨v', hv', hlen', hall', hkeep'⟩ := ih v1 hnd.2
      (fun p hp => hsmall p (List.mem_cons_of_mem _ hp))
    refine ⟨v', ?_, le_trans hlen1 hlen', ?_, ?_⟩
    · unfold load_loop
      rw [hv1]
      exact hv'
    · intro p hp
      rcases List.mem_cons.mp hp with h | h
      · subst h
        exact ⟨lt_of_lt_of_le hlt1 hlen', by rw [hkeep' p.2 hnd.1 hlt1, hval1]⟩
      · exact hall' p h
    · intro j hj hjlt
      simp only [List.map_cons, List.mem_cons, not_or] at hj
      rw [hkeep' j hj.2 (lt_of_lt_of_le hjlt hlen1), hkeep1 j hj.1 hjlt]

/-- C16 (fails on the code): `pair.second + 100` is computed in `uint32_t` and
wraps for the ids from `2^32 - 100`.  For the vocabulary with the single pair
`a ↦ 4294967295` the array of 101 slots is resized to `(4294967295 + 100) mod 2^32
= 99` slots and the write `id_to_vocab[4294967295]` is outside the array.  For a
vocabulary with pairwise distinct ids all below `2^32 - 100` the loading does
what the claim says. -/
theorem vocabulary_resize_wraps :
    (4294967295 + 100) % 4294967296 = 99 ∧
    (resize (resize [] (1 + 100)) ((4294967295 + 100) % 4294967296)).length = 99 ∧
    load_id_to_vocab [("a".toList, 4294967295)] = none ∧
    (∀ vocab_to_id : List (List Char × Nat),
      (vocab_to_id.map Prod.snd).Nodup → (∀ p ∈ vocab_to_id, p.2 + 100 < 4294967296) →
      ∃ id_to_vocab, load_id_to_vocab vocab_to_id = some id_to_vocab ∧
        ∀ p ∈ vocab_to_id, p.2 + 1 ≤ id_to_vocab.length ∧ id_to_vocab.getD p.2 [] = p.1) := by
  refine ⟨by decide, by decide, by decide, ?_⟩
  intro vocab_to_id hnd hsmall
  obtain ⟨v', hv', _, hall, _⟩ := load_loop_spec vocab_to_id
    (resize [] (vocab_to_id.length + 100)) hnd hsmall
  exact ⟨v', hv', fun p hp => ⟨(hall p hp).1, (hall p hp).2⟩⟩

/-! ### The decoding of distribution records -/

theorem take_four_drop_take (data : List Nat) (N k : Nat) (h : k + 4 ≤ N) :
    ((data.take N).drop k).take 4 = (data.drop k).take 4 := by
  rw [List.drop_take, List.take_take]
  congr 1
  omega

theorem entry_at_take (data : List Nat) (N i : Nat) (h : 8 * i + 8 ≤ N) :
    entry_at (data.take N) i = entry_at data i := by
  unfold entry_at
  rw [take_four_drop_take data N (8 * i) (by omega),
    take_four_drop_take data N (8 * i + 4) (by omega)]

theorem read_entries_take (data : List Nat) :
    read_entries (data.take (8 * (data.length / 8))) = read_entries data := by
  have hle : 8 * (data.length / 8) ≤ data.length := Nat.mul_div_le _ _
  have hlen : (data.take (8 * (data.length / 8))).length / 8 = data.length / 8 := by
    rw [List.length_take, Nat.min_eq_left hle]
    exact Nat.mul_div_cancel_left _ (by decide)
  unfold read_entries
  rw [hlen]
  apply List.map_congr_left
  intro i hi
  rw [List.mem_range] at hi
  exact entry_at_take data _ i (by omega)

theorem read_entries_demo_malformed :
    read_entries demo_malformed = [⟨1, 1⟩] := by
  have h0 : entry_at demo_malformed 0 = ⟨1, 1⟩ := by
    norm_num [entry_at, demo_malformed, of_le_bytes, float_of_bits]
  have hr : List.range (demo_malformed.length / 8) = [0] := by decide
  rw [read_entries, hr, List.map_cons, List.map_nil, h0]

/-- C17 as stated fails on the code: the stored value `demo_malformed` of 12 bytes,
not a multiple of 8, is looked up without failure and yields one entry, `{1, 1.0}`,
which the seeding of mode 2 adds to the score of token 1. -/
theorem malformed_record_is_used :
    demo_malformed.length % 8 ≠ 0 ∧
    table_of [(le_bytes 0 4, demo_malformed)] 0 = some [⟨1, 1⟩] ∧
    seed_scores (table_of [(le_bytes 0 4, demo_malformed)]) 0 [0, 0, 0] = some [0, 1, 0] := by
  have ht : table_of [(le_bytes 0 4, demo_malformed)] 0 = some [⟨1, 1⟩] := by
    simp [table_of, mdb_get, read_entries_demo_malformed]
  refine ⟨by decide, ht, ?_⟩
  simp [seed_scores, ht, add_entries]

/-- C17 as amended: a stored record whose byte length is not a multiple of 8 is
looked up like the record cut to its first `8 * floor(length / 8)` bytes: the
lookup yields the `floor(length / 8)` complete entries, ignores the trailing
bytes and reads no byte at or after the declared length. -/
theorem malformed_record_truncated (store : ByteStore) (k : Nat) (data : List Nat)
    (hget : mdb_get store (le_bytes k 4) = some data) (hlen : data.length % 8 ≠ 0) :
    table_of store k = some (read_entries data) ∧
    (read_entries data).length = data.length / 8 ∧
    read_entries data = read_entries (data.take (8 * (data.length / 8))) ∧
    8 * (data.length / 8) < data.length ∧
    ∀ i, i < data.length / 8 → 8 * i + 8 ≤ data.length := by
  refine ⟨by simp [table_of, hget], by simp [read_entries], (read_entries_take data).symm, ?_, ?_⟩
  · omega
  · intro i hi
    omega

/-- Witness of C17 as amended on the stored value `demo_malformed`. -/
theorem malformed_record_truncated_witness :
    table_of [(le_bytes 0 4, demo_malformed)] 0 = some (read_entries demo_malformed) ∧
    (read_entries demo_malformed).length = demo_malformed.length / 8 ∧
    read_entries demo_malformed =
      read_entries (demo_malformed.take (8 * (demo_malformed.length / 8))) ∧
    8 * (demo_malformed.length / 8) < demo_malformed.length ∧
    ∀ i, i < demo_malformed.length / 8 → 8 * i + 8 ≤ demo_malformed.length :=
  malformed_record_truncated [(le_bytes 0 4, demo_malformed)] 0 demo_malformed
    (by decide) (by decide)

/-! ### The round trip of memory records -/

theorem of_le_bytes_le_bytes (n w : Nat) : of_le_bytes (le_bytes n w) = n % 256 ^ w := by
  induction w generalizing n with
  | zero => simp [le_bytes, of_le_bytes, Nat.mod_one]
  | succ w ih =>
    rw [le_bytes, of_le_bytes, ih, pow_succ, Nat.mul_comm (256 ^ w) 256, Nat.mod_mul]

theorem length_le_bytes (n w : Nat) : (le_bytes n w).length = w := by
  induction w generalizing n with
  | zero => rfl
  | succ w ih => simp [le_bytes, ih]

theorem le_bytes_injective (n n' w : Nat) (hn : n < 256 ^ w) (hn' : n' < 256 ^ w)
    (h : le_bytes n w = le_bytes n' w) : n = n' := by
  have := congrArg of_le_bytes h
  rwa [of_le_bytes_le_bytes, of_le_bytes_le_bytes, Nat.mod_eq_of_lt hn,
    Nat.mod_eq_of_lt hn'] at this

theorem mdb_get_put (store : ByteStore) (key data key' : List Nat) :
    mdb_get (mdb_put store key data) key' =
      if key = key' then some data else mdb_get store key' := by
  induction store with
  | nil => simp [mdb_put, mdb_get]
  | cons kv store ih =>
    obtain ⟨k0, v0⟩ := kv
    unfold mdb_put
    by_cases h0 : k0 = key
    · subst h0
      by_cases h1 : k0 = key'
      · simp [mdb_get, h1]
      · simp [mdb_get, h1]
    · simp only [h0, if_false]
      by_cases h1 : k0 = key'
      · subst h1
        simp [mdb_get, Ne.symm h0]
      · simp [mdb_get, h1, ih]

theorem read_outcome_put (store : ByteStore) (m o : Nat) (ho : o < 4294967296) :
    read_outcome (mdb_put store (le_bytes m 8) (le_bytes o 4)) m = some o := by
  unfold read_outcome
  rw [mdb_get_put]
  have htake : (le_bytes o 4).take 4 = le_bytes o 4 :=
    List.take_of_length_le (by rw [length_le_bytes])
  simp only [if_true, Option.map_some', htake, of_le_bytes_le_bytes]
  exact congrArg some (Nat.mod_eq_of_lt (by simpa using ho))

theorem read_outcome_put_other (store : ByteStore) (m m' o : Nat)
    (hm : m < 18446744073709551616) (hm' : m' < 18446744073709551616) (hne : m' ≠ m) :
    read_outcome (mdb_put store (le_bytes m' 8) (le_bytes o 4)) m = read_outcome store m := by
  unfold read_outcome
  rw [mdb_get_put]
  have hk : le_bytes m' 8 ≠ le_bytes m 8 := fun h =>
    hne (le_bytes_injective m' m 8 (by simpa using hm') (by simpa using hm) h)
  simp [hk]

theorem write_memory_append (puts : List (Nat × Nat)) (p : Nat × Nat) :
    write_memory (puts ++ [p]) = mdb_put (write_memory puts) (le_bytes p.1 8) (le_bytes p.2 4) := by
  simp [write_memory, List.foldl_append]

theorem read_outcome_write_memory (puts : List (Nat × Nat))
    (hnd : (puts.map Prod.fst).Nodup)
    (hkey : ∀ p ∈ puts, p.1 < 18446744073709551616)
    (hval : ∀ p ∈ puts, p.2 < 4294967296) :
    ∀ p ∈ puts, read_outcome (write_memory puts) p.1 = some p.2 := by
  induction puts using List.reverseRecOn with
  | nil => simp
  | append_singleton puts q ih =>
    intro p hp
    rw [write_memory_append]
    rw [List.map_append, List.nodup_append] at hnd
    rcases List.mem_append.mp hp with h | h
    · have hne : q.1 ≠ p.1 := by
        intro heq
        exact hnd.2.2 (List.mem_map_of_mem Prod.fst h) (by simp [heq])
      rw [read_outcome_put_other _ _ _ _ (hkey p hp) (hkey q (by simp)) hne]
      exact ih hnd.1 (fun r hr => hkey r (by simp [hr])) (fun r hr => hval r (by simp [hr])) p h
    · rw [List.mem_singleton] at h
      subst h
      exact read_outcome_put _ _ _ (hval p hp)

theorem memory_puts_values (corpus : List (List Nat)) :
    ∀ p ∈ (build_memory corpus).memory_puts, ∃ line ∈ corpus, p.2 ∈ line := by
  induction corpus using List.reverseRecOn with
  | nil => simp [build_memory]
  | append_singleton pre l ih =>
    intro p hp
    rw [build_memory_append, (index_line_step _ l).1] at hp
    rcases List.mem_append.mp hp with h | h
    · obtain ⟨line, hl, hmem⟩ := ih p h
      exact ⟨line, by simp [hl], hmem⟩
    · by_cases hq : is_qualifying_response l ∧ (build_memory pre).current_instruction_ids ≠ []
      · rw [if_pos hq, List.mem_singleton] at h
        subst h
        refine ⟨l, by simp, ?_⟩
        have h1 : 1 < l.length := hq.1.2
        simp only
        rw [List.getD_eq_getElem l 0 h1]
        exact List.getElem_mem h1
      · rw [if_neg hq] at h
        simp at h

/-- C18: a memory record written under the key `m` (8 bytes) with the outcome `o`
(4 bytes, `o < 2^32`) is found by the exact-key lookup of `m` and decodes to `o`,
whatever the table held before; after the whole of Phase 2 on a corpus of
`uint32_t` ids with at most `2^64` records, every record produced reads back as
its outcome; and the outcome 5 written at index 42 reads back as 5. -/
theorem memory_record_round_trip :
    (∀ (store : ByteStore) (m o : Nat), o < 4294967296 →
      read_outcome (mdb_put store (le_bytes m 8) (le_bytes o 4)) m = some o) ∧
    (∀ corpus : List (List Nat),
      (build_memory corpus).memory_puts.length ≤ 18446744073709551616 →
      (∀ line ∈ corpus, ∀ id ∈ line, id < 4294967296) →
      ∀ p ∈ (build_memory corpus).memory_puts,
        memory_table_of (write_memory (build_memory corpus).memory_puts) p.1 = some p.2) ∧
    read_outcome (mdb_put [] (le_bytes 42 8) (le_bytes 5 4)) 42 = some 5 := by
  refine ⟨read_outcome_put, ?_, by decide⟩
  intro corpus hlen hids p hp
  obtain ⟨_, hkeys⟩ := build_memory_invariant corpus
  have hidx : (build_memory corpus).memory_idx = (build_memory corpus).memory_puts.length := by
    have := congrArg List.length hkeys
    simpa using this.symm
  apply read_outcome_write_memory _ _ _ _ p hp
  · rw [hkeys]
    exact List.nodup_range _
  · intro q hq
    have : q.1 ∈ List.range (build_memory corpus).memory_idx := by
      rw [← hkeys]
      exact List.mem_map_of_mem Prod.fst hq
    rw [List.mem_range, hidx] at this
    omega
  · intro q hq
    obtain ⟨line, hl, hmem⟩ := memory_puts_values corpus q hq
    exact hids line hl q.2 hmem

/-- Witness of C18 on `demo_corpus`: its one record, `0 ↦ 7`, reads back as 7. -/
theorem memory_record_round_trip_witness :
    memory_table_of (write_memory (build_memory demo_corpus).memory_puts) 0 = some 7 :=
  memory_record_round_trip.2.1 demo_corpus (by decide) (by decide) (0, 7) (by decide)

/-! ### The tokenizer -/

theorem tolower_toNat (c : Char) :
    (tolower c).toNat = if 65 ≤ c.toNat ∧ c.toNat ≤ 90 then c.toNat + 32 else c.toNat := by
  unfold tolower
  by_cases h : 65 ≤ c.toNat ∧ c.toNat ≤ 90
  · simp only [h, and_self, if_true]
    obtain ⟨h1, h2⟩ := h
    generalize c.toNat = n at h1 h2
    interval_cases n <;> rfl
  · simp only [h, if_false]

theorem tolower_clean (c : Char) (hp : ispunct c = false) :
    ispunct (tolower c) = false ∧ isupper (tolower c) = false ∧
    (isspace c = false → isspace (tolower c) = false) := by
  have ht := tolower_toNat c
  simp only [ispunct, isupper, isspace, Bool.or_eq_false_iff, Bool.and_eq_false_iff,
    decide_eq_false_iff_not, beq_eq_false_iff_ne, ne_eq] at hp ⊢
  by_cases h : 65 ≤ c.toNat ∧ c.toNat ≤ 90
  · rw [if_pos h] at ht
    rw [ht]
    refine ⟨⟨⟨⟨?_, ?_⟩, ?_⟩, ?_⟩, ?_, fun _ => ⟨?_, ?_⟩⟩ <;> omega
  · rw [if_neg h] at ht
    rw [ht]
    refine ⟨hp, ?_, fun hs => hs⟩
    omega

theorem tolower_of_not_upper (c : Char) (h : isupper c = false) : tolower c = c := by
  unfold tolower
  simp only [isupper, Bool.and_eq_false_iff, decide_eq_false_iff_not] at h
  rw [if_neg]
  omega

theorem sanitize_token_eq (s : List Char) :
    sanitize_token s = (s.filter (fun c => !ispunct c)).map tolower := by
  induction s with
  | nil => rfl
  | cons c s ih =>
    unfold sanitize_token
    by_cases h : ispunct c = true
    · simp [h, ih]
    · simp [h, ih]

theorem mem_sanitize_token (s : List Char) (c : Char) (h : c ∈ sanitize_token s) :
    ∃ c0 ∈ s, ispunct c0 = false ∧ c = tolower c0 := by
  rw [sanitize_token_eq] at h
  obtain ⟨c0, hc0, rfl⟩ := List.mem_map.mp h
  rw [List.mem_filter] at hc0
  exact ⟨c0, hc0.1, by simpa using hc0.2, rfl⟩

theorem sanitize_token_fixed (s : List Char)
    (h : ∀ c ∈ s, ispunct c = false ∧ isupper c = false) : sanitize_token s = s := by
  induction s with
  | nil => rfl
  | cons c s ih =>
    obtain ⟨hp, hu⟩ := h c (List.mem_cons_self _ _)
    unfold sanitize_token
    rw [hp, tolower_of_not_upper c hu, ih (fun c' hc' => h c' (List.mem_cons_of_mem _ hc'))]
    simp

theorem sanitize_token_idempotent (s : List Char) :
    sanitize_token (sanitize_token s) = sanitize_token s := by
  apply sanitize_token_fixed
  intro c hc
  obtain ⟨c0, _, hp, rfl⟩ := mem_sanitize_token s c hc
  exact ⟨(tolower_clean c0 hp).1, (tolower_clean c0 hp).2.1⟩

theorem push_token_eq (token : List Char) :
    push_token token = [sanitize_token token].filter (fun t => decide (t ≠ [])) := by
  unfold push_token
  by_cases h : token = []
  · subst h
    simp [sanitize_token]
  · by_cases h2 : sanitize_token token = []
    · simp [h, h2]
    · simp [h, h2]

theorem tokenize_loop_eq (s token : List Char) :
    tokenize_loop s token =
      ((((s.splitOnP isspace).modifyHead (fun piece => token ++ piece)).map
        sanitize_token).filter (fun t => decide (t ≠ []))) := by
  induction s generalizing token with
  | nil => simp [tokenize_loop, push_token_eq, List.splitOnP_nil, List.modifyHead]
  | cons c s ih =>
    unfold tokenize_loop
    rw [List.splitOnP_cons]
    by_cases hc : isspace c = true
    · have h0 := ih []
      have hid : (fun piece : List Char => ([] : List Char) ++ piece) = id := by
        funext piece
        simp
      rw [hid, List.modifyHead_id] at h0
      simp only [hc, if_true, List.modifyHead, List.append_nil, List.map_cons,
        List.filter_cons, h0, push_token_eq, List.filter_nil]
      split <;> simp
    · simp only [hc, if_false, Bool.false_eq_true]
      rw [ih (token ++ [c]), List.modifyHead_modifyHead]
      congr 2
      apply congrArg (fun f => List.modifyHead f (List.splitOnP isspace s))
      funext piece
      simp

theorem tokenize_eq_spec (s : List Char) : tokenize s = tokenize_spec s := by
  have h := tokenize_loop_eq s []
  have hid : (fun piece : List Char => ([] : List Char) ++ piece) = id := by
    funext piece
    simp
  rw [hid, List.modifyHead_id] at h
  have hsan : sanitize_token = fun piece => (piece.filter (fun c => !ispunct c)).map tolower := by
    funext piece
    exact sanitize_token_eq piece
  unfold tokenize tokenize_spec
  rw [h, hsan]
  rfl

theorem push_token_clean (token t : List Char) (htok : ∀ c ∈ token, isspace c = false)
    (ht : t ∈ push_token token) :
    t ≠ [] ∧ ∀ c ∈ t, isspace c = false ∧ ispunct c = false ∧ isupper c = false := by
  rw [push_token_eq, List.mem_filter, List.mem_singleton] at ht
  obtain ⟨rfl, hne⟩ := ht
  refine ⟨by simpa using hne, ?_⟩
  intro c hc
  obtain ⟨c0, hc0, hp, rfl⟩ := mem_sanitize_token token c hc
  obtain ⟨h1, h2, h3⟩ := tolower_clean c0 hp
  exact ⟨h3 (htok c0 hc0), h1, h2⟩

theorem tokenize_loop_clean (s token t : List Char) (htok : ∀ c ∈ token, isspace c = false)
    (ht : t ∈ tokenize_loop s token) :
    t ≠ [] ∧ ∀ c ∈ t, isspace c = false ∧ ispunct c = false ∧ isupper c = false := by
  induction s generalizing token with
  | nil => exact push_token_clean token t htok ht
  | cons c s ih =>
    unfold tokenize_loop at ht
    by_cases hc : isspace c = true
    · simp only [hc, if_true] at ht
      rcases List.mem_append.mp ht with h | h
      · exact push_token_clean token t htok h
      · exact ih [] (by simp) h
    · simp only [hc, if_false, Bool.false_eq_true] at ht
      apply ih (token ++ [c]) _ ht
      intro c' hc'
      rcases List.mem_append.mp hc' with h | h
      · exact htok c' h
      · rw [List.mem_singleton] at h
        subst h
        simpa using hc

/-- C19: for every string, `tokenize` is the list obtained by splitting on white
space, deleting every punctuation character of each piece, lower-casing the
rest and dropping the pieces left empty; every token returned is non-empty and
has no white space, no punctuation and no upper-case ASCII letter; and
`sanitize_token` is idempotent. -/
theorem tokenizer_characterisation (s : List Char) :
    tokenize s =
      ((s.splitOnP isspace).map
        (fun piece => (piece.filter (fun c => !ispunct c)).map tolower)).filter
        (fun t => decide (t ≠ [])) ∧
    (∀ t ∈ tokenize s, t ≠ [] ∧
      ∀ c ∈ t, isspace c = false ∧ ispunct c = false ∧ isupper c = false) ∧
    sanitize_token (sanitize_token s) = sanitize_token s := by
  refine ⟨tokenize_eq_spec s, ?_, sanitize_token_idempotent s⟩
  intro t ht
  exact tokenize_loop_clean s [] t (by simp) ht

theorem sanitize_token_eq_nil_iff (s : List Char) :
    sanitize_token s = [] ↔ ∀ c ∈ s, ispunct c = true := by
  induction s with
  | nil => simp [sanitize_token]
  | cons c s ih =>
    unfold sanitize_token
    by_cases h : ispunct c = true
    · simp [h, ih]
    · simp [h]

theorem push_token_eq_nil_iff (token : List Char) :
    push_token token = [] ↔ ∀ c ∈ token, ispunct c = true := by
  rw [push_token_eq, ← sanitize_token_eq_nil_iff]
  by_cases h : sanitize_token token = []
  · simp [h]
  · simp [h]

theorem tokenize_loop_eq_nil_iff (s token : List Char) :
    tokenize_loop s token = [] ↔
      (∀ c ∈ token, ispunct c = true) ∧ ∀ c ∈ s, isspace c = true ∨ ispunct c = true := by
  induction s generalizing token with
  | nil => simp [tokenize_loop, push_token_eq_nil_iff]
  | cons c s ih =>
    unfold tokenize_loop
    by_cases hc : isspace c = true
    · simp only [hc, if_true, List.append_eq_nil, push_token_eq_nil_iff, ih [],
        List.mem_cons, forall_eq_or_imp, true_or, true_and, List.not_mem_nil, false_imp_iff,
        implies_true]
    · have hc' : isspace c = false := by simpa using hc
      simp only [hc', if_false, Bool.false_eq_true, ih (token ++ [c])]
      constructor
      · rintro ⟨h1, h2⟩
        refine ⟨fun x hx => h1 x (List.mem_append_left _ hx), ?_⟩
        intro x hx
        rcases List.mem_cons.mp hx with h | h
        · subst h
          exact Or.inr (h1 x (List.mem_append_right _ (List.mem_singleton_self x)))
        · exact h2 x h
      · rintro ⟨h1, h2⟩
        refine ⟨?_, fun x hx => h2 x (List.mem_cons_of_mem _ hx)⟩
        intro x hx
        rcases List.mem_append.mp hx with h | h
        · exact h1 x h
        · rw [List.mem_singleton] at h
          subst h
          rcases h2 x (List.mem_cons_self _ _) with h | h
          · rw [hc'] at h
            cases h
          · exact h

theorem tokenize_eq_nil_iff (s : List Char) :
    tokenize s = [] ↔ ∀ c ∈ s, isspace c = true ∨ ispunct c = true := by
  unfold tokenize
  rw [tokenize_loop_eq_nil_iff]
  simp

/-- C20: for every context string whose tokenization is empty, which is the case
exactly when every character is white space or punctuation (the empty string,
white space only, `?!`), `predict_next_token` returns `[EMPTY_CONTEXT]` whatever
the state of the store and of the vector index. -/
theorem empty_context :
    (∀ (E : InferenceEngine) (context : List Char) (sample : ℚ),
      tokenize context = [] →
      predict_next_token E context sample = some Prediction.EMPTY_CONTEXT ∧
      predict_next_token_string E context sample = some "[EMPTY_CONTEXT]".toList) ∧
    (∀ context : List Char,
      tokenize context = [] ↔ ∀ c ∈ context, isspace c = true ∨ ispunct c = true) ∧
    tokenize "".toList = [] ∧ tokenize " \t \n".toList = [] ∧ tokenize "?!".toList = [] := by
  refine ⟨?_, tokenize_eq_nil_iff, by decide, by decide, by decide⟩
  intro E context sample h
  have hp : predict_next_token E context sample = some Prediction.EMPTY_CONTEXT := by
    simp [predict_next_token, h]
  refine ⟨hp, ?_⟩
  unfold predict_next_token_string
  rw [hp]
  rfl

/-- Witness of C20: the context `?!` on an engine whose transaction cannot be
opened and whose tables are missing. -/
theorem empty_context_witness :
    predict_next_token
        { demo_engine with
          txn_ok := false, p_next_given_current := none, p_prev_given_current := none,
          memory_outcomes := none }
        "?!".toList 0 = some Prediction.EMPTY_CONTEXT :=
  (empty_context.1 _ "?!".toList 0 (by decide)).1

/-! ### The sentinel `[NO_CONFIDENT_PREDICTION]` -/

theorem select_candidates_gt (final_scores : List ℚ) (p : ℚ × Nat)
    (hp : p ∈ select_candidates final_scores) : EPS < p.1 := by
  obtain ⟨j, _, hgt, rfl⟩ := (mem_sort_scores final_scores p).mp (List.mem_of_mem_take hp)
  exact hgt

theorem select_candidates_ne_nil (final_scores : List ℚ)
    (h : sort_scores final_scores ≠ []) : select_candidates final_scores ≠ [] := by
  unfold select_candidates
  cases hs : sort_scores final_scores with
  | nil => exact absurd hs h
  | cons p rest => simp [TOP_K]

theorem total_score_gt (L : List (ℚ × Nat)) (hne : L ≠ []) (hgt : ∀ p ∈ L, EPS < p.1) :
    EPS < total_score L := by
  have hE : (0 : ℚ) < EPS := by norm_num [EPS]
  cases L with
  | nil => exact absurd rfl hne
  | cons p rest =>
    have hrest : 0 ≤ cumulative rest rest.length :=
      cumulative_nonneg rest _
        (fun q hq => le_of_lt (lt_trans hE (hgt q (List.mem_cons_of_mem _ hq))))
    have hp := hgt p (List.mem_cons_self _ _)
    rw [total_score_eq_cumulative, List.length_cons, cumulative_cons_succ]
    linarith

theorem choose_token_confident (final_scores : List ℚ) (sample : ℚ) :
    choose_token final_scores sample ≠ Prediction.NO_CONFIDENT_PREDICTION := by
  unfold choose_token
  by_cases h : sort_scores final_scores = []
  · simp [h]
  · have hgt := total_score_gt (select_candidates final_scores)
      (select_candidates_ne_nil final_scores h) (select_candidates_gt final_scores)
    have hnot : ¬ (total_score (select_candidates final_scores) < EPS) := not_lt.mpr (le_of_lt hgt)
    simp [h, hnot]

theorem select_best_confident (memory_scores : List ℚ) :
    select_best memory_scores ≠ Prediction.NO_CONFIDENT_PREDICTION := by
  unfold select_best
  dsimp only
  split <;> simp

theorem generative_mode_confident (E : InferenceEngine) (context_tokens : List (List Char))
    (sample : ℚ) :
    generative_mode E context_tokens sample ≠ some Prediction.NO_CONFIDENT_PREDICTION := by
  unfold generative_mode
  cases E.txn_ok with
  | false => simp
  | true =>
    cases E.p_next_given_current with
    | none => simp
    | some p_next =>
      cases E.p_prev_given_current with
      | none => simp
      | some p_prev =>
        by_cases hids : context_ids_of E.vocab_to_id context_tokens = []
        · simp [hids]
        · cases hf : fuse_scores p_next p_prev (context_ids_of E.vocab_to_id context_tokens)
              E.id_to_vocab.length with
          | none => simp [hids, hf]
          | some s =>
            cases ha : apply_penalty (context_ids_of E.vocab_to_id context_tokens) s with
            | none => simp [hids, hf, ha]
            | some s' =>
              simp only [if_true, hids, if_false, hf, ha, ne_eq, Option.some.injEq]
              exact choose_token_confident s' sample

theorem retrieval_mode_confident (E : InferenceEngine) (context_tokens : List (List Char)) :
    retrieval_mode E context_tokens ≠ some Prediction.NO_CONFIDENT_PREDICTION := by
  unfold retrieval_mode
  dsimp only
  by_cases hc : E.ann_count > 0
  · rw [if_pos hc]
    cases E.txn_ok with
    | false => simp
    | true =>
      cases E.memory_outcomes with
      | none => simp
      | some mem =>
        simp only [if_true]
        unfold retrieve
        cases vote mem (E.searchKnn (query_vector E.vocab_to_id context_tokens) NUM_NEIGHBORS)
            (List.replicate E.id_to_vocab.length 0) with
        | none => simp
        | some s =>
          intro h
          exact select_best_confident s (Option.some.inj h)
  · rw [if_neg hc]
    intro h
    exact select_best_confident _ (Option.some.inj h)

/-- C21: for every score vector, when the retained candidate list is not empty
every retained score exceeds `1e-9`, so the total of the retained scores is at
least `1e-9` (it exceeds it); the end of mode 2 never takes the branch
`[NO_CONFIDENT_PREDICTION]`, and neither mode 2, mode 1 nor `predict_next_token`
returns it, for any engine, context and draw. -/
theorem no_confident_prediction_unreachable :
    (∀ final_scores : List ℚ, select_candidates final_scores ≠ [] →
      (∀ p ∈ select_candidates final_scores, p.1 > 1 / 1000000000) ∧
      total_score (select_candidates final_scores) ≥ 1 / 1000000000) ∧
    (∀ (final_scores : List ℚ) (sample : ℚ),
      choose_token final_scores sample ≠ Prediction.NO_CONFIDENT_PREDICTION) ∧
    (∀ (E : InferenceEngine) (context_tokens : List (List Char)) (sample : ℚ),
      generative_mode E context_tokens sample ≠ some Prediction.NO_CONFIDENT_PREDICTION ∧
      retrieval_mode E context_tokens ≠ some Prediction.NO_CONFIDENT_PREDICTION) ∧
    (∀ (E : InferenceEngine) (context : List Char) (sample : ℚ),
      predict_next_token E context sample ≠ some Prediction.NO_CONFIDENT_PREDICTION) := by
  have hE : (1 : ℚ) / 1000000000 = EPS := rfl
  refine ⟨?_, choose_token_confident, ?_, ?_⟩
  · intro final_scores hne
    rw [hE]
    exact ⟨select_candidates_gt final_scores,
      le_of_lt (total_score_gt _ hne (select_candidates_gt final_scores))⟩
  · intro E context_tokens sample
    exact ⟨generative_mode_confident E context_tokens sample,
      retrieval_mode_confident E context_tokens⟩
  · intro E context sample
    unfold predict_next_token
    dsimp only
    by_cases h0 : tokenize context = []
    · simp [h0]
    · rw [if_neg h0]
      by_cases hr : is_responding_turn (tokenize context) = true
      · rw [if_pos hr]
        exact retrieval_mode_confident E _
      · rw [if_neg hr]
        exact generative_mode_confident E _ sample

/-- Witness of C21 on the scores `[1, 0, 2, 2, 1/2]`: four candidates are retained
and their total `11/2` is not below `1e-9`. -/
theorem no_confident_prediction_unreachable_witness :
    select_candidates [1, 0, 2, 2, 1 / 2] = [(2, 3), (2, 2), (1, 0), (1 / 2, 4)] ∧
    total_score (select_candidates [1, 0, 2, 2, 1 / 2]) ≥ 1 / 1000000000 := by
  have hsel : select_candidates [1, 0, 2, 2, 1 / 2] = [(2, 3), (2, 2), (1, 0), (1 / 2, 4)] := by
    norm_num [select_candidates, sort_scores, collect_loop, EPS, List.insertionSort,
      List.orderedInsert, pair_ge, TOP_K]
  exact ⟨hsel, (no_confident_prediction_unreachable.1 [1, 0, 2, 2, 1 / 2]
    (by rw [hsel]; simp)).2⟩

/-! ### Index safety -/

theorem log2_loop_le (fuel n : Nat) (h : 0 < n) : 2 ^ log2_loop fuel n ≤ n := by
  induction fuel generalizing n with
  | zero => simpa [log2_loop] using h
  | succ fuel ih =>
    unfold log2_loop
    by_cases h2 : n < 2
    · simpa [h2] using h
    · rw [if_neg h2, pow_succ]
      have := ih (n / 2) (by omega)
      omega

theorem two_pow_ilog2_le (n : Nat) (h : 0 < n) : 2 ^ ilog2 n ≤ n :=
  log2_loop_le n n h

theorem round_half_even_ge (N D : Nat) : N / D ≤ round_half_even N D := by
  unfold round_half_even
  split <;> omega

theorem round_half_even_le (N D : Nat) : round_half_even N D ≤ N / D + 1 := by
  unfold round_half_even
  split <;> omega

theorem f32_round_pos (N D : Nat) (hD : 0 < D) (hN : D ≤ N) : 0 < f32_round N D := by
  unfold f32_round
  have hq : 0 < N / D := Nat.div_pos hN hD
  have hk : 2 ^ (ilog2 (N / D) - 23) ≤ N / D :=
    le_trans (Nat.pow_le_pow_right (by decide) (Nat.sub_le _ _)) (two_pow_ilog2_le _ hq)
  have hle : D * 2 ^ (ilog2 (N / D) - 23) ≤ N :=
    le_trans (Nat.mul_le_mul_left D hk) (Nat.mul_div_le N D)
  have hpos : 0 < D * 2 ^ (ilog2 (N / D) - 23) := Nat.mul_pos hD (by positivity)
  have h1 : 0 < N / (D * 2 ^ (ilog2 (N / D) - 23)) := Nat.div_pos hle hpos
  exact Nat.mul_pos (lt_of_lt_of_le h1 (round_half_even_ge _ _)) (by positivity)

theorem f32_round_le_twice (N : Nat) : f32_round N 1 ≤ 2 * N := by
  unfold f32_round
  rcases Nat.eq_zero_or_pos N with h0 | hpos
  · subst h0
    simp [round_half_even]
  · rw [Nat.div_one, Nat.one_mul]
    have hk : 2 ^ (ilog2 N - 23) ≤ N :=
      le_trans (Nat.pow_le_pow_right (by decide) (Nat.sub_le _ _)) (two_pow_ilog2_le _ hpos)
    have h1 := round_half_even_le N (2 ^ (ilog2 N - 23))
    have h2 : N / 2 ^ (ilog2 N - 23) * 2 ^ (ilog2 N - 23) ≤ N := Nat.div_mul_le_self _ _
    calc round_half_even N (2 ^ (ilog2 N - 23)) * 2 ^ (ilog2 N - 23)
        ≤ (N / 2 ^ (ilog2 N - 23) + 1) * 2 ^ (ilog2 N - 23) := Nat.mul_le_mul_right _ h1
      _ = N / 2 ^ (ilog2 N - 23) * 2 ^ (ilog2 N - 23) + 2 ^ (ilog2 N - 23) := by ring
      _ ≤ 2 * N := by omega

theorem log2_loop_lt (fuel n p : Nat) (h : n < 2 ^ p) (hp : 0 < p) :
    log2_loop fuel n < p := by
  induction fuel generalizing n p with
  | zero => simpa [log2_loop] using hp
  | succ fuel ih =>
    unfold log2_loop
    by_cases h2 : n < 2
    · simpa [h2] using hp
    · rw [if_neg h2]
      have hp2 : 2 ≤ p := by
        by_contra hlt
        have : p = 1 := by omega
        subst this
        omega
      obtain ⟨p', rfl⟩ : ∃ p', p = p' + 1 := ⟨p - 1, by omega⟩
      have hn : n / 2 < 2 ^ p' := by
        rw [pow_succ] at h
        omega
      have := ih (n / 2) p' hn (by omega)
      omega

theorem ilog2_lt (n p : Nat) (h : n < 2 ^ p) (hp : 0 < p) : ilog2 n < p :=
  log2_loop_lt n n p h hp

theorem lt_two_pow_log2_loop (fuel n : Nat) (h : n ≤ fuel) :
    n < 2 ^ (log2_loop fuel n + 1) := by
  induction fuel generalizing n with
  | zero =>
    have : n = 0 := by omega
    subst this
    simp [log2_loop]
  | succ fuel ih =>
    unfold log2_loop
    by_cases h2 : n < 2
    · simp only [h2, if_true]
      omega
    · rw [if_neg h2]
      have := ih (n / 2) (by omega)
      rw [pow_succ]
      omega

theorem lt_two_pow_ilog2 (n : Nat) : n < 2 ^ (ilog2 n + 1) :=
  lt_two_pow_log2_loop n n (le_refl n)

theorem le_ilog2 (n p : Nat) (h : 2 ^ p ≤ n) : p ≤ ilog2 n := by
  have h1 := lt_two_pow_ilog2 n
  have h2 : 2 ^ p < 2 ^ (ilog2 n + 1) := lt_of_le_of_lt h h1
  have := (Nat.pow_lt_pow_iff_right (by decide : 1 < 2)).mp h2
  omega

theorem ilog2_two_pow (p : Nat) : ilog2 (2 ^ p) = p := by
  have h1 := le_ilog2 (2 ^ p) p (le_refl _)
  have h2 := two_pow_ilog2_le (2 ^ p) (by positivity)
  have := (Nat.pow_le_pow_iff_right (by decide : 1 < 2)).mp h2
  omega

theorem f32_round_le_two_pow (N D p : Nat) (hD : 0 < D) (h : N ≤ 2 ^ p * D) :
    f32_round N D ≤ 2 ^ p := by
  unfold f32_round
  have hq : N / D ≤ 2 ^ p := by
    apply Nat.div_le_of_le_mul
    rw [Nat.mul_comm]
    exact h
  rcases Nat.lt_or_ge (N / D) (2 ^ p) with hlt | hge
  · have hk : ilog2 (N / D) - 23 ≤ p := by
      rcases Nat.eq_zero_or_pos p with h0 | hp
      · subst h0
        have : N / D = 0 := by simpa using hlt
        rw [this]
        decide
      · have := ilog2_lt _ _ hlt hp
        omega
    generalize ilog2 (N / D) - 23 = k at hk
    have hpk : 2 ^ p = 2 ^ (p - k) * 2 ^ k := by
      rw [← pow_add]
      congr 1
      omega
    have hdiv : N / (D * 2 ^ k) < 2 ^ (p - k) := by
      rw [← Nat.div_div_eq_div_mul]
      apply Nat.div_lt_of_lt_mul
      rw [Nat.mul_comm, ← hpk]
      exact hlt
    have h1 := round_half_even_le N (D * 2 ^ k)
    rw [hpk]
    exact Nat.mul_le_mul_right _ (by omega)
  · have hqe : N / D = 2 ^ p := le_antisymm hq hge
    have hN : N = 2 ^ p * D := by
      have h1 : 2 ^ p * D ≤ N := by
        have := Nat.div_mul_le_self N D
        rw [hqe] at this
        exact this
      omega
    rw [hqe, ilog2_two_pow]
    have hk : p - 23 ≤ p := Nat.sub_le _ _
    generalize p - 23 = k at hk
    have hpk : 2 ^ p = 2 ^ (p - k) * 2 ^ k := by
      rw [← pow_add]
      congr 1
      omega
    have hN' : N = 2 ^ (p - k) * (D * 2 ^ k) := by
      rw [hN, hpk]
      ring
    have hpos : 0 < D * 2 ^ k := Nat.mul_pos hD (by positivity)
    have hmod : N % (D * 2 ^ k) = 0 := by
      rw [hN']
      exact Nat.mul_mod_left _ _
    have hdiv : N / (D * 2 ^ k) = 2 ^ (p - k) := by
      rw [hN']
      exact Nat.mul_div_cancel _ hpos
    have hr : round_half_even N (D * 2 ^ k) = 2 ^ (p - k) := by
      unfold round_half_even
      rw [hmod, hdiv]
      have : ¬ (2 * 0 > D * 2 ^ k ∨ (2 * 0 = D * 2 ^ k ∧ 2 ^ (p - k) % 2 = 1)) := by
        omega
      rw [if_neg this]
    rw [hr, ← hpk]

theorem two_pow_le_f32_round (N D p : Nat) (hD : 0 < D) (h : 2 ^ p * D ≤ N) :
    2 ^ p ≤ f32_round N D := by
  unfold f32_round
  have hq : 2 ^ p ≤ N / D := by
    rw [Nat.le_div_iff_mul_le hD]
    exact h
  have hpe : p ≤ ilog2 (N / D) := le_ilog2 _ _ hq
  have he : 2 ^ ilog2 (N / D) ≤ N / D :=
    two_pow_ilog2_le _ (lt_of_lt_of_le (by positivity) hq)
  have hk : ilog2 (N / D) - 23 ≤ ilog2 (N / D) := Nat.sub_le _ _
  generalize ilog2 (N / D) = e at hpe he hk
  generalize e - 23 = k at hk
  have hek : 2 ^ e = 2 ^ (e - k) * 2 ^ k := by
    rw [← pow_add]
    congr 1
    omega
  have hdiv : 2 ^ (e - k) ≤ N / (D * 2 ^ k) := by
    rw [← Nat.div_div_eq_div_mul, Nat.le_div_iff_mul_le (by positivity), ← hek]
    exact he
  have h1 := round_half_even_ge N (D * 2 ^ k)
  calc 2 ^ p ≤ 2 ^ e := Nat.pow_le_pow_right (by decide) hpe
    _ = 2 ^ (e - k) * 2 ^ k := hek
    _ ≤ round_half_even N (D * 2 ^ k) * 2 ^ k := Nat.mul_le_mul_right _ (le_trans hdiv h1)

theorem f32_add_saturates (P x v : Nat) (hP : 24 ≤ P) (hx : x ≤ 2 ^ P)
    (hv : v ≤ 2 ^ (P - 24)) : f32_add x v ≤ 2 ^ P := by
  unfold f32_add
  rcases Nat.lt_or_ge (2 ^ P) (x + v) with hgt | hle
  · unfold f32_round
    rw [Nat.div_one, Nat.one_mul]
    have hP1 : (2 : Nat) ^ P = 2 ^ 23 * 2 ^ (P - 23) := by
      rw [← pow_add]
      congr 1
      omega
    have hP2 : (2 : Nat) ^ (P - 23) = 2 * 2 ^ (P - 24) := by
      rw [← pow_succ']
      congr 1
      omega
    have hlog : ilog2 (x + v) = P := by
      have h1 := le_ilog2 (x + v) P (le_of_lt hgt)
      have h2 : x + v < 2 ^ (P + 1) := by
        have : (2 : Nat) ^ (P - 24) ≤ 2 ^ P := Nat.pow_le_pow_right (by decide) (by omega)
        rw [pow_succ]
        omega
      have h3 := ilog2_lt (x + v) (P + 1) h2 (by omega)
      omega
    rw [hlog]
    have hpos : 0 < 2 ^ (P - 24) := by positivity
    generalize 2 ^ (P - 24) = u at hv hP2 hpos
    generalize 2 ^ (P - 23) = w at hP1 hP2
    generalize 2 ^ P = T at hx hgt hP1
    subst hP2
    subst hP1
    have hdiv : (x + v) / (2 * u) = 2 ^ 23 := by
      apply Nat.div_eq_of_lt_le
      · omega
      · omega
    have hmod : (x + v) % (2 * u) = x + v - 2 ^ 23 * (2 * u) := by
      have := Nat.div_add_mod (x + v) (2 * u)
      rw [hdiv] at this
      omega
    unfold round_half_even
    rw [hdiv, hmod]
    have : ¬ (2 * (x + v - 2 ^ 23 * (2 * u)) > 2 * u ∨
        (2 * (x + v - 2 ^ 23 * (2 * u)) = 2 * u ∧ 2 ^ 23 % 2 = 1)) := by
      have h23 : (2 : Nat) ^ 23 % 2 = 0 := by decide
      omega
    rw [if_neg this]
  · exact f32_round_le_two_pow _ 1 P (by decide) (by omega)

theorem foldl_f32_add_le (P : Nat) (hP : 24 ≤ P) (l : List Nat) (acc : Nat)
    (hacc : acc ≤ 2 ^ P) (hl : ∀ v ∈ l, v ≤ 2 ^ (P - 24)) : l.foldl f32_add acc ≤ 2 ^ P := by
  induction l generalizing acc with
  | nil => exact hacc
  | cons v l ih =>
    rw [List.foldl_cons]
    exact ih _ (f32_add_saturates P acc v hP hacc (hl v (List.mem_cons_self _ _)))
      (fun w hw => hl w (List.mem_cons_of_mem _ hw))


theorem f32_add_pos (x y : Nat) (h : 0 < x ∨ 0 < y) : 0 < f32_add x y := by
  unfold f32_add
  exact f32_round_pos _ 1 (by decide) (by omega)

theorem vote_weight_pos (d : Nat) (hd : d ≤ F32_MAX) : 0 < vote_weight d := by
  unfold vote_weight f32_div
  have hpos : 0 < f32_add F32_ONE d := f32_add_pos _ _ (Or.inl (by decide))
  have hle : f32_add F32_ONE d ≤ 2 * (F32_ONE + d) := f32_round_le_twice _
  have hmax : 2 * (F32_ONE + F32_MAX) ≤ F32_ONE * 2 ^ 149 := by decide
  exact f32_round_pos _ _ hpos (by omega)

theorem foldl_f32_add_pos (l : List Nat) (acc : Nat) (hl : ∀ v ∈ l, 0 < v)
    (h : 0 < acc ∨ l ≠ []) : 0 < l.foldl f32_add acc := by
  induction l generalizing acc with
  | nil =>
    rcases h with h | h
    · exact h
    · exact absurd rfl h
  | cons v l ih =>
    rw [List.foldl_cons]
    exact ih _ (fun w hw => hl w (List.mem_cons_of_mem _ hw))
      (Or.inl (f32_add_pos _ _ (Or.inr (hl v (List.mem_cons_self _ _)))))

/-- The units of a stored `float` have the value that `float_of_bits` reads from
its bit pattern. -/
theorem f32_to_rat_of_bits (bits : Nat) (h : bits < 2147483648) :
    f32_to_rat (f32_of_bits bits) = float_of_bits bits := by
  unfold f32_to_rat f32_of_bits float_of_bits
  have hsign : bits / 2147483648 = 0 := Nat.div_eq_of_lt h
  simp only [hsign, Nat.zero_mod, OfNat.zero_ne_ofNat, if_false]
  by_cases he : bits / 8388608 % 256 = 0
  · simp only [he, if_true]
    norm_num
    ring
  · simp only [he, if_false]
    obtain ⟨e, hee⟩ : ∃ e, bits / 8388608 % 256 = e + 1 :=
      ⟨bits / 8388608 % 256 - 1, by omega⟩
    rw [hee, Nat.add_sub_cancel]
    push_cast
    rw [pow_succ]
    norm_num
    ring

/-- The bit patterns of the `float` values of the examples: `0.2f` is `0x3E4CCCCD`,
`0.5f` is `0x3F000000`, `0.25f` is `0x3E800000`, `5e-9f` is `0x31ABCC77`, `1.0f`
is `0x3F800000`, `9.0f` is `0x41100000` and `2^30` is `0x4E800000`. -/
theorem f32_of_bits_demo :
    f32_of_bits 1045220557 = f32_of_ratio 1 5 ∧
    f32_of_bits 1056964608 = f32_of_ratio 1 2 ∧
    f32_of_bits 1048576000 = f32_of_ratio 1 4 ∧
    f32_of_bits 833342583 = f32_of_ratio 5 1000000000 ∧
    f32_of_bits 1065353216 = F32_ONE ∧
    f32_of_bits 1091567616 = 9 * F32_ONE ∧
    f32_of_bits 1317011456 = 2 ^ 30 * F32_ONE := by decide!

theorem f32_to_rat_le (a b : Nat) : f32_to_rat a ≤ f32_to_rat b ↔ a ≤ b := by
  unfold f32_to_rat
  rw [div_le_div_iff_of_pos_right (by positivity)]
  exact Nat.cast_le

theorem f32_to_rat_lt (a b : Nat) : f32_to_rat a < f32_to_rat b ↔ a < b := by
  unfold f32_to_rat
  rw [div_lt_div_iff_of_pos_right (by positivity)]
  exact Nat.cast_lt

theorem getD_map_f32_to_rat (l : List Nat) (j : Nat) :
    (l.map f32_to_rat).getD j 0 = f32_to_rat (l.getD j 0) := by
  by_cases h : j < l.length
  · simp [List.getD_eq_getElem?_getD, h]
  · simp [List.getD_eq_getElem?_getD, List.getElem?_eq_none (not_lt.mp h), f32_to_rat]

theorem getD_set_self_nat (l : List Nat) (i v : Nat) (h : i < l.length) :
    (l.set i v).getD i 0 = v := by
  simp [List.getD_eq_getElem?_getD, List.getElem?_set, h]

theorem getD_set_other_nat (l : List Nat) (i j v : Nat) (h : i ≠ j) :
    (l.set i v).getD j 0 = l.getD j 0 := by
  simp [List.getD_eq_getElem?_getD, List.getElem?_set, h]

theorem getD_replicate_zero_nat (n j : Nat) : (List.replicate n (0 : Nat)).getD j 0 = 0 := by
  by_cases h : j < n
  · simp [List.getD_eq_getElem?_getD, List.getElem?_replicate, h]
  · simp [List.getD_eq_getElem?_getD, List.getElem?_replicate, h]

/-! ### Mode 1 in single precision -/

theorem vote_f32_spec (mem : MemoryTable) (result : List (Nat × Nat)) (s s' : List Nat)
    (h : vote_f32 mem result s = some s') :
    s'.length = s.length ∧
    ∀ o, s'.getD o 0 =
      ((result.filter (fun p => decide (mem p.2 = some o))).map
        (fun p => vote_weight p.1)).foldl f32_add (s.getD o 0) := by
  induction result generalizing s with
  | nil =>
    simp only [vote_f32, Option.some.injEq] at h
    subst h
    simp
  | cons p result ih =>
    obtain ⟨d, m⟩ := p
    unfold vote_f32 at h
    split at h
    · rename_i outcome_id hm
      split at h
      · rename_i hlt
        obtain ⟨hlen, hval⟩ := ih _ h
        refine ⟨by simpa using hlen, fun o => ?_⟩
        rw [hval o]
        by_cases ho : outcome_id = o
        · subst ho
          rw [getD_set_self_nat _ _ _ hlt]
          simp [List.filter_cons, hm, vote_weight]
        · rw [getD_set_other_nat _ _ _ _ ho]
          simp [List.filter_cons, hm, ho]
      · simp at h
    · rename_i hm
      obtain ⟨hlen, hval⟩ := ih _ h
      refine ⟨hlen, fun o => ?_⟩
      rw [hval o]
      simp [List.filter_cons, hm]

theorem vote_f32_some (mem : MemoryTable) (result : List (Nat × Nat)) (s : List Nat)
    (hin : ∀ p ∈ result, ∀ o, mem p.2 = some o → o < s.length) :
    ∃ s', vote_f32 mem result s = some s' := by
  induction result generalizing s with
  | nil => exact ⟨s, rfl⟩
  | cons p result ih =>
    obtain ⟨d, m⟩ := p
    unfold vote_f32
    split
    · rename_i outcome_id hm
      have hlt : outcome_id < s.length := hin (d, m) (List.mem_cons_self _ _) _ hm
      rw [if_pos hlt]
      apply ih
      intro q hq o ho
      rw [List.length_set]
      exact hin q (List.mem_cons_of_mem _ hq) o ho
    · exact ih s (fun q hq o ho => hin q (List.mem_cons_of_mem _ hq) o ho)

theorem vote_total_f32_pos (mem : MemoryTable) (o : Nat) (result : List (Nat × Nat))
    (hd : ∀ p ∈ result, p.1 ≤ F32_MAX) (p : Nat × Nat) (hp : p ∈ result)
    (hm : mem p.2 = some o) : 0 < vote_total_f32 mem o result := by
  unfold vote_total_f32
  apply foldl_f32_add_pos
  · intro v hv
    obtain ⟨q, hq, rfl⟩ := List.mem_map.mp hv
    exact vote_weight_pos _ (hd q (List.mem_of_mem_filter hq))
  · right
    intro hnil
    have hmem : p ∈ result.filter (fun p => decide (mem p.2 = some o)) :=
      List.mem_filter.mpr ⟨hp, by simpa using hm⟩
    have hmem2 := List.mem_map_of_mem (fun p : Nat × Nat => vote_weight p.1) hmem
    rw [hnil] at hmem2
    simp at hmem2

theorem vote_total_f32_eq_zero (mem : MemoryTable) (o : Nat) (result : List (Nat × Nat))
    (h : ∀ p ∈ result, mem p.2 ≠ some o) : vote_total_f32 mem o result = 0 := by
  unfold vote_total_f32
  have : result.filter (fun p => decide (mem p.2 = some o)) = [] := by
    rw [List.filter_eq_nil_iff]
    intro p hp
    simpa using h p hp
  rw [this]
  rfl

theorem f32_add_one_ge (d : Nat) : F32_ONE ≤ f32_add F32_ONE d := by
  unfold f32_add F32_ONE
  exact two_pow_le_f32_round _ 1 149 (by decide) (by omega)

theorem vote_weight_le_one (d : Nat) : vote_weight d ≤ F32_ONE := by
  have h1 := f32_add_one_ge d
  unfold vote_weight f32_div
  have hpos : 0 < f32_add F32_ONE d := lt_of_lt_of_le (by decide) h1
  have := f32_round_le_two_pow (F32_ONE * 2 ^ 149) (f32_add F32_ONE d) 149 hpos
    (by
      unfold F32_ONE at h1 ⊢
      exact Nat.mul_le_mul_left _ h1)
  unfold F32_ONE
  exact this

theorem f32_add_one_finite (d : Nat) (hd : d ≤ F32_MAX) : f32_add F32_ONE d ≤ F32_MAX := by
  unfold f32_add
  rcases Nat.lt_or_ge (F32_ONE + d) (2 ^ 276) with hlt | hge
  · have h1 := f32_round_le_two_pow (F32_ONE + d) 1 276 (by decide)
      (by rw [Nat.mul_one]; exact le_of_lt hlt)
    have h2 : 2 ^ 276 ≤ F32_MAX := by decide!
    exact le_trans h1 h2
  · unfold f32_round
    rw [Nat.div_one, Nat.one_mul]
    have hub : F32_ONE + d < 2 ^ 277 :=
      lt_of_le_of_lt (Nat.add_le_add_left hd _) (by decide!)
    have hlog : ilog2 (F32_ONE + d) = 276 := by
      have h1 := le_ilog2 _ 276 hge
      have h3 := ilog2_lt _ 277 hub (by decide)
      omega
    rw [hlog]
    have hw : (2 : Nat) ^ (276 - 23) * 2 ^ 24 = 2 ^ 277 := by decide!
    have hmax : F32_MAX = (2 ^ 24 - 1) * 2 ^ (276 - 23) := by decide
    have hone : 2 * F32_ONE < 2 ^ (276 - 23) := by decide
    rw [← hw] at hub
    generalize (2 : Nat) ^ (276 - 23) = w at hub hmax hone
    have hm : (F32_ONE + d) / w < 2 ^ 24 := Nat.div_lt_of_lt_mul hub
    have hr : round_half_even (F32_ONE + d) w ≤ 2 ^ 24 - 1 := by
      rcases Nat.lt_or_ge ((F32_ONE + d) / w) (2 ^ 24 - 1) with h | h
      · have := round_half_even_le (F32_ONE + d) w
        omega
      · have hm2 : (F32_ONE + d) / w = 2 ^ 24 - 1 := by omega
        have hdm := Nat.div_add_mod (F32_ONE + d) w
        rw [hm2] at hdm
        unfold round_half_even
        rw [hm2]
        have hmod : (F32_ONE + d) % w ≤ F32_ONE := by
          rw [hmax] at hd
          have : w * (2 ^ 24 - 1) = (2 ^ 24 - 1) * w := Nat.mul_comm _ _
          omega
        have : ¬ (2 * ((F32_ONE + d) % w) > w ∨
            (2 * ((F32_ONE + d) % w) = w ∧ (2 ^ 24 - 1) % 2 = 1)) := by
          omega
        rw [if_neg this]
    rw [hmax]
    exact Nat.mul_le_mul_right _ hr

theorem vote_total_f32_le (mem : MemoryTable) (o : Nat) (result : List (Nat × Nat)) :
    vote_total_f32 mem o result ≤ 2 ^ 24 * F32_ONE := by
  unfold vote_total_f32
  have h173 : 2 ^ 24 * F32_ONE = 2 ^ 173 := by decide
  rw [h173]
  apply foldl_f32_add_le 173 (by decide) _ 0 (by positivity)
  intro v hv
  obtain ⟨q, _, rfl⟩ := List.mem_map.mp hv
  have := vote_weight_le_one q.1
  unfold F32_ONE at this
  exact this


theorem retrieve_f32_argmax (size : Nat) (mem : MemoryTable) (result : List (Nat × Nat))
    (hd : ∀ p ∈ result, p.1 ≤ F32_MAX)
    (hin : ∀ p ∈ result, ∀ o, mem p.2 = some o → o < size)
    (hex : ∃ p ∈ result, mem p.2 ≠ none) :
    ∃ best, retrieve_f32 size mem result = some (Prediction.token best) ∧ best < size ∧
      (∀ o, vote_total_f32 mem o result ≤ vote_total_f32 mem best result) ∧
      ∀ o, vote_total_f32 mem o result = vote_total_f32 mem best result → best ≤ o := by
  obtain ⟨s, hs⟩ := vote_f32_some mem result (List.replicate size 0)
    (by simpa using hin)
  obtain ⟨hlen, hval⟩ := vote_f32_spec mem result _ s hs
  have hlen' : s.length = size := by simpa using hlen
  have hval' : ∀ o, s.getD o 0 = vote_total_f32 mem o result := by
    intro o
    rw [hval o, getD_replicate_zero_nat]
    rfl
  obtain ⟨p, hp, hpm⟩ := hex
  obtain ⟨o, ho⟩ := Option.ne_none_iff_exists'.mp hpm
  have hosize : o < size := hin p hp o ho
  have hopos : 0 < (s.map f32_to_rat).getD o 0 := by
    rw [getD_map_f32_to_rat, hval' o]
    have := (f32_to_rat_lt 0 _).mpr (vote_total_f32_pos mem o result hd p hp ho)
    simpa [f32_to_rat] using this
  obtain ⟨best, hbest, hblt, hmax, hfirst⟩ :=
    select_best_token (s.map f32_to_rat) o (by simpa using (by omega : o < s.length)) hopos
  have hblt' : best < size := by simpa [hlen'] using hblt
  have hall : ∀ o', vote_total_f32 mem o' result ≤ vote_total_f32 mem best result := by
    intro o'
    by_cases ho' : o' < size
    · have := hmax o' (by simpa [hlen'] using ho')
      rw [getD_map_f32_to_rat, getD_map_f32_to_rat, f32_to_rat_le, hval' o', hval' best] at this
      exact this
    · have h0 : vote_total_f32 mem o' result = 0 := by
        apply vote_total_f32_eq_zero
        intro q hq hqo
        exact ho' (hin q hq o' hqo)
      rw [h0]
      exact Nat.zero_le _
  refine ⟨best, ?_, hblt', hall, ?_⟩
  · unfold retrieve_f32
    rw [hs]
    simp [hbest]
  · intro o' heq
    by_contra hlt
    have := hfirst o' (by omega)
    rw [getD_map_f32_to_rat, getD_map_f32_to_rat, f32_to_rat_lt, hval' o', hval' best] at this
    omega

theorem retrieve_f32_sentinel_iff (size : Nat) (mem : MemoryTable)
    (result : List (Nat × Nat)) (hd : ∀ p ∈ result, p.1 ≤ F32_MAX) :
    retrieve_f32 size mem result = some Prediction.NO_MEMORY_MATCH ↔
      ∀ p ∈ result, mem p.2 = none := by
  constructor
  · intro h p hp
    unfold retrieve_f32 at h
    cases hv : vote_f32 mem result (List.replicate size 0) with
    | none => simp [hv] at h
    | some s =>
      rw [hv] at h
      simp only [Option.map_some', Option.some.injEq] at h
      obtain ⟨_, hval⟩ := vote_f32_spec mem result _ s hv
      have hall := (select_best_sentinel_iff _).mp h
      cases hm : mem p.2 with
      | none => rfl
      | some o =>
        exfalso
        have hpos := vote_total_f32_pos mem o result hd p hp hm
        have hso : s.getD o 0 = vote_total_f32 mem o result := by
          rw [hval o, getD_replicate_zero_nat]
          rfl
        by_cases ho : o < s.length
        · have h1 := hall o (by simpa using ho)
          rw [getD_map_f32_to_rat, hso] at h1
          have h2 := (f32_to_rat_le _ 0).mp (by simpa [f32_to_rat] using h1)
          omega
        · have h1 : s.getD o 0 = 0 := by
            simp [List.getD_eq_getElem?_getD, List.getElem?_eq_none (not_lt.mp ho)]
          omega
  · intro h
    have hin : ∀ p ∈ result, ∀ o, mem p.2 = some o →
        o < (List.replicate size (0 : Nat)).length := by
      intro p hp o ho
      rw [h p hp] at ho
      cases ho
    obtain ⟨s, hs⟩ := vote_f32_some mem result _ hin
    obtain ⟨_, hval⟩ := vote_f32_spec mem result _ s hs
    unfold retrieve_f32
    rw [hs]
    simp only [Option.map_some', Option.some.injEq]
    apply (select_best_sentinel_iff _).mpr
    intro j _
    rw [getD_map_f32_to_rat, hval j, getD_replicate_zero_nat]
    have h0 : vote_total_f32 mem j result = 0 :=
      vote_total_f32_eq_zero mem j result (fun p hp => by rw [h p hp]; simp)
    unfold vote_total_f32 at h0
    rw [h0]
    simp [f32_to_rat]

theorem vote_f32_demo :
    vote_f32 demo_votes_mem demo_votes_result (List.replicate 103 0) =
      some ([0, F32_ONE, 8388609 * 2 ^ 126] ++ List.replicate 100 0) := by decide!

theorem vote_f32_demo_far :
    vote_f32 demo_votes_mem demo_votes_far (List.replicate 103 0) =
      some ([0, F32_ONE, 8388609 * 2 ^ 126] ++ List.replicate 100 0) := by decide!

theorem argmax_loop_append (l l' : List ℚ) (i : Nat) (st : Nat × ℚ) :
    argmax_loop (l ++ l') i st = argmax_loop l' (i + l.length) (argmax_loop l i st) := by
  induction l generalizing i st with
  | nil => rfl
  | cons x l ih =>
    rw [List.cons_append, argmax_loop, argmax_loop, List.length_cons]
    split
    · rw [ih]
      congr 1
      omega
    · rw [ih]
      congr 1
      omega

theorem argmax_loop_replicate_zero (n i : Nat) (st : Nat × ℚ) (h : 0 ≤ st.2) :
    argmax_loop (List.replicate n 0) i st = st := by
  induction n generalizing i with
  | zero => rfl
  | succ n ih =>
    rw [List.replicate_succ, argmax_loop, if_neg (not_lt.mpr h)]
    exact ih (i + 1)

theorem select_best_demo :
    select_best (([0, F32_ONE, 8388609 * 2 ^ 126] ++ List.replicate 100 0).map f32_to_rat) =
      Prediction.token 2 := by
  have h0 : f32_to_rat 0 = 0 := by norm_num [f32_to_rat]
  have hst : argmax_loop [0, f32_to_rat F32_ONE, f32_to_rat (8388609 * 2 ^ 126)] 0 (0, -1) =
      (2, f32_to_rat (8388609 * 2 ^ 126)) := by
    norm_num [argmax_loop, f32_to_rat, F32_ONE]
  unfold select_best
  rw [List.map_append, List.map_replicate, h0, argmax_loop_append]
  simp only [List.map_cons, List.map_nil, h0, hst]
  rw [argmax_loop_replicate_zero _ _ _ (by norm_num [f32_to_rat])]
  norm_num [f32_to_rat]

theorem vote_total_f32_demo :
    vote_total_f32 demo_votes_mem 1 demo_votes_result = F32_ONE ∧
    vote_total_f32 demo_votes_mem 2 demo_votes_result = 8388609 * 2 ^ 126 := by decide!

theorem retrieve_f32_demo :
    retrieve_f32 103 demo_votes_mem demo_votes_result = some (Prediction.token 2) := by
  unfold retrieve_f32
  rw [vote_f32_demo, Option.map_some', select_best_demo]

theorem retrieve_f32_demo_far :
    retrieve_f32 103 demo_votes_mem demo_votes_far = some (Prediction.token 2) := by
  unfold retrieve_f32
  rw [vote_f32_demo_far, Option.map_some', select_best_demo]

/-- C3 as stated fails on the code.  Ten neighbours at the distance 9 whose
records map to the id 2 and one neighbour at the distance 0 whose record maps to
the id 1, with score vectors of 103 entries: the exact sums of `1 / (1 + d)` are
1 for both ids (and 0 for the id 0), so the claim names the lower id 1, but ten
`float` additions of `0.1f` give `8388609 * 2^-23`, about `1.0000001`, above
the `1.0f` of the id 1, and the id 2 is returned.  With one more neighbour of the
id 1, at the distance `2^30`, the id 2 is still returned although its exact sum
is the smaller one. -/
theorem float_votes_beat_exact_votes :
    retrieve_f32 103 demo_votes_mem demo_votes_result = some (Prediction.token 2) ∧
    vote_total_f32 demo_votes_mem 1 demo_votes_result = F32_ONE ∧
    vote_total_f32 demo_votes_mem 2 demo_votes_result = 8388609 * 2 ^ 126 ∧
    vote_total demo_votes_mem 0 (exact_neighbours demo_votes_result) = 0 ∧
    vote_total demo_votes_mem 1 (exact_neighbours demo_votes_result) = 1 ∧
    vote_total demo_votes_mem 2 (exact_neighbours demo_votes_result) = 1 ∧
    retrieve_f32 103 demo_votes_mem demo_votes_far = some (Prediction.token 2) ∧
    vote_total demo_votes_mem 2 (exact_neighbours demo_votes_far) <
      vote_total demo_votes_mem 1 (exact_neighbours demo_votes_far) := by
  refine ⟨retrieve_f32_demo, vote_total_f32_demo.1, vote_total_f32_demo.2, ?_, ?_, ?_,
    retrieve_f32_demo_far, ?_⟩
  · norm_num [vote_total, exact_neighbours, demo_votes_result, demo_votes_mem, f32_to_rat,
      F32_ONE]
  · norm_num [vote_total, exact_neighbours, demo_votes_result, demo_votes_mem, f32_to_rat,
      F32_ONE]
  · norm_num [vote_total, exact_neighbours, demo_votes_result, demo_votes_mem, f32_to_rat,
      F32_ONE]
  · norm_num [vote_total, exact_neighbours, demo_votes_far, demo_votes_result, demo_votes_mem,
      f32_to_rat, F32_ONE]

/-- C3 as amended: in mode 1 with `float` scores, for neighbours with finite
distances, memory records whose outcome ids lie inside the score vector and at
least one neighbour with a record, the token returned is that of the id `best`
with the largest accumulated `float` score, where the score of an id is the
`float` sum, from `0.0f` and in the order in which the neighbours are popped, of
the votes `1.0f / (1.0f + d)` of the neighbours whose record maps to it; the
lowest such id when several ids reach the maximum.  In particular, when the only
memory record belongs to a neighbour at distance 0, its outcome is returned.  The
third part states that the entry of `memory_scores` for an id is this sum, the
fourth that no operation leaves the finite range: `1.0f + d` is at most
`FLT_MAX`, a vote at most `1.0f`, a score at most `2^24`. -/
theorem retrieval_returns_best_float_vote :
    (∀ (size : Nat) (mem : MemoryTable) (result : List (Nat × Nat)),
      (∀ p ∈ result, p.1 ≤ F32_MAX) →
      (∀ p ∈ result, ∀ o, mem p.2 = some o → o < size) →
      (∃ p ∈ result, mem p.2 ≠ none) →
      ∃ best, retrieve_f32 size mem result = some (Prediction.token best) ∧ best < size ∧
        (∀ o, vote_total_f32 mem o result ≤ vote_total_f32 mem best result) ∧
        ∀ o, vote_total_f32 mem o result = vote_total_f32 mem best result → best ≤ o) ∧
    (∀ (size : Nat) (mem : MemoryTable) (result : List (Nat × Nat)) (m o : Nat),
      (∀ p ∈ result, p.1 ≤ F32_MAX) → mem m = some o → (∀ m', m' ≠ m → mem m' = none) →
      o < size → (0, m) ∈ result →
      retrieve_f32 size mem result = some (Prediction.token o)) ∧
    (∀ (size : Nat) (mem : MemoryTable) (result : List (Nat × Nat))
        (memory_scores : List Nat),
      vote_f32 mem result (List.replicate size 0) = some memory_scores →
      ∀ o, memory_scores.getD o 0 = vote_total_f32 mem o result ∧
        vote_total_f32 mem o result =
          ((result.filter (fun p => decide (mem p.2 = some o))).map
            (fun p => f32_div F32_ONE (f32_add F32_ONE p.1))).foldl f32_add 0) ∧
    (∀ (mem : MemoryTable) (result : List (Nat × Nat)),
      (∀ p ∈ result, p.1 ≤ F32_MAX) →
      (∀ p ∈ result, f32_add F32_ONE p.1 ≤ F32_MAX ∧
        f32_div F32_ONE (f32_add F32_ONE p.1) ≤ F32_ONE) ∧
      ∀ o, vote_total_f32 mem o result ≤ 2 ^ 24 * F32_ONE) := by
  refine ⟨retrieve_f32_argmax, ?_, ?_, ?_⟩
  rotate_left
  · intro size mem result memory_scores h o
    refine ⟨?_, rfl⟩
    rw [(vote_f32_spec mem result _ memory_scores h).2 o, getD_replicate_zero_nat]
    rfl
  · intro mem result hd
    exact ⟨fun p hp => ⟨f32_add_one_finite p.1 (hd p hp), vote_weight_le_one p.1⟩,
      fun o => vote_total_f32_le mem o result⟩
  intro size mem result m o hd hm hothers ho hmem
  have hin : ∀ p ∈ result, ∀ o', mem p.2 = some o' → o' < size := by
    intro p _ o' hp
    by_cases hpm : p.2 = m
    · rw [hpm, hm] at hp
      cases hp
      exact ho
    · rw [hothers _ hpm] at hp
      cases hp
  obtain ⟨best, hbest, _, hmax, _⟩ :=
    retrieve_f32_argmax size mem result hd hin ⟨(0, m), hmem, by simp [hm]⟩
  have hpos : 0 < vote_total_f32 mem o result :=
    vote_total_f32_pos mem o result hd (0, m) hmem hm
  have hbo : best = o := by
    by_contra hne
    have h0 : vote_total_f32 mem best result = 0 := by
      apply vote_total_f32_eq_zero
      intro p _ hp
      by_cases hpm : p.2 = m
      · rw [hpm, hm] at hp
        cases hp
        exact hne rfl
      · rw [hothers _ hpm] at hp
        cases hp
    have := hmax o
    omega
  rw [hbest, hbo]

/-- Witness of C3 as amended, on the ten neighbours at distance 9 of the id 2 and
the neighbour at distance 0 of the id 1, with score vectors of 103 entries: the
id 2 is returned, and it is the lowest id of largest `float` score. -/
theorem retrieval_returns_best_float_vote_witness :
    retrieve_f32 103 demo_votes_mem demo_votes_result = some (Prediction.token 2) ∧
    ∃ best, retrieve_f32 103 demo_votes_mem demo_votes_result = some (Prediction.token best) ∧
      best < 103 ∧
      (∀ o, vote_total_f32 demo_votes_mem o demo_votes_result ≤
        vote_total_f32 demo_votes_mem best demo_votes_result) ∧
      ∀ o, vote_total_f32 demo_votes_mem o demo_votes_result =
        vote_total_f32 demo_votes_mem best demo_votes_result → best ≤ o := by
  refine ⟨retrieve_f32_demo,
    retrieval_returns_best_float_vote.1 103 demo_votes_mem demo_votes_result ?_ ?_ ?_⟩
  · intro p hp
    simp only [demo_votes_result, List.mem_cons, List.mem_singleton, List.not_mem_nil,
      or_false] at hp
    rcases hp with h | h | h | h | h | h | h | h | h | h | h <;> subst h <;> decide
  · intro p hp o
    simp only [demo_votes_result, List.mem_cons, List.mem_singleton, List.not_mem_nil,
      or_false] at hp
    rcases hp with h | h | h | h | h | h | h | h | h | h | h <;> subst h <;>
      simp [demo_votes_mem] <;> omega
  · exact ⟨(0, 10), by simp [demo_votes_result], by simp [demo_votes_mem]⟩

/-! ### Mode 2 in single precision: the fusion of the scores -/

theorem add_entries_f32_spec (f : Nat → Nat) (entries : List ProbEntry32) (s s' : List Nat)
    (h : add_entries_f32 f entries s = some s') :
    s'.length = s.length ∧
    ∀ t, s'.getD t 0 =
      (((entries.filter (fun e => decide (e.token_id = t))).map
        ProbEntry32.probability).map f).foldl f32_add (s.getD t 0) := by
  induction entries generalizing s with
  | nil =>
    simp only [add_entries_f32, Option.some.injEq] at h
    subst h
    simp
  | cons e entries ih =>
    unfold add_entries_f32 at h
    split at h
    · rename_i hlt
      obtain ⟨hlen, hval⟩ := ih _ h
      refine ⟨by simpa using hlen, fun t => ?_⟩
      rw [hval t]
      by_cases het : e.token_id = t
      · subst het
        rw [getD_set_self_nat _ _ _ hlt]
        simp [List.filter_cons]
      · rw [getD_set_other_nat _ _ _ _ het]
        simp [List.filter_cons, het]
    · simp at h

theorem add_entries_f32_some (f : Nat → Nat) (entries : List ProbEntry32) (s : List Nat)
    (hin : ∀ e ∈ entries, e.token_id < s.length) :
    ∃ s', add_entries_f32 f entries s = some s' := by
  induction entries generalizing s with
  | nil => exact ⟨s, rfl⟩
  | cons e entries ih =>
    unfold add_entries_f32
    rw [if_pos (hin e (List.mem_cons_self _ _))]
    apply ih
    intro e' he'
    rw [List.length_set]
    exact hin e' (List.mem_cons_of_mem _ he')

theorem seed_scores_f32_spec (p_next : Table32) (last : Nat) (s : List Nat)
    (hin : ∀ dist, p_next last = some dist → ∀ e ∈ dist, e.token_id < s.length) :
    ∃ s', seed_scores_f32 p_next last s = some s' ∧ s'.length = s.length ∧
      ∀ t, s'.getD t 0 = (entries_of p_next last t).foldl f32_add (s.getD t 0) := by
  unfold seed_scores_f32 entries_of
  cases hp : p_next last with
  | none => exact ⟨s, rfl, rfl, fun t => rfl⟩
  | some dist =>
    obtain ⟨s', hs'⟩ := add_entries_f32_some (fun p => p) dist s (hin dist hp)
    obtain ⟨hlen, hval⟩ := add_entries_f32_spec _ dist _ s' hs'
    refine ⟨s', hs', hlen, fun t => ?_⟩
    rw [hval t, List.map_id']

theorem attention_step_f32_spec (p_next p_prev : Table32) (last prev : Nat) (s : List Nat)
    (hin : ∀ dist, p_next prev = some dist → ∀ e ∈ dist, e.token_id < s.length) :
    ∃ s', attention_step_f32 p_next p_prev last s prev = some s' ∧ s'.length = s.length ∧
      ∀ t, s'.getD t 0 =
        (bridge_terms_f32 p_next p_prev last t prev).foldl f32_add (s.getD t 0) := by
  unfold attention_step_f32 bridge_terms_f32 bridge_f32 prob_f32 entries_of
  cases hp : p_next prev with
  | none =>
    dsimp only
    by_cases hb : f32_mul 0
        (match p_prev last with
          | some dist => get_prob_f32 dist prev
          | none => 0) < EPS_F64
    · simp only [if_pos hb]
      exact ⟨s, rfl, rfl, fun t => rfl⟩
    · simp only [if_neg hb]
      exact ⟨s, rfl, rfl, fun t => rfl⟩
  | some dist =>
    dsimp only
    by_cases hb : f32_mul (get_prob_f32 dist last)
        (match p_prev last with
          | some dist => get_prob_f32 dist prev
          | none => 0) < EPS_F64
    · simp only [if_pos hb]
      exact ⟨s, rfl, rfl, fun t => rfl⟩
    · simp only [if_neg hb]
      obtain ⟨s', hs'⟩ := add_entries_f32_some
        (fun p => f32_mul (f32_mul ATTENTION_MULTIPLIER_F32
          (f32_mul (get_prob_f32 dist last)
            (match p_prev last with
              | some dist => get_prob_f32 dist prev
              | none => 0))) p) dist s (hin dist hp)
      obtain ⟨hlen, hval⟩ := add_entries_f32_spec _ dist _ s' hs'
      exact ⟨s', hs', hlen, fun t => hval t⟩

theorem attention_loop_f32_spec (p_next p_prev : Table32) (last : Nat) (prevs : List Nat)
    (s : List Nat)
    (hin : ∀ k ∈ prevs, ∀ dist, p_next k = some dist → ∀ e ∈ dist, e.token_id < s.length) :
    ∃ s', attention_loop_f32 p_next p_prev last prevs s = some s' ∧ s'.length = s.length ∧
      ∀ t, s'.getD t 0 =
        (prevs.map (bridge_terms_f32 p_next p_prev last t)).flatten.foldl f32_add
          (s.getD t 0) := by
  induction prevs generalizing s with
  | nil => exact ⟨s, rfl, rfl, fun t => rfl⟩
  | cons prev prevs ih =>
    obtain ⟨s1, hs1, hlen1, hval1⟩ := attention_step_f32_spec p_next p_prev last prev s
      (hin prev (List.mem_cons_self _ _))
    obtain ⟨s', hs', hlen', hval'⟩ := ih s1
      (fun k hk dist hd e he => by
        rw [hlen1]
        exact hin k (List.mem_cons_of_mem _ hk) dist hd e he)
    refine ⟨s', ?_, by rw [hlen', hlen1], fun t => ?_⟩
    · simp only [attention_loop_f32, hs1]
      exact hs'
    · simp only [hval' t, hval1 t, List.map_cons, List.flatten_cons, List.foldl_append]

theorem fuse_scores_f32_spec (p_next p_prev : Table32) (c : List Nat) (size : Nat)
    (hc : c ≠ [])
    (hin : ∀ k ∈ c, ∀ dist, p_next k = some dist → ∀ e ∈ dist, e.token_id < size) :
    ∃ s, fuse_scores_f32 p_next p_prev c size = some s ∧ s.length = size ∧
      ∀ t, s.getD t 0 = (fused_terms_f32 p_next p_prev c t).foldl f32_add 0 := by
  have hlast := getLastD_mem c hc
  obtain ⟨s0, hs0, hlen0, hval0⟩ := seed_scores_f32_spec p_next (c.getLastD 0)
    (List.replicate size 0) (by simpa using hin _ hlast)
  have hlen0' : s0.length = size := by simpa using hlen0
  obtain ⟨s1, hs1, hlen1, hval1⟩ := attention_loop_f32_spec p_next p_prev (c.getLastD 0)
    c.dropLast s0
    (fun k hk dist hd e he => by
      rw [hlen0']
      exact hin k (List.dropLast_subset c hk) dist hd e he)
  unfold fuse_scores_f32 fused_terms_f32
  simp only [hs0]
  by_cases hlen : c.length > 1
  · simp only [hlen, if_true]
    refine ⟨s1, hs1, by rw [hlen1, hlen0'], fun t => ?_⟩
    rw [hval1 t, hval0 t, getD_replicate_zero_nat, List.foldl_append]
  · simp only [hlen, if_false]
    refine ⟨s0, rfl, hlen0', fun t => ?_⟩
    have hdl : c.dropLast = [] := by
      cases c with
      | nil => rfl
      | cons a l =>
        cases l with
        | nil => rfl
        | cons b l => simp at hlen
    rw [hval0 t, hdl, getD_replicate_zero_nat]
    simp

theorem get_prob_f32_of_not_mem (dist : List ProbEntry32) (t : Nat)
    (h : t ∉ dist.map ProbEntry32.token_id) : get_prob_f32 dist t = 0 := by
  induction dist with
  | nil => rfl
  | cons e dist ih =>
    simp only [List.map_cons, List.mem_cons, not_or] at h
    unfold get_prob_f32
    rw [if_neg (fun heq => h.1 heq.symm)]
    exact ih h.2

theorem filter_of_not_mem (dist : List ProbEntry32) (t : Nat)
    (h : t ∉ dist.map ProbEntry32.token_id) :
    dist.filter (fun e => decide (e.token_id = t)) = [] := by
  rw [List.filter_eq_nil_iff]
  intro e he
  simp only [decide_eq_true_eq]
  intro heq
  exact h (List.mem_map.mpr ⟨e, he, heq⟩)

theorem filter_map_of_nodup (dist : List ProbEntry32) (t : Nat)
    (hnd : (dist.map ProbEntry32.token_id).Nodup) :
    (dist.filter (fun e => decide (e.token_id = t))).map ProbEntry32.probability =
      if t ∈ dist.map ProbEntry32.token_id then [get_prob_f32 dist t] else [] := by
  induction dist with
  | nil => simp
  | cons e dist ih =>
    simp only [List.map_cons, List.nodup_cons] at hnd
    by_cases het : e.token_id = t
    · subst het
      have hnot := hnd.1
      simp [List.filter_cons, get_prob_f32, filter_of_not_mem dist e.token_id hnot]
    · have ih1 := ih hnd.2
      have hne : ¬ (t = e.token_id) := fun h => het h.symm
      simp only [List.filter_cons, het, decide_False, Bool.false_eq_true, if_false,
        get_prob_f32, List.map_cons, List.mem_cons, hne, false_or]
      exact ih1

theorem entries_of_nodup (p : Table32) (k t : Nat) (dist : List ProbEntry32)
    (hp : p k = some dist) (hnd : (dist.map ProbEntry32.token_id).Nodup) :
    entries_of p k t =
      if t ∈ dist.map ProbEntry32.token_id then [prob_f32 p k t] else [] := by
  unfold entries_of prob_f32
  rw [hp]
  exact filter_map_of_nodup dist t hnd

theorem get_prob_f32_le (dist : List ProbEntry32) (x B : Nat)
    (h : ∀ e ∈ dist, e.probability ≤ B) : get_prob_f32 dist x ≤ B := by
  induction dist with
  | nil => exact Nat.zero_le _
  | cons e dist ih =>
    unfold get_prob_f32
    split
    · exact h e (List.mem_cons_self _ _)
    · exact ih (fun e' he' => h e' (List.mem_cons_of_mem _ he'))

theorem prob_f32_le_one (t : Table32) (k x : Nat) (h : probs_at_most_one t) :
    prob_f32 t k x ≤ F32_ONE := by
  unfold prob_f32
  cases hk : t k with
  | none => exact Nat.zero_le _
  | some dist => exact get_prob_f32_le dist x _ (h k dist hk)

theorem entries_of_le_one (t : Table32) (k x : Nat) (h : probs_at_most_one t) :
    ∀ v ∈ entries_of t k x, v ≤ F32_ONE := by
  unfold entries_of
  cases hk : t k with
  | none => simp
  | some dist =>
    intro v hv
    obtain ⟨e, he, rfl⟩ := List.mem_map.mp hv
    exact h k dist hk e (List.mem_of_mem_filter he)

theorem f32_mul_le_two_pow (x y a b : Nat) (hx : x ≤ 2 ^ a) (hy : y ≤ 2 ^ b)
    (hab : 149 ≤ a + b) : f32_mul x y ≤ 2 ^ (a + b - 149) := by
  unfold f32_mul
  apply f32_round_le_two_pow _ _ _ (by positivity)
  rw [← pow_add]
  have : a + b - 149 + 149 = a + b := by omega
  rw [this, pow_add]
  exact Nat.mul_le_mul hx hy

theorem bridge_f32_le_one (p_next p_prev : Table32) (last prev : Nat)
    (h1 : probs_at_most_one p_next) (h2 : probs_at_most_one p_prev) :
    bridge_f32 p_next p_prev last prev ≤ F32_ONE := by
  unfold bridge_f32
  have := f32_mul_le_two_pow _ _ 149 149
    (prob_f32_le_one p_next prev last h1) (prob_f32_le_one p_prev last prev h2) (by decide)
  exact this

theorem bridge_terms_f32_le (p_next p_prev : Table32) (last t prev : Nat)
    (h1 : probs_at_most_one p_next) (h2 : probs_at_most_one p_prev) :
    ∀ v ∈ bridge_terms_f32 p_next p_prev last t prev, v ≤ 2 ^ 14 * F32_ONE := by
  have h163 : 2 ^ 14 * F32_ONE = 2 ^ 163 := by decide
  rw [h163]
  unfold bridge_terms_f32
  split
  · simp
  · intro v hv
    obtain ⟨p, hp, rfl⟩ := List.mem_map.mp hv
    have hA : ATTENTION_MULTIPLIER_F32 ≤ 2 ^ 163 := by decide
    have hm := f32_mul_le_two_pow _ _ 163 149 hA
      (bridge_f32_le_one p_next p_prev last prev h1 h2) (by decide)
    exact f32_mul_le_two_pow _ _ 163 149 hm (entries_of_le_one p_next prev t h1 p hp)
      (by decide)

theorem fused_terms_f32_le (p_next p_prev : Table32) (c : List Nat) (t : Nat)
    (h1 : probs_at_most_one p_next) (h2 : probs_at_most_one p_prev) :
    ∀ v ∈ fused_terms_f32 p_next p_prev c t, v ≤ 2 ^ 14 * F32_ONE := by
  intro v hv
  unfold fused_terms_f32 at hv
  rcases List.mem_append.mp hv with h | h
  · have := entries_of_le_one p_next _ t h1 v h
    have h14 : F32_ONE ≤ 2 ^ 14 * F32_ONE := Nat.le_mul_of_pos_left _ (by positivity)
    omega
  · obtain ⟨l, hl, hvl⟩ := List.mem_flatten.mp h
    obtain ⟨prev, _, rfl⟩ := List.mem_map.mp hl
    exact bridge_terms_f32_le p_next p_prev _ t prev h1 h2 v hvl

theorem fused_sum_le (p_next p_prev : Table32) (c : List Nat) (t : Nat)
    (h1 : probs_at_most_one p_next) (h2 : probs_at_most_one p_prev) :
    (fused_terms_f32 p_next p_prev c t).foldl f32_add 0 ≤ 2 ^ 38 * F32_ONE := by
  have h187 : 2 ^ 38 * F32_ONE = 2 ^ 187 := by decide
  have h163 : 2 ^ 14 * F32_ONE = 2 ^ (187 - 24) := by decide
  rw [h187]
  apply foldl_f32_add_le 187 (by decide) _ 0 (by positivity)
  intro v hv
  rw [← h163]
  exact fused_terms_f32_le p_next p_prev c t h1 h2 v hv

theorem fuse_scores_f32_finite (p_next p_prev : Table32) (c : List Nat) (size : Nat)
    (s : List Nat) (hc : c ≠ [])
    (hin : ∀ k ∈ c, ∀ dist, p_next k = some dist → ∀ e ∈ dist, e.token_id < size)
    (h1 : probs_at_most_one p_next) (h2 : probs_at_most_one p_prev)
    (hs : fuse_scores_f32 p_next p_prev c size = some s) :
    (∀ prev, f32_mul (prob_f32 p_next prev (c.getLastD 0))
      (prob_f32 p_prev (c.getLastD 0) prev) ≤ F32_ONE) ∧
    ∀ t, s.getD t 0 ≤ 2 ^ 38 * F32_ONE := by
  refine ⟨fun prev => bridge_f32_le_one p_next p_prev (c.getLastD 0) prev h1 h2, fun t => ?_⟩
  obtain ⟨s', hs', _, hval⟩ := fuse_scores_f32_spec p_next p_prev c size hc hin
  rw [hs] at hs'
  cases hs'
  rw [hval t]
  exact fused_sum_le p_next p_prev c t h1 h2

theorem fuse_scores_f32_spelled (p_next p_prev : Table32) (c : List Nat) (size : Nat)
    (hc : c ≠ [])
    (hin : ∀ k ∈ c, ∀ dist, p_next k = some dist → ∀ e ∈ dist, e.token_id < size) :
    ∃ s, fuse_scores_f32 p_next p_prev c size = some s ∧ s.length = size ∧
      ∀ t, s.getD t 0 =
        (entries_of p_next (c.getLastD 0) t ++
          (c.dropLast.map (fun prev =>
            if f32_mul (prob_f32 p_next prev (c.getLastD 0))
                (prob_f32 p_prev (c.getLastD 0) prev) < EPS_F64 then []
            else
              (entries_of p_next prev t).map (fun p =>
                f32_mul
                  (f32_mul ATTENTION_MULTIPLIER_F32
                    (f32_mul (prob_f32 p_next prev (c.getLastD 0))
                      (prob_f32 p_prev (c.getLastD 0) prev))) p))).flatten).foldl
          f32_add 0 := by
  obtain ⟨s, hs, hlen, hval⟩ := fuse_scores_f32_spec p_next p_prev c size hc hin
  refine ⟨s, hs, hlen, fun t => ?_⟩
  rw [hval t]
  rfl

theorem f32_of_ratio_fifth : f32_of_ratio 1 5 = 13421773 * 2 ^ 123 := by decide!

theorem f32_of_ratio_half : f32_of_ratio 1 2 = 2 ^ 148 := by decide!

theorem f32_of_ratio_quarter : f32_of_ratio 1 4 = 2 ^ 147 := by decide!

theorem f32_of_ratio_five_billionths :
    f32_of_ratio 5 1000000000 = 11258999 * 2 ^ 98 := by decide!

theorem float_bridge_demo :
    bridge_f32 demo_p_next_f32 demo_p_prev_f32 1 0 = 9007199 * 2 ^ 96 ∧
    bridge_f32 demo_p_next_f32 demo_p_prev_f32 1 0 < EPS_F64 := by decide!

theorem fuse_scores_f32_demo :
    fuse_scores_f32 demo_p_next_f32 demo_p_prev_f32 [0, 1] 103 =
      some (List.replicate 103 0) := by decide!

theorem fuse_scores_f32_twice :
    fuse_scores_f32 demo_p_twice_f32 (fun _ => none) [0] 103 =
      some ([0, 3 * 2 ^ 147] ++ List.replicate 101 0) := by
  decide!

/-- C5 as stated fails on the code.  With the forward record `0 ↦ {1: 0.2f, 2: 0.5f}`,
the backward record `1 ↦ {0: 5e-9f}`, the context ids `[0, 1]` and score vectors
of 103 entries, the product of the two stored probabilities is
`1.0000000088e-9`, not below `1e-9`, so the claim gives the token 2 the positive
score `10000 * bridge * 0.5`; but the `float` product `attention_score` is
`9007199 * 2^-53`, about `9.99999972e-10` and below the `double` `1e-9`: the
position is skipped and every score stays `0.0f`.  And with the forward record
`0 ↦ {1: 0.5f, 1: 0.25f}` and the context ids `[0]` the score of the token 1
is `0.75f`, the sum of both entries, where `p_next(1 | 0)`, the first entry, is
`0.5`. -/
theorem float_bridge_skips_position :
    fuse_scores_f32 demo_p_next_f32 demo_p_prev_f32 [0, 1] 103 =
      some (List.replicate 103 0) ∧
    bridge_f32 demo_p_next_f32 demo_p_prev_f32 1 0 = 9007199 * 2 ^ 96 ∧
    bridge_f32 demo_p_next_f32 demo_p_prev_f32 1 0 < EPS_F64 ∧
    EPS ≤ bridge (exact_table demo_p_next_f32) (exact_table demo_p_prev_f32) 1 0 ∧
    0 < prob_of (exact_table demo_p_next_f32) 1 2 +
      ((([0, 1] : List Nat).dropLast).map
        (bridge_term (exact_table demo_p_next_f32) (exact_table demo_p_prev_f32) 1 2)).sum ∧
    fuse_scores_f32 demo_p_twice_f32 (fun _ => none) [0] 103 =
      some ([0, 3 * 2 ^ 147] ++ List.replicate 101 0) ∧
    f32_to_rat (3 * 2 ^ 147) = 3 / 4 ∧
    prob_of (exact_table demo_p_twice_f32) 0 1 +
      ((([0] : List Nat).dropLast).map
        (bridge_term (exact_table demo_p_twice_f32) (exact_table (fun _ => none)) 0 1)).sum
      = 1 / 2 := by
  refine ⟨fuse_scores_f32_demo, float_bridge_demo.1, float_bridge_demo.2, ?_, ?_,
    fuse_scores_f32_twice, ?_, ?_⟩
  · norm_num [bridge, prob_of, exact_table, demo_p_next_f32, demo_p_prev_f32, get_prob,
      f32_to_rat, EPS, f32_of_ratio_fifth, f32_of_ratio_half, f32_of_ratio_five_billionths]
  · norm_num [bridge_term, bridge, prob_of, exact_table, demo_p_next_f32, demo_p_prev_f32,
      get_prob, f32_to_rat, EPS, f32_of_ratio_fifth, f32_of_ratio_half,
      f32_of_ratio_five_billionths]
  · norm_num [f32_to_rat]
  · norm_num [prob_of, exact_table, demo_p_twice_f32, get_prob, f32_to_rat,
      f32_of_ratio_half, f32_of_ratio_quarter]

/-- C5 as amended: for a non-empty context `c` with last id `last` and a forward
table whose records at the context ids hold ids inside the score vector, the
`float` score of every token `t` before the repetition penalty is the `float`
sum, from `0.0f` and in this order, of the probabilities of the entries of id
`t` in the forward record of `last`, then, for every earlier position `i` in
turn whose bridge weight is not below `1e-9`, of the products
`(10000.0f * bridge_i) * p` for the entries of id `t` and probability `p` in the
forward record of `c[i]`; `bridge_i` is the `float` product
`p_next(last | c[i]) * p_prev(c[i] | last)`, a missing key or entry counts as
`0.0f` there and adds no term, and a position whose bridge weight is below
`1e-9` adds nothing.  In a record with pairwise distinct ids the entries of
id `t` are the single probability `p_next(t | k)`, when `t` occurs.  When the
stored probabilities are at most `1.0f`, no operation leaves the finite range:
a bridge weight is at most `1.0f` and a score at most `2^38`. -/
theorem fused_scores_float_formula :
    (∀ (p_next p_prev : Table32) (c : List Nat) (size : Nat),
      c ≠ [] →
      (∀ k ∈ c, ∀ dist, p_next k = some dist → ∀ e ∈ dist, e.token_id < size) →
      ∃ s, fuse_scores_f32 p_next p_prev c size = some s ∧ s.length = size ∧
        ∀ t, s.getD t 0 =
          (entries_of p_next (c.getLastD 0) t ++
            (c.dropLast.map (fun prev =>
              if f32_mul (prob_f32 p_next prev (c.getLastD 0))
                  (prob_f32 p_prev (c.getLastD 0) prev) < EPS_F64 then []
              else
                (entries_of p_next prev t).map (fun p =>
                  f32_mul
                    (f32_mul ATTENTION_MULTIPLIER_F32
                      (f32_mul (prob_f32 p_next prev (c.getLastD 0))
                        (prob_f32 p_prev (c.getLastD 0) prev))) p))).flatten).foldl
            f32_add 0) ∧
    (∀ (p_next : Table32) (k t : Nat) (dist : List ProbEntry32),
      p_next k = some dist → (dist.map ProbEntry32.token_id).Nodup →
      entries_of p_next k t =
        if t ∈ dist.map ProbEntry32.token_id then [prob_f32 p_next k t] else []) ∧
    (∀ (p_next : Table32) (k t : Nat), p_next k = none → entries_of p_next k t = []) ∧
    (∀ (p_next p_prev : Table32) (c : List Nat) (size : Nat) (s : List Nat),
      c ≠ [] →
      (∀ k ∈ c, ∀ dist, p_next k = some dist → ∀ e ∈ dist, e.token_id < size) →
      probs_at_most_one p_next → probs_at_most_one p_prev →
      fuse_scores_f32 p_next p_prev c size = some s →
      (∀ prev, f32_mul (prob_f32 p_next prev (c.getLastD 0))
        (prob_f32 p_prev (c.getLastD 0) prev) ≤ F32_ONE) ∧
      ∀ t, s.getD t 0 ≤ 2 ^ 38 * F32_ONE) :=
  ⟨fuse_scores_f32_spelled, entries_of_nodup, fun p_next k t h => by simp [entries_of, h],
    fuse_scores_f32_finite⟩

theorem fuse_scores_f32_demo_one :
    fuse_scores_f32 demo_p_next_f32 demo_p_prev_one_f32 [0, 1] 103 =
      some ([0, 400 * F32_ONE, 1000 * F32_ONE] ++ List.replicate 100 0) := by decide!

/-- Witness of C5 as amended, on the forward record `0 ↦ {1: 0.2f, 2: 0.5f}`, the
backward record `1 ↦ {0: 1.0f}`, the context ids `[0, 1]` and score vectors of
103 entries: the bridge weight is `0.2f`, and the scores of the ids 0, 1, 2 are
`0.0f`, `400.0f` and `1000.0f`, where the exact product `10000 * 0.2f * 0.2f`
is `400.0000119`. -/
theorem fused_scores_float_formula_witness :
    fuse_scores_f32 demo_p_next_f32 demo_p_prev_one_f32 [0, 1] 103 =
      some ([0, 400 * F32_ONE, 1000 * F32_ONE] ++ List.replicate 100 0) ∧
    ∃ s, fuse_scores_f32 demo_p_next_f32 demo_p_prev_one_f32 [0, 1] 103 = some s ∧
      s.length = 103 ∧
      ∀ t, s.getD t 0 =
        (entries_of demo_p_next_f32 (([0, 1] : List Nat).getLastD 0) t ++
          ((([0, 1] : List Nat).dropLast).map (fun prev =>
            if f32_mul (prob_f32 demo_p_next_f32 prev (([0, 1] : List Nat).getLastD 0))
                (prob_f32 demo_p_prev_one_f32 (([0, 1] : List Nat).getLastD 0) prev)
                < EPS_F64 then []
            else
              (entries_of demo_p_next_f32 prev t).map (fun p =>
                f32_mul
                  (f32_mul ATTENTION_MULTIPLIER_F32
                    (f32_mul
                      (prob_f32 demo_p_next_f32 prev (([0, 1] : List Nat).getLastD 0))
                      (prob_f32 demo_p_prev_one_f32 (([0, 1] : List Nat).getLastD 0) prev)))
                  p))).flatten).foldl f32_add 0 := by
  refine ⟨fuse_scores_f32_demo_one,
    fused_scores_float_formula.1 demo_p_next_f32 demo_p_prev_one_f32 [0, 1] 103 (by simp) ?_⟩
  intro k hk dist hd e he
  simp only [List.mem_cons, List.mem_singleton, List.not_mem_nil, or_false] at hk
  rcases hk with h | h <;> subst h <;> simp [demo_p_next_f32] at hd
  subst hd
  simp at he
  rcases he with h | h <;> subst h <;> simp

end AgenkLM
